import Mathlib

/-!
# AVLTree (mathsophy::AVLTree) : embedding and verification

The C++ class `AVLTree<T>` of `AVLTree.h` is embedded as follows.

* A pointer `AVLNode<T>*` is a value of `AVLNode α`: `nil` is the null pointer,
  `node key height balance left right` is a pointer to a node with those fields.
  The tree is its `root` pointer.
* `int` fields are `Int`; the key type is any linear order.  The claims about
  `is_balanced()` range over trees with arbitrary cached heights: for them the
  subtraction of `compute_node_balance` is modelled in the arithmetic of `int`
  (`wrap_int`, `compute_node_balance32`).
* The vector `path` of the mutators always holds the nodes of one downward chain
  that starts at the root (every element is a child of the one before it).  It is
  represented as a zipper: `Path.nodes above back` is a non-empty path whose last
  element is the node `back` (with its current subtree) and whose other elements
  are the frames `above`, nearest ancestor first; a frame records the fields of
  the ancestor, the child link leading to the next element of the path, and the
  subtree under its other link.  `Path.empty root` is the empty path.
* A result `none` stands for an execution that yields no result: a null pointer
  dereference, a loop that never exits, or (for `rebalance`) exhausted fuel.
-/

namespace mathsophy

/-- Pointer to a node (`AVLNode<T>*`): `nil` is `nullptr`. -/
inductive AVLNode (α : Type) where
  | nil : AVLNode α
  | node (key : α) (height : Int) (balance : Int) (left right : AVLNode α) : AVLNode α
  deriving DecidableEq, Repr

/-- Child link of a node. -/
inductive Dir where
  | left : Dir
  | right : Dir
  deriving DecidableEq, Repr

/-- An ancestor on the path: its fields, the link `dir` under which the next
element of the path hangs, and the subtree `other` under its other link. -/
structure Frame (α : Type) where
  dir : Dir
  key : α
  height : Int
  balance : Int
  other : AVLNode α
  deriving DecidableEq, Repr

/-- The vector `path` together with the tree it points into. -/
inductive Path (α : Type) where
  | empty (root : AVLNode α) : Path α
  | nodes (above : List (Frame α)) (back : AVLNode α) : Path α
  deriving DecidableEq, Repr

namespace AVLNode

variable {α : Type}

/-- The node of a frame with the subtree `t` hung under link `dir`. -/
def plug (f : Frame α) (t : AVLNode α) : AVLNode α :=
  match f.dir with
  | Dir.left => node f.key f.height f.balance t f.other
  | Dir.right => node f.key f.height f.balance f.other t

/-- The whole tree: the subtree `t` below the frames, nearest ancestor first. -/
def plugAll : List (Frame α) → AVLNode α → AVLNode α
  | [], t => t
  | f :: fs, t => plugAll fs (plug f t)

/-- The tree a path points into, seen from `root`. -/
def Path.tree : Path α → AVLNode α
  | Path.empty root => root
  | Path.nodes above back => plugAll above back

/-- The function `is_empty()`: `root == nullptr`. -/
def is_empty : AVLNode α → Bool
  | nil => true
  | node _ _ _ _ _ => false

/-- The function `new_node(key)`: a node built by `AVLNode(k, 1, 0, nullptr, nullptr)`. -/
def new_node (key : α) : AVLNode α := node key 1 0 nil nil

/-- The function `update_height_node(node)`, for a valid node pointer. -/
def update_height_node : AVLNode α → AVLNode α
  | nil => nil
  | node k _ b (node lk lh lb ll lr) (node rk rh rb rl rr) =>
      if lh > rh then node k (lh + 1) b (node lk lh lb ll lr) (node rk rh rb rl rr)
      else node k (rh + 1) b (node lk lh lb ll lr) (node rk rh rb rl rr)
  | node k _ b (node lk lh lb ll lr) nil => node k (lh + 1) b (node lk lh lb ll lr) nil
  | node k _ b nil (node rk rh rb rl rr) => node k (rh + 1) b nil (node rk rh rb rl rr)
  | node k _ b nil nil => node k 1 b nil nil

/-- The function `compute_node_balance(node)`: the value returned and the node after the
write to its `balance` field. -/
def compute_node_balance : AVLNode α → Int × AVLNode α
  | nil => (0, nil)
  | node k h _ (node lk lh lb ll lr) (node rk rh rb rl rr) =>
      (lh - rh, node k h (lh - rh) (node lk lh lb ll lr) (node rk rh rb rl rr))
  | node k h _ (node lk lh lb ll lr) nil => (lh, node k h lh (node lk lh lb ll lr) nil)
  | node k h _ nil (node rk rh rb rl rr) => (-rh, node k h (-rh) nil (node rk rh rb rl rr))
  | node k h _ nil nil => (0, node k h 0 nil nil)

/-- The function `rotate_left(node)`: `none` when `node` or `node->right` is null. -/
def rotate_left : AVLNode α → Option (AVLNode α)
  | node k h b l (node rk rh rb rl rr) =>
      -- new_left->right = new_parent->left; update_height_node(new_left)
      let new_left := update_height_node (node k h b l rl)
      -- new_parent->left = new_left; update_height_node(new_parent)
      some (update_height_node (node rk rh rb new_left rr))
  | _ => none

/-- The function `rotate_right(node)`: `none` when `node` or `node->left` is null. -/
def rotate_right : AVLNode α → Option (AVLNode α)
  | node k h b (node lk lh lb ll lr) r =>
      let new_right := update_height_node (node k h b lr r)
      some (update_height_node (node lk lh lb ll new_right))
  | _ => none

/-- The function `rebalance_to_right(node, parent)`: the new root of the subtree of `node`.
The re-linking of `parent` (or of `root`) is the replacement of the subtree in
its place on the path. -/
def rebalance_to_right : AVLNode α → Option (AVLNode α)
  | nil => none
  | node k h b l r =>
      let (balance_child, l) := compute_node_balance l
      if balance_child < 0 then
        match rotate_left l with
        | some l => rotate_right (node k h b l r)
        | none => none
      else rotate_right (node k h b l r)

/-- The function `rebalance_to_left(node, parent)`: the new root of the subtree of `node`. -/
def rebalance_to_left : AVLNode α → Option (AVLNode α)
  | nil => none
  | node k h b l r =>
      let (balance_child, r) := compute_node_balance r
      if balance_child > 0 then
        match rotate_right r with
        | some r => rotate_left (node k h b l r)
        | none => none
      else rotate_left (node k h b l r)

/-- The loop of `rebalance(path)`, one iteration per unit of fuel.  `above` and
the node are the path before `node = path.back(); path.pop_back()` (a null
pointer there would be dereferenced).  After a
rotation the old node is the right (left) child of the node returned, and both
are pushed back: the node returned becomes a frame and the old node the back. -/
def rebalance_loop : Nat → List (Frame α) → AVLNode α → Option (AVLNode α)
  | 0, _, _ => none
  | _ + 1, _, nil => none
  | fuel + 1, above, node k h b l r =>
      let (balance, cur) := compute_node_balance (node k h b l r)
      if balance > 1 then
        match rebalance_to_right cur with
        | some new_node =>
            match update_height_node new_node with
            | node nk nh nb nl nr => rebalance_loop fuel (⟨Dir.right, nk, nh, nb, nl⟩ :: above) nr
            | nil => none
        | none => none
      else if balance < -1 then
        match rebalance_to_left cur with
        | some new_node =>
            match update_height_node new_node with
            | node nk nh nb nl nr => rebalance_loop fuel (⟨Dir.left, nk, nh, nb, nr⟩ :: above) nl
            | nil => none
        | none => none
      else
        let new_node := update_height_node cur
        match above with
        | [] => some new_node
        | f :: above => rebalance_loop fuel above (plug f new_node)

/-- The function `rebalance(path)`: the root afterwards. -/
def rebalance (fuel : Nat) : Path α → Option (AVLNode α)
  | Path.empty root => some root
  | Path.nodes above back => rebalance_loop fuel above back

section ordered

variable [LinearOrder α]

/-- The traversal loop of `insertnb` and the attachment after it.  `path` is the
vector so far (the link of each frame is the one the loop followed), `node` the
loop variable. -/
def insertnb_loop (key : α) : List (Frame α) → AVLNode α → Path α
  | path, node k h b l r =>
      if key > k then insertnb_loop key (⟨Dir.right, k, h, b, l⟩ :: path) r
      else if key < k then insertnb_loop key (⟨Dir.left, k, h, b, r⟩ :: path) l
      else Path.empty (plugAll path (node k h b l r))
  | [], nil => Path.empty (new_node key)
  | parent :: path, nil =>
      match plug parent nil with
      | node k h b l r =>
          if key > k then Path.nodes path (node k h b l (new_node key))
          else Path.nodes path (node k h b (new_node key) r)
      | nil => Path.empty nil

/-- The function `insertnb(key, path)`. -/
def insertnb (root : AVLNode α) (key : α) : Path α :=
  match root with
  | nil => Path.empty (new_node key)
  | root => insertnb_loop key [] root

/-- The loop of `unbalanced_insert` and `unbalanced_remove` over the path:
`compute_node_balance(node); update_height_node(node)` for each node popped. -/
def refresh_loop : List (Frame α) → AVLNode α → AVLNode α
  | [], cur => update_height_node (compute_node_balance cur).2
  | f :: above, cur =>
      refresh_loop above (plug f (update_height_node (compute_node_balance cur).2))

/-- The path loop of the unbalanced mutators; the root afterwards. -/
def refresh : Path α → AVLNode α
  | Path.empty root => root
  | Path.nodes above back => refresh_loop above back

/-- The function `insert(key)`: the root afterwards. -/
def insert (fuel : Nat) (root : AVLNode α) (key : α) : Option (AVLNode α) :=
  rebalance fuel (insertnb root key)

/-- The function `unbalanced_insert(key)`: the root afterwards. -/
def unbalanced_insert (root : AVLNode α) (key : α) : AVLNode α :=
  refresh (insertnb root key)

/-- The function `find(key)`: the node found, or `none` for `nullptr`. -/
def find : AVLNode α → α → Option (AVLNode α)
  | nil, _ => none
  | node k h b l r, key =>
      if key > k then find r key
      else if key < k then find l key
      else some (node k h b l r)

/-- The loop of `cut_off_node` that walks down from the promoted child with the
key of `sibling`, and the attachment of `sibling` after it.  `none`: the loop
meets a node whose key equals the key of `sibling` and never exits. -/
def splice_loop (sibling : AVLNode α) (skey : α) : List (Frame α) → AVLNode α → Option (Path α)
  | path, node k h b l r =>
      if skey > k then splice_loop sibling skey (⟨Dir.right, k, h, b, l⟩ :: path) r
      else if skey < k then splice_loop sibling skey (⟨Dir.left, k, h, b, r⟩ :: path) l
      else none
  | [], nil => none
  | parent :: path, nil =>
      match plug parent nil with
      | node k h b l r =>
          if skey > k then some (Path.nodes path (node k h b l sibling))
          else some (Path.nodes path (node k h b sibling r))
      | nil => none

/-- The path after the link that pointed at the node cut off has been set to
`child` (`root`, `parent->left` or `parent->right`). -/
def relink (path : List (Frame α)) (child : AVLNode α) : Path α :=
  match path with
  | [] => Path.empty child
  | parent :: path => Path.nodes path (plug parent child)

/-- The function `cut_off_node(node, parent, path)`: `cur` is `node`, `path` holds its
ancestors, `parent` first. -/
def cut_off_node (cur : AVLNode α) (path : List (Frame α)) : Option (Path α) :=
  match cur with
  | nil => none
  | node _ _ _ nil nil => some (relink path nil)
  | node _ _ _ (node lk lh lb ll lr) nil => some (relink path (node lk lh lb ll lr))
  | node _ _ _ nil (node rk rh rb rl rr) => some (relink path (node rk rh rb rl rr))
  | node _ _ _ (node lk lh lb ll lr) (node rk rh rb rl rr) =>
      if lh > rh then
        splice_loop (node rk rh rb rl rr) rk path (node lk lh lb ll lr)
      else if lh < rh then
        splice_loop (node lk lh lb ll lr) lk path (node rk rh rb rl rr)
      else if lk > rk then
        splice_loop (node rk rh rb rl rr) rk path (node lk lh lb ll lr)
      else
        splice_loop (node lk lh lb ll lr) lk path (node rk rh rb rl rr)

/-- The traversal loop of `removenb` and what follows it. -/
def removenb_loop (key : α) : List (Frame α) → AVLNode α → Option (Path α)
  | path, nil => some (Path.empty (plugAll path nil))
  | path, node k h b l r =>
      if key > k then removenb_loop key (⟨Dir.right, k, h, b, l⟩ :: path) r
      else if key < k then removenb_loop key (⟨Dir.left, k, h, b, r⟩ :: path) l
      else cut_off_node (node k h b l r) path

/-- The function `removenb(key, path)`. -/
def removenb (root : AVLNode α) (key : α) : Option (Path α) :=
  match root with
  | nil => some (Path.empty nil)
  | root => removenb_loop key [] root

/-- The function `remove(key)`: the root afterwards. -/
def remove (fuel : Nat) (root : AVLNode α) (key : α) : Option (AVLNode α) :=
  match removenb root key with
  | some path => rebalance fuel path
  | none => none

/-- The function `unbalanced_remove(key)`: the root afterwards. -/
def unbalanced_remove (root : AVLNode α) (key : α) : Option (AVLNode α) :=
  match removenb root key with
  | some path => some (refresh path)
  | none => none

end ordered

/-- Number of nodes. -/
def size : AVLNode α → Nat
  | nil => 0
  | node _ _ _ l r => size l + 1 + size r

/-- Pushes `child` at the back of the queue `q` when it is not null. -/
def push_child (q : List (AVLNode α)) (child : AVLNode α) : List (AVLNode α) :=
  match child with
  | nil => q
  | node _ _ _ _ _ => q ++ [child]

/-- Measure of a queue for the termination of the breadth-first traversal. -/
def queue_measure (q : List (AVLNode α)) : Nat := (q.map fun t => 2 * size t + 1).sum

/-- The loop of `is_balanced()` over the queue `q` of the breadth-first
traversal.  The queue only ever holds pointers to nodes (a null pointer in it
would be skipped here).  The value returned does not depend on the writes of
`compute_node_balance` to the `balance` fields, which are never read. -/
def is_balanced_loop : List (AVLNode α) → Bool
  | [] => true
  | nil :: q => is_balanced_loop q
  | node k h b l r :: q =>
      let balance := (compute_node_balance (node k h b l r)).1
      if balance < -1 ∨ balance > 1 then false
      else is_balanced_loop (push_child (push_child q l) r)
termination_by q => queue_measure q
decreasing_by
  · simp [queue_measure]
  · have push : ∀ (q : List (AVLNode α)) (c : AVLNode α),
        queue_measure (push_child q c) ≤ queue_measure q + 2 * size c + 1 := by
      intro q c
      cases c with
      | nil => simp [push_child, queue_measure, size, List.sum_append]
      | node _ _ _ _ _ =>
          simp only [push_child, queue_measure, size, List.sum_append, List.map_append,
            List.map_cons, List.map_nil, List.sum_cons, List.sum_nil]
          omega
    have h1 := push (push_child q l) r
    have h2 := push q l
    simp only [queue_measure, List.map_cons, List.sum_cons, size] at *
    omega

/-- The function `is_balanced()`. -/
def is_balanced (root : AVLNode α) : Bool :=
  match root with
  | nil => true
  | root => is_balanced_loop [root]

/-! ## Vocabulary of the specification -/

/-- In-order traversal: the keys, left subtree first. -/
def inorder : AVLNode α → List α
  | nil => []
  | node k _ _ l r => inorder l ++ k :: inorder r

/-- Cached height of the node pointed at, an absent node counted as 0. -/
def cached_height : AVLNode α → Int
  | nil => 0
  | node _ h _ _ _ => h

/-- True height of a subtree: 0 when absent, 1 for a leaf, otherwise 1 + the
larger of the true heights of the children. -/
def true_height : AVLNode α → Nat
  | nil => 0
  | node _ _ _ l r => 1 + max (true_height l) (true_height r)

/-- Every node's cached `height` equals its true subtree height. -/
def heights_exact : AVLNode α → Prop
  | nil => True
  | node k h b l r =>
      h = (true_height (node k h b l r) : Int) ∧ heights_exact l ∧ heights_exact r

/-- Every node's left/right true height difference lies in [-1,1]. -/
def height_balanced : AVLNode α → Prop
  | nil => True
  | node _ _ _ l r =>
      (true_height l ≤ true_height r + 1 ∧ true_height r ≤ true_height l + 1) ∧
        height_balanced l ∧ height_balanced r

/-- Every node's balance factor computed from the cached heights of its
children (absent child = 0) lies in [-1,1]. -/
def cached_balanced : AVLNode α → Prop
  | nil => True
  | node _ _ _ l r =>
      (-1 ≤ cached_height l - cached_height r ∧ cached_height l - cached_height r ≤ 1) ∧
        cached_balanced l ∧ cached_balanced r

/-- Decision procedure for `heights_exact`. -/
def heights_exact_dec : (t : AVLNode α) → Decidable (heights_exact t)
  | nil => isTrue trivial
  | node _ _ _ l r =>
      have := heights_exact_dec l
      have := heights_exact_dec r
      inferInstanceAs (Decidable (_ ∧ _ ∧ _))

instance (t : AVLNode α) : Decidable (heights_exact t) := heights_exact_dec t

/-- Decision procedure for `height_balanced`. -/
def height_balanced_dec : (t : AVLNode α) → Decidable (height_balanced t)
  | nil => isTrue trivial
  | node _ _ _ l r =>
      have := height_balanced_dec l
      have := height_balanced_dec r
      inferInstanceAs (Decidable (_ ∧ _ ∧ _))

instance (t : AVLNode α) : Decidable (height_balanced t) := height_balanced_dec t

/-- Decision procedure for `cached_balanced`. -/
def cached_balanced_dec : (t : AVLNode α) → Decidable (cached_balanced t)
  | nil => isTrue trivial
  | node _ _ _ l r =>
      have := cached_balanced_dec l
      have := cached_balanced_dec r
      inferInstanceAs (Decidable (_ ∧ _ ∧ _))

instance (t : AVLNode α) : Decidable (cached_balanced t) := cached_balanced_dec t

/-- A fuelled run returns `v`: from some amount of fuel on, every run yields `v`. -/
def Returns {β : Type} (run : Nat → Option β) (v : β) : Prop :=
  ∃ fuel, ∀ n, fuel ≤ n → run n = some v

section ordered

variable [LinearOrder α]

/-- Search-tree order: the in-order traversal is strictly increasing. -/
def search_tree (t : AVLNode α) : Prop := (inorder t).Pairwise (· < ·)

instance (t : AVLNode α) : Decidable (search_tree t) :=
  inferInstanceAs (Decidable ((inorder t).Pairwise (· < ·)))

/-- The tree `t2` holds the keys of `t` together with `key`, and has one node
more than `t` exactly when `key` was absent from `t`. -/
def one_key_added (t : AVLNode α) (key : α) (t2 : AVLNode α) : Prop :=
  (∀ x, x ∈ inorder t2 ↔ x = key ∨ x ∈ inorder t) ∧
    (key ∈ inorder t → size t2 = size t) ∧ (key ∉ inorder t → size t2 = size t + 1)

/-- A call of `insert` or of `remove`, in the balanced or the unbalanced variant. -/
inductive Op (α : Type) where
  | insert (key : α) : Op α
  | remove (key : α) : Op α

/-- One balanced call on the tree `root`. -/
def run_op (fuel : Nat) (root : AVLNode α) : Op α → Option (AVLNode α)
  | Op.insert key => insert fuel root key
  | Op.remove key => remove fuel root key

/-- A sequence of balanced calls, first call first. -/
def run_ops (fuel : Nat) : List (Op α) → AVLNode α → Option (AVLNode α)
  | [], root => some root
  | op :: ops, root =>
      match run_op fuel root op with
      | some root => run_ops fuel ops root
      | none => none

/-- The tree built from a list of keys by balanced insertion, first key first. -/
def build (fuel : Nat) (keys : List α) : Option (AVLNode α) :=
  run_ops fuel (keys.map Op.insert) nil

end ordered

/-! ## Auxiliary notions used in the proofs -/

/-- The value `update_height_node` writes into the `height` field of a node with
children `l` and `r`. -/
def new_height : AVLNode α → AVLNode α → Int
  | node _ lh _ _ _, node _ rh _ _ _ => if lh > rh then lh + 1 else rh + 1
  | node _ lh _ _ _, nil => lh + 1
  | nil, node _ rh _ _ _ => rh + 1
  | nil, nil => 1

/-- Sum of the true heights of all nodes. -/
def height_sum : AVLNode α → Nat
  | nil => 0
  | node _ _ _ l r => (1 + max (true_height l) (true_height r)) + height_sum l + height_sum r

/-- Sum over all nodes of the amount by which the true height difference of the
children exceeds 1. -/
def excess : AVLNode α → Nat
  | nil => 0
  | node _ _ _ l r =>
      (max (true_height l) (true_height r) - min (true_height l) (true_height r) - 1)
        + excess l + excess r

/-- Invariant of the subtrees off the path, in three strengths: nothing at level
0, exact cached heights from level 1 on, balanced as well from level 2 on. -/
def good (lvl : Nat) (t : AVLNode α) : Prop :=
  (1 ≤ lvl → heights_exact t) ∧ (2 ≤ lvl → height_balanced t)

/-- The subtrees hanging off the path are `good`. -/
def frames_ok (lvl : Nat) (fs : List (Frame α)) : Prop := ∀ f ∈ fs, good lvl f.other

/-- The node is not null and the subtrees of its children are `good`. -/
def kids_ok (lvl : Nat) : AVLNode α → Prop
  | nil => False
  | node _ _ _ l r => good lvl l ∧ good lvl r

/-- Everything but the nodes of the path is `good`. -/
def path_ok (lvl : Nat) : Path α → Prop
  | Path.empty root => good lvl root
  | Path.nodes above back => frames_ok lvl above ∧ kids_ok lvl back

/-- Measure of termination of the loop of `rebalance`, compared lexicographically:
sum of true heights, excess imbalance, length of the path. -/
def path_measure_lt (above2 : List (Frame α)) (cur2 : AVLNode α) (above : List (Frame α))
    (cur : AVLNode α) : Prop :=
  height_sum (plugAll above2 cur2) < height_sum (plugAll above cur) ∨
    (height_sum (plugAll above2 cur2) = height_sum (plugAll above cur) ∧
      excess (plugAll above2 cur2) < excess (plugAll above cur)) ∨
    (height_sum (plugAll above2 cur2) = height_sum (plugAll above cur) ∧
      excess (plugAll above2 cur2) = excess (plugAll above cur) ∧
      above2.length < above.length)

/-- In-order traversal of the tree around a subtree whose traversal is `mid`. -/
def inorder_around : List (Frame α) → List α → List α
  | [], mid => mid
  | f :: fs, mid =>
      match f.dir with
      | Dir.left => inorder_around fs (mid ++ f.key :: inorder f.other)
      | Dir.right => inorder_around fs (inorder f.other ++ f.key :: mid)

section ordered

variable [LinearOrder α]

/-- The link of the nearest frame is the one a descent with `key` follows. -/
def head_ok (key : α) : List (Frame α) → Prop
  | [] => True
  | f :: _ => (f.dir = Dir.right ↔ key > f.key)

/-- Recursive description of the tree left by `insertnb`. -/
def bst_insert (key : α) : AVLNode α → AVLNode α
  | nil => new_node key
  | node k h b l r =>
      if key > k then node k h b l (bst_insert key r)
      else if key < k then node k h b (bst_insert key l) r
      else node k h b l r

/-- Recursive description of the descent of `cut_off_node`: `sibling` is hung
at the null link a descent with `skey` reaches. -/
def graft (sibling : AVLNode α) (skey : α) : AVLNode α → AVLNode α
  | nil => sibling
  | node k h b l r =>
      if skey > k then node k h b l (graft sibling skey r)
      else node k h b (graft sibling skey l) r

/-- What `cut_off_node` leaves in the place of the node cut off. -/
def cut : AVLNode α → AVLNode α
  | nil => nil
  | node _ _ _ nil nil => nil
  | node _ _ _ (node lk lh lb ll lr) nil => node lk lh lb ll lr
  | node _ _ _ nil (node rk rh rb rl rr) => node rk rh rb rl rr
  | node _ _ _ (node lk lh lb ll lr) (node rk rh rb rl rr) =>
      if lh > rh then graft (node rk rh rb rl rr) rk (node lk lh lb ll lr)
      else if lh < rh then graft (node lk lh lb ll lr) lk (node rk rh rb rl rr)
      else if lk > rk then graft (node rk rh rb rl rr) rk (node lk lh lb ll lr)
      else graft (node lk lh lb ll lr) lk (node rk rh rb rl rr)

/-- Recursive description of the tree left by `removenb`. -/
def bst_remove (key : α) : AVLNode α → AVLNode α
  | nil => nil
  | node k h b l r =>
      if key > k then node k h b l (bst_remove key r)
      else if key < k then node k h b (bst_remove key l) r
      else cut (node k h b l r)

end ordered

/-! ## Concrete trees -/

/-- The tree built from the keys 20, 10, 30, 5, 15 by balanced insertion. -/
def example_tree : AVLNode Nat :=
  node 20 3 1
    (node 10 2 0 (node 5 1 0 nil nil) (node 15 1 0 nil nil))
    (node 30 1 0 nil nil)

/-! ## Copy assignment -/

/-- The function `clear()`: every node is freed and `root` is `nullptr` afterwards. -/
def clear (_root : AVLNode α) : AVLNode α := nil

/-- The tree `t` after `f` was applied to the node reached from its root by
following the links `pos`.  A pointer to a node of the copy under construction
is the list of links leading to it from the root of the copy. -/
def modify_at (f : AVLNode α → AVLNode α) : List Dir → AVLNode α → AVLNode α
  | [], t => f t
  | _ :: _, nil => nil
  | Dir.left :: pos, node k h b l r => node k h b (modify_at f pos l) r
  | Dir.right :: pos, node k h b l r => node k h b l (modify_at f pos r)

/-- The assignments `copy_node->key = k; copy_node->height = h; copy_node->balance = b`. -/
def set_fields (k : α) (h b : Int) : AVLNode α → AVLNode α
  | nil => nil
  | node _ _ _ l r => node k h b l r

/-- The assignment `copy_node->left = c` or `copy_node->right = c`. -/
def set_child (d : Dir) (c : AVLNode α) : AVLNode α → AVLNode α
  | nil => nil
  | node k h b l r =>
      match d with
      | Dir.left => node k h b c r
      | Dir.right => node k h b l c

/-- The copy after `copy_node->left = new_node(0)` (or `right`), done when the
child `child` of the source node is not null; `pos` points at `copy_node`. -/
def link_placeholder (zero : α) (pos : List Dir) (d : Dir) (child : AVLNode α)
    (copy : AVLNode α) : AVLNode α :=
  match child with
  | nil => copy
  | node _ _ _ _ _ => modify_at (set_child d (new_node zero)) pos copy

/-- The queue `qc` after the pointer to the new child of `copy_node` was pushed,
when the child `child` of the source node is not null. -/
def push_pos (qc : List (List Dir)) (pos : List Dir) (d : Dir) (child : AVLNode α) :
    List (List Dir) :=
  match child with
  | nil => qc
  | node _ _ _ _ _ => qc ++ [pos ++ [d]]

/-- The loop of `operator=`: `copy` is the tree under `this->root`, `q` the queue
of source nodes, `qc` the queue of pointers to the nodes of the copy.  `zero` is
the key `T(0)` of `new_node(0)`.  `none`: a null pointer is dereferenced
(`node->key` for a null `node` of `q`), or `qc.front()` is taken of an empty
vector. -/
def assign_loop (zero : α) : AVLNode α → List (AVLNode α) → List (List Dir) →
    Option (AVLNode α)
  | copy, [], _ => some copy
  | _, nil :: _, _ => none
  | _, node _ _ _ _ _ :: _, [] => none
  | copy, node k h b l r :: q, pos :: qc =>
      let copy1 := modify_at (set_fields k h b) pos copy
      let copy2 := link_placeholder zero pos Dir.left l copy1
      let qc1 := push_pos qc pos Dir.left l
      let copy3 := link_placeholder zero pos Dir.right r copy2
      let qc2 := push_pos qc1 pos Dir.right r
      assign_loop zero copy3 (push_child (push_child q l) r) qc2
termination_by _ q _ => queue_measure q
decreasing_by
  have push : ∀ (q : List (AVLNode α)) (c : AVLNode α),
      queue_measure (push_child q c) ≤ queue_measure q + 2 * size c + 1 := by
    intro q c
    cases c with
    | nil => simp [push_child, queue_measure, size, List.sum_append]
    | node _ _ _ _ _ =>
        simp only [push_child, queue_measure, size, List.sum_append, List.map_append,
          List.map_cons, List.map_nil, List.sum_cons, List.sum_nil]
        omega
  have h1 := push (push_child q l) r
  have h2 := push q l
  simp only [queue_measure, List.map_cons, List.sum_cons, size] at *
  omega

/-- The function `operator=(tree)` on the tree `root`, with a source `tree_root` that is
another tree (none of its nodes is under `root`, whose nodes `clear()` frees
first): the root of the assigned tree afterwards.  The copy constructor runs
the same code on a `root` it has not initialised. -/
def assign (zero : α) (root tree_root : AVLNode α) : Option (AVLNode α) :=
  let _cleared := if is_empty root then root else clear root
  assign_loop zero (new_node zero) [tree_root] [[]]

/-! ## Further vocabulary of the specification -/

/-- The keys down the right spine, top first, of a tree in which no node has a
left child; `none` when some node on the spine has a left child. -/
def spine_keys : AVLNode α → Option (List α)
  | nil => some []
  | node k _ _ nil r =>
      match spine_keys r with
      | some ks => some (k :: ks)
      | none => none
  | node _ _ _ (node _ _ _ _ _) _ => none

/-- Shape and keys of a tree: the tree with every cached height and balance set to 0. -/
def keys_only : AVLNode α → AVLNode α
  | nil => nil
  | node k _ _ l r => node k 0 0 (keys_only l) (keys_only r)

/-- Key of the node pointed at, `none` for a null pointer. -/
def root_key : AVLNode α → Option α
  | nil => none
  | node k _ _ _ _ => some k

/-- The subtree `s` hung as the left child of the leftmost node of `t`. -/
def attach_leftmost (s : AVLNode α) : AVLNode α → AVLNode α
  | nil => s
  | node k h b l r => node k h b (attach_leftmost s l) r

/-- The subtree `s` hung as the right child of the rightmost node of `t`. -/
def attach_rightmost (s : AVLNode α) : AVLNode α → AVLNode α
  | nil => s
  | node k h b l r => node k h b l (attach_rightmost s r)

/-- In the tree `t2`, which has the ancestors `path` above a slot, the node in
that slot holds the key `k`: shape and keys of `t2` are those of the ancestors
around some subtree whose root holds `k`. -/
def slot_holds (path : List (Frame α)) (t2 : AVLNode α) (k : α) : Prop :=
  ∃ s, keys_only t2 = keys_only (plugAll path s) ∧ root_key s = some k

/-! ## Further auxiliary notions used in the proofs -/

/-- The node reached from the root of `t` by following the links `pos`. -/
def subtree_at : List Dir → AVLNode α → AVLNode α
  | [], t => t
  | _ :: _, nil => nil
  | Dir.left :: pos, node _ _ _ l _ => subtree_at pos l
  | Dir.right :: pos, node _ _ _ _ r => subtree_at pos r

/-- The pointers of `pend` that lead through the link `d`, seen from the child
under that link. -/
def strip (d : Dir) (pend : List (List Dir)) : List (List Dir) :=
  pend.filterMap fun p =>
    match p with
    | [] => none
    | e :: rest => if e = d then some rest else none

/-- The copy of `t` under construction while the nodes at the pointers `pend`
are still waiting in the queue: each of them is a fresh `new_node(0)`, the nodes
above them are copied. -/
def partial_copy (zero : α) : List (List Dir) → AVLNode α → AVLNode α
  | pend, nil => if [] ∈ pend then new_node zero else nil
  | pend, node k h b l r =>
      if [] ∈ pend then new_node zero
      else node k h b (partial_copy zero (strip Dir.left pend) l)
        (partial_copy zero (strip Dir.right pend) r)

/-- What the copy holds for a child `c` of the source node just copied: a fresh
`new_node(0)` when `c` is not null. -/
def placeholder_for (zero : α) : AVLNode α → AVLNode α
  | nil => nil
  | node _ _ _ _ _ => new_node zero

/-- Neither pointer leads through the node of the other. -/
def apart (p q : List Dir) : Prop := ¬ p <+: q ∧ ¬ q <+: p

/-- What the loop of the unbalanced mutators does to a node popped off the path:
`compute_node_balance(node); update_height_node(node)`. -/
def fixup (t : AVLNode α) : AVLNode α := update_height_node (compute_node_balance t).2

/-- The loop of the unbalanced mutators over the ancestors `path` of a subtree
`t` that is already up to date. -/
def refresh_up : List (Frame α) → AVLNode α → AVLNode α
  | [], t => t
  | f :: fs, t => refresh_up fs (fixup (plug f t))

/-- The tree with the keys `ks` down its right spine and no left child, with the
cached heights and balances the unbalanced insertion leaves. -/
def right_chain : List α → AVLNode α
  | [] => nil
  | k :: ks => node k ((ks.length + 1 : Nat) : Int) (-((ks.length : Nat) : Int)) nil (right_chain ks)

section ordered

variable [LinearOrder α]

/-- The frames `path` are the nodes a traversal with `key` visits, nearest
ancestor first: each link followed is right when `key` is greater than the key
of the node, left when it is less. -/
def descends (key : α) (path : List (Frame α)) : Prop :=
  ∀ f ∈ path, (f.dir = Dir.right ∧ key > f.key) ∨ (f.dir = Dir.left ∧ key < f.key)

instance (key : α) (path : List (Frame α)) : Decidable (descends key path) :=
  inferInstanceAs (Decidable (∀ f ∈ path, _))

/-- The unbalanced variant of a call. -/
def run_unbalanced_op (root : AVLNode α) : Op α → Option (AVLNode α)
  | Op.insert key => some (unbalanced_insert root key)
  | Op.remove key => unbalanced_remove root key

/-- A sequence of unbalanced calls, first call first. -/
def run_unbalanced_ops : List (Op α) → AVLNode α → Option (AVLNode α)
  | [], root => some root
  | op :: ops, root =>
      match run_unbalanced_op root op with
      | some root => run_unbalanced_ops ops root
      | none => none

/-- The keys held after a sequence of calls, as a list read as a set, from the
keys `l` held before: an insertion adds its key, a removal filters its key out. -/
def key_model : List (Op α) → List α → List α
  | [], l => l
  | Op.insert k :: ops, l => key_model ops (k :: l)
  | Op.remove k :: ops, l => key_model ops (l.filter (fun x => x ≠ k))

/-- Recursive description of `unbalanced_insert`: the tree left when `key` is
absent from the nodes visited, `none` when the traversal meets `key`. -/
def unbalanced_insert_rec (key : α) : AVLNode α → Option (AVLNode α)
  | nil => some (new_node key)
  | node k h b l r =>
      if key > k then
        match unbalanced_insert_rec key r with
        | some r2 => some (fixup (node k h b l r2))
        | none => none
      else if key < k then
        match unbalanced_insert_rec key l with
        | some l2 => some (fixup (node k h b l2 r))
        | none => none
      else none

end ordered

/-! ## Further concrete trees -/

/-- The node holding 10 in `example_tree`: two children of equal cached height. -/
def example_node : AVLNode Nat :=
  node 10 2 0 (node 5 1 0 nil nil) (node 15 1 0 nil nil)

/-- The path from the root of `example_tree` to the parent of `example_node`. -/
def example_path : List (Frame Nat) :=
  [⟨Dir.left, 20, 3, 1, node 30 1 0 nil nil⟩]

/-! ## Cached balances, counted rebalancing, the writes of the balance check -/

/-- Every node of the tree satisfies `q` at its cached balance and the true
heights of its left and right subtrees. -/
def all_nodes (q : Int → Nat → Nat → Prop) : AVLNode α → Prop
  | nil => True
  | node _ _ b l r => q b (true_height l) (true_height r) ∧ all_nodes q l ∧ all_nodes q r

/-- Decision procedure for `all_nodes`. -/
def all_nodes_dec (q : Int → Nat → Nat → Prop) [∀ b x y, Decidable (q b x y)] :
    (t : AVLNode α) → Decidable (all_nodes q t)
  | nil => isTrue trivial
  | node _ _ b l r =>
      have := all_nodes_dec q l
      have := all_nodes_dec q r
      inferInstanceAs (Decidable (q b (true_height l) (true_height r) ∧ all_nodes q l ∧
        all_nodes q r))

instance (q : Int → Nat → Nat → Prop) [∀ b x y, Decidable (q b x y)] (t : AVLNode α) :
    Decidable (all_nodes q t) := all_nodes_dec q t

/-- The cached balance `b` is the height `x` of the left subtree minus the
height `y` of the right subtree. -/
def balance_exact (b : Int) (x y : Nat) : Prop := b = (x : Int) - (y : Int)

instance (b : Int) (x y : Nat) : Decidable (balance_exact b x y) :=
  inferInstanceAs (Decidable (b = (x : Int) - (y : Int)))

/-- The cached balance `b` is -1, 0 or 1. -/
def balance_in_range (b : Int) (_x _y : Nat) : Prop := -1 ≤ b ∧ b ≤ 1

instance (b : Int) (x y : Nat) : Decidable (balance_in_range b x y) :=
  inferInstanceAs (Decidable (-1 ≤ b ∧ b ≤ 1))

/-- The cached balance `b` is the height difference `x - y`, or it is the value
written just before the node was moved by the first rotation of a double
rotation: -1 while the difference is 0 or 1 (left-right), 1 while the
difference is 0 or -1 (right-left). -/
def balance_exact_or_moved (b : Int) (x y : Nat) : Prop :=
  b = (x : Int) - (y : Int) ∨ (b = -1 ∧ (x = y ∨ x = y + 1)) ∨ (b = 1 ∧ (x = y ∨ y = x + 1))

instance (b : Int) (x y : Nat) : Decidable (balance_exact_or_moved b x y) :=
  inferInstanceAs (Decidable (b = (x : Int) - (y : Int) ∨ (b = -1 ∧ (x = y ∨ x = y + 1)) ∨
    (b = 1 ∧ (x = y ∨ y = x + 1))))

/-- Every node's cached balance equals the height of its left subtree minus the
height of its right subtree (an absent subtree has height 0). -/
def balances_exact (t : AVLNode α) : Prop := all_nodes balance_exact t

instance (t : AVLNode α) : Decidable (balances_exact t) :=
  inferInstanceAs (Decidable (all_nodes balance_exact t))

/-- Every node's cached balance is -1, 0 or 1. -/
def balances_in_range (t : AVLNode α) : Prop := all_nodes balance_in_range t

instance (t : AVLNode α) : Decidable (balances_in_range t) :=
  inferInstanceAs (Decidable (all_nodes balance_in_range t))

/-- Every node's cached balance is the height difference of its subtrees or
the value a double rotation left behind. -/
def balances_exact_or_moved (t : AVLNode α) : Prop := all_nodes balance_exact_or_moved t

instance (t : AVLNode α) : Decidable (balances_exact_or_moved t) :=
  inferInstanceAs (Decidable (all_nodes balance_exact_or_moved t))

/-- The loop of `rebalance` (`rebalance_loop`) together with the number of calls
of `rebalance_to_right` and `rebalance_to_left` it makes. -/
def rebalance_loop_calls : Nat → List (Frame α) → AVLNode α → Option (AVLNode α × Nat)
  | 0, _, _ => none
  | _ + 1, _, nil => none
  | fuel + 1, above, node k h b l r =>
      let (balance, cur) := compute_node_balance (node k h b l r)
      if balance > 1 then
        match rebalance_to_right cur with
        | some new_node =>
            match update_height_node new_node with
            | node nk nh nb nl nr =>
                (rebalance_loop_calls fuel (⟨Dir.right, nk, nh, nb, nl⟩ :: above) nr).map
                  fun res => (res.1, res.2 + 1)
            | nil => none
        | none => none
      else if balance < -1 then
        match rebalance_to_left cur with
        | some new_node =>
            match update_height_node new_node with
            | node nk nh nb nl nr =>
                (rebalance_loop_calls fuel (⟨Dir.left, nk, nh, nb, nr⟩ :: above) nl).map
                  fun res => (res.1, res.2 + 1)
            | nil => none
        | none => none
      else
        let new_node := update_height_node cur
        match above with
        | [] => some (new_node, 0)
        | f :: above => rebalance_loop_calls fuel above (plug f new_node)

/-- The function `rebalance(path)`: the root afterwards and the number of calls of
`rebalance_to_right` and `rebalance_to_left`. -/
def rebalance_calls (fuel : Nat) : Path α → Option (AVLNode α × Nat)
  | Path.empty root => some (root, 0)
  | Path.nodes above back => rebalance_loop_calls fuel above back

/-- The value of an `int` expression whose mathematical value is `x`: `int` is
32 bits wide in two's complement, and the compiled code wraps around where the
mathematical value does not fit (the C++ standard leaves that case
undefined). -/
def wrap_int (x : Int) : Int := (x + 2147483648) % 4294967296 - 2147483648

/-- The function `compute_node_balance(node)` with the arithmetic of `int`: the
value returned and the node after the write to its `balance` field.  It agrees
with `compute_node_balance` whenever the difference of the cached heights fits
in an `int`. -/
def compute_node_balance32 : AVLNode α → Int × AVLNode α
  | nil => (0, nil)
  | node k h _ (node lk lh lb ll lr) (node rk rh rb rl rr) =>
      (wrap_int (lh - rh),
        node k h (wrap_int (lh - rh)) (node lk lh lb ll lr) (node rk rh rb rl rr))
  | node k h _ (node lk lh lb ll lr) nil => (lh, node k h lh (node lk lh lb ll lr) nil)
  | node k h _ nil (node rk rh rb rl rr) =>
      (wrap_int (-rh), node k h (wrap_int (-rh)) nil (node rk rh rb rl rr))
  | node k h _ nil nil => (0, node k h 0 nil nil)

/-- The loop of `is_balanced()` with its writes and the arithmetic of `int`:
`tree` is the tree under `root`, the queue holds pointers to its nodes (the
links leading to them from the root), one iteration per unit of fuel.  The
result is the value returned and the tree afterwards.  `none`: a null pointer
is dereferenced, or the fuel is used up. -/
def is_balanced_run_loop : Nat → AVLNode α → List (List Dir) → Option (Bool × AVLNode α)
  | _, tree, [] => some (true, tree)
  | 0, _, _ :: _ => none
  | fuel + 1, tree, pos :: q =>
      match subtree_at pos tree with
      | nil => none
      | node k h b l r =>
          let q1 := push_pos q pos Dir.left l
          let q2 := push_pos q1 pos Dir.right r
          let balance := (compute_node_balance32 (node k h b l r)).1
          let tree2 := modify_at (fun cur => (compute_node_balance32 cur).2) pos tree
          if balance < -1 ∨ balance > 1 then some (false, tree2)
          else is_balanced_run_loop fuel tree2 q2

/-- The function `is_balanced()` with its writes and the arithmetic of `int`: the
value returned and the tree afterwards. -/
def is_balanced_run (fuel : Nat) (root : AVLNode α) : Option (Bool × AVLNode α) :=
  match root with
  | nil => some (true, nil)
  | root => is_balanced_run_loop fuel root [[]]

/-- The balance factor of a node with the children `l` and `r` as the code
computes it: the cached height of `l` minus the cached height of `r` in the
arithmetic of `int`, an absent child counted as 0. -/
def int_balance : AVLNode α → AVLNode α → Int
  | node _ lh _ _ _, node _ rh _ _ _ => wrap_int (lh - rh)
  | node _ lh _ _ _, nil => lh
  | nil, node _ rh _ _ _ => wrap_int (-rh)
  | nil, nil => 0

/-- Every node's balance factor, as the code computes it from the cached
heights of its children, lies in [-1,1]. -/
def int_balanced : AVLNode α → Prop
  | nil => True
  | node _ _ _ l r =>
      (-1 ≤ int_balance l r ∧ int_balance l r ≤ 1) ∧ int_balanced l ∧ int_balanced r

/-- Decision procedure for `int_balanced`. -/
def int_balanced_dec : (t : AVLNode α) → Decidable (int_balanced t)
  | nil => isTrue trivial
  | node _ _ _ l r =>
      have := int_balanced_dec l
      have := int_balanced_dec r
      inferInstanceAs (Decidable ((-1 ≤ int_balance l r ∧ int_balance l r ≤ 1) ∧
        int_balanced l ∧ int_balanced r))

instance (t : AVLNode α) : Decidable (int_balanced t) := int_balanced_dec t

/-- At every node the cached height of the left child minus that of the right
child (absent child = 0) fits in an `int`: no subtraction of
`compute_node_balance` overflows in the tree. -/
def no_overflow : AVLNode α → Prop
  | nil => True
  | node _ _ _ l r =>
      (-2147483648 ≤ cached_height l - cached_height r ∧
        cached_height l - cached_height r ≤ 2147483647) ∧ no_overflow l ∧ no_overflow r

/-- Decision procedure for `no_overflow`. -/
def no_overflow_dec : (t : AVLNode α) → Decidable (no_overflow t)
  | nil => isTrue trivial
  | node _ _ _ l r =>
      have := no_overflow_dec l
      have := no_overflow_dec r
      inferInstanceAs (Decidable ((-2147483648 ≤ cached_height l - cached_height r ∧
        cached_height l - cached_height r ≤ 2147483647) ∧ no_overflow l ∧ no_overflow r))

instance (t : AVLNode α) : Decidable (no_overflow t) := no_overflow_dec t

/-- The tree `t2` is the tree `t` with the cached balance of some nodes
overwritten by the balance factor the code computes (the cached height of the
left child minus that of the right child): keys, cached heights and links are
those of `t`. -/
def only_balances_written : AVLNode α → AVLNode α → Prop
  | nil, nil => True
  | node k h b l r, node k2 h2 b2 l2 r2 =>
      k2 = k ∧ h2 = h ∧ (b2 = b ∨ b2 = int_balance l r) ∧
        only_balances_written l l2 ∧ only_balances_written r r2
  | nil, node _ _ _ _ _ => False
  | node _ _ _ _ _, nil => False

/-- Every node's cached balance is the balance factor the code computes from
the cached heights of its children. -/
def balances_cached : AVLNode α → Prop
  | nil => True
  | node _ _ b l r => b = int_balance l r ∧ balances_cached l ∧ balances_cached r

/-- Decision procedure for `balances_cached`. -/
def balances_cached_dec : (t : AVLNode α) → Decidable (balances_cached t)
  | nil => isTrue trivial
  | node _ _ b l r =>
      have := balances_cached_dec l
      have := balances_cached_dec r
      inferInstanceAs (Decidable (b = int_balance l r ∧ balances_cached l ∧
        balances_cached r))

instance (t : AVLNode α) : Decidable (balances_cached t) := balances_cached_dec t

/-- Every node's cached balance is the cached height of its left child minus
that of its right child, as integers. -/
def balances_differences : AVLNode α → Prop
  | nil => True
  | node _ _ b l r =>
      b = cached_height l - cached_height r ∧ balances_differences l ∧ balances_differences r

/-- Decision procedure for `balances_differences`. -/
def balances_differences_dec : (t : AVLNode α) → Decidable (balances_differences t)
  | nil => isTrue trivial
  | node _ _ b l r =>
      have := balances_differences_dec l
      have := balances_differences_dec r
      inferInstanceAs (Decidable (b = cached_height l - cached_height r ∧
        balances_differences l ∧ balances_differences r))

instance (t : AVLNode α) : Decidable (balances_differences t) := balances_differences_dec t

/-- The tree `t` after the breadth-first traversal has written the balance of
every node that is not at or below one of the pointers `pend` still waiting in
the queue. -/
def written : List (List Dir) → AVLNode α → AVLNode α
  | _, nil => nil
  | pend, node k h b l r =>
      if [] ∈ pend then node k h b l r
      else node k h (int_balance l r) (written (strip Dir.left pend) l)
        (written (strip Dir.right pend) r)

/-- A tree on which the subtraction of `compute_node_balance` overflows at the
root: the cached heights of the children are the least and the greatest
`int`. -/
def overflow_tree : AVLNode Nat :=
  node 2 1 0 (node 1 (-2147483648) 0 nil nil) (node 3 2147483647 0 nil nil)

/-- Every subtree hanging off the frames satisfies `P`. -/
def frames_all (P : AVLNode α → Prop) (fs : List (Frame α)) : Prop := ∀ f ∈ fs, P f.other

/-- The node is not null and the subtrees of its children satisfy `P`. -/
def kids_all (P : AVLNode α → Prop) : AVLNode α → Prop
  | nil => False
  | node _ _ _ l r => P l ∧ P r

/-- Everything but the nodes of the path satisfies `P`. -/
def path_all (P : AVLNode α → Prop) : Path α → Prop
  | Path.empty root => P root
  | Path.nodes above back => frames_all P above ∧ kids_all P back

/-- What the loop of `rebalance` needs of a property `q` of cached balances to
establish it at every node: `q` holds of a balance just computed on a node it
keeps, of the balance -1 left on the node moved by the first rotation of a
left-right double rotation, and of the balance 1 left on the node moved by the
first rotation of a right-left double rotation. -/
def rebalance_stable (q : Int → Nat → Nat → Prop) : Prop :=
  (∀ x y : Nat, x ≤ y + 1 → y ≤ x + 1 → q ((x : Int) - (y : Int)) x y) ∧
    (∀ x y : Nat, (y = x ∨ y + 1 = x) → q (-1) x y) ∧
    (∀ x y : Nat, (x = y ∨ x + 1 = y) → q 1 x y)

/-- Cached heights and cached balances are exact in the whole subtree. -/
def caches_exact (t : AVLNode α) : Prop := heights_exact t ∧ balances_exact t

/-- The ancestors `fs` are balanced when the subtree below them has true
height `h`. -/
def anc_balanced : Nat → List (Frame α) → Prop
  | _, [] => True
  | h, f :: fs =>
      true_height f.other ≤ h + 1 ∧ h ≤ true_height f.other + 1 ∧
        anc_balanced (1 + max h (true_height f.other)) fs

/-- The node is a leaf or its two subtrees differ in height by exactly one. -/
def tilted : AVLNode α → Prop
  | nil => False
  | node _ _ _ l r =>
      (true_height l = 0 ∧ true_height r = 0) ∨ true_height l = true_height r + 1 ∨
        true_height r = true_height l + 1

/-- The child `c` is the root of the subtree an insertion has made one taller
than `hc`, the height it had in a balanced tree; `o` is its sibling and `above`
are the ancestors of their parent. -/
def grown_at (hc : Nat) (c o : AVLNode α) (above : List (Frame α)) : Prop :=
  true_height c = hc + 1 ∧ tilted c ∧ true_height o ≤ hc + 1 ∧ hc ≤ true_height o + 1 ∧
    anc_balanced (1 + max hc (true_height o)) above

/-- The path left by `insertnb` on a balanced tree with exact cached heights:
when it is not empty, one child of its last node is the new leaf. -/
def grown_path : Path α → Prop
  | Path.empty _ => True
  | Path.nodes _ nil => False
  | Path.nodes above (node _ _ _ l r) =>
      frames_ok 2 above ∧ good 2 l ∧ good 2 r ∧ (grown_at 0 l r above ∨ grown_at 0 r l above)

section ordered

variable [LinearOrder α]

/-- The function `insert(key)` with the number of calls of `rebalance_to_right`
and `rebalance_to_left` made by its rebalance pass. -/
def insert_calls (fuel : Nat) (root : AVLNode α) (key : α) : Option (AVLNode α × Nat) :=
  rebalance_calls fuel (insertnb root key)

/-- The descent loop of `cut_off_node` from the promoted child, one iteration per
unit of fuel, and the attachment of `sibling` after it.  On a node whose key
equals the key of `sibling` neither branch assigns `node`: the next iteration
sees the same node (the repeated `path.push_back(parent)` of that case is not
recorded, no result depends on it).  `none`: the fuel is used up. -/
def splice_run (sibling : AVLNode α) (skey : α) :
    Nat → List (Frame α) → AVLNode α → Option (Path α)
  | 0, _, _ => none
  | fuel + 1, path, node k h b l r =>
      if skey > k then splice_run sibling skey fuel (⟨Dir.right, k, h, b, l⟩ :: path) r
      else if skey < k then splice_run sibling skey fuel (⟨Dir.left, k, h, b, r⟩ :: path) l
      else splice_run sibling skey fuel path (node k h b l r)
  | _ + 1, [], nil => none
  | _ + 1, parent :: path, nil =>
      match plug parent nil with
      | node k h b l r =>
          if skey > k then some (Path.nodes path (node k h b l sibling))
          else some (Path.nodes path (node k h b sibling r))
      | nil => none

end ordered

/-! ## Basic facts about the node operations -/

@[simp] theorem cached_height_nil : cached_height (nil : AVLNode α) = 0 := rfl

@[simp] theorem cached_height_node (k : α) (h b : Int) (l r : AVLNode α) :
    cached_height (node k h b l r) = h := rfl

@[simp] theorem update_height_node_node (k : α) (h b : Int) (l r : AVLNode α) :
    update_height_node (node k h b l r) = node k (new_height l r) b l r := by
  cases l <;> cases r <;> simp only [update_height_node, new_height]
  split <;> rfl

@[simp] theorem compute_node_balance_node (k : α) (h b : Int) (l r : AVLNode α) :
    compute_node_balance (node k h b l r) =
      (cached_height l - cached_height r,
        node k h (cached_height l - cached_height r) l r) := by
  cases l <;> cases r <;> simp [compute_node_balance, cached_height]

theorem new_height_eq (l r : AVLNode α) (hl : 0 ≤ cached_height l) (hr : 0 ≤ cached_height r) :
    new_height l r = 1 + max (cached_height l) (cached_height r) := by
  cases l <;> cases r <;> simp only [new_height, cached_height] at *
  · omega
  · omega
  · omega
  · split <;> omega

theorem cached_height_of_exact {t : AVLNode α} (h : heights_exact t) :
    cached_height t = (true_height t : Int) := by
  cases t with
  | nil => simp [cached_height, true_height]
  | node k h' b l r => exact h.1

theorem new_height_of_exact {l r : AVLNode α} (hl : heights_exact l) (hr : heights_exact r) :
    new_height l r = ((1 + max (true_height l) (true_height r) : Nat) : Int) := by
  have h1 := cached_height_of_exact hl
  have h2 := cached_height_of_exact hr
  rw [new_height_eq l r (by omega) (by omega), h1, h2]
  push_cast
  rfl

theorem rotate_right_node (k : α) (h b : Int) (lk : α) (lh lb : Int) (ll lr r : AVLNode α) :
    rotate_right (node k h b (node lk lh lb ll lr) r) =
      some (node lk (new_height ll (node k (new_height lr r) b lr r)) lb ll
        (node k (new_height lr r) b lr r)) := by
  simp [rotate_right]

theorem rotate_left_node (k : α) (h b : Int) (l : AVLNode α) (rk : α) (rh rb : Int)
    (rl rr : AVLNode α) :
    rotate_left (node k h b l (node rk rh rb rl rr)) =
      some (node rk (new_height (node k (new_height l rl) b l rl) rr) rb
        (node k (new_height l rl) b l rl) rr) := by
  simp [rotate_left]

/-! ## One iteration of the loop of `rebalance` -/

theorem rebalance_loop_keep (fuel : Nat) (above : List (Frame α)) (k : α) (h b : Int)
    (l r : AVLNode α) (h1 : ¬ cached_height l - cached_height r > 1)
    (h2 : ¬ cached_height l - cached_height r < -1) :
    rebalance_loop (fuel + 1) above (node k h b l r) =
      match above with
      | [] => some (node k (new_height l r) (cached_height l - cached_height r) l r)
      | f :: fs =>
          rebalance_loop fuel fs
            (plug f (node k (new_height l r) (cached_height l - cached_height r) l r)) := by
  simp only [rebalance_loop, compute_node_balance_node, if_neg h1, if_neg h2,
    update_height_node_node]

theorem rebalance_loop_right_single (fuel : Nat) (above : List (Frame α)) (k : α) (h b : Int)
    (lk : α) (lh lb : Int) (ll lr r : AVLNode α) (h1 : lh - cached_height r > 1)
    (h2 : ¬ cached_height ll - cached_height lr < 0) :
    rebalance_loop (fuel + 1) above (node k h b (node lk lh lb ll lr) r) =
      rebalance_loop fuel
        (⟨Dir.right, lk, new_height ll (node k (new_height lr r) (lh - cached_height r) lr r),
          cached_height ll - cached_height lr, ll⟩ :: above)
        (node k (new_height lr r) (lh - cached_height r) lr r) := by
  simp only [rebalance_loop, compute_node_balance_node, cached_height_node, if_pos h1,
    rebalance_to_right, if_neg h2, rotate_right_node, update_height_node_node]

theorem rebalance_loop_right_double (fuel : Nat) (above : List (Frame α)) (k : α) (h b : Int)
    (lk : α) (lh lb : Int) (ll : AVLNode α) (mk : α) (mh mb : Int) (ml mr r : AVLNode α)
    (h1 : lh - cached_height r > 1) (h2 : cached_height ll - mh < 0) :
    rebalance_loop (fuel + 1) above (node k h b (node lk lh lb ll (node mk mh mb ml mr)) r) =
      rebalance_loop fuel
        (⟨Dir.right, mk,
          new_height (node lk (new_height ll ml) (cached_height ll - mh) ll ml)
            (node k (new_height mr r) (lh - cached_height r) mr r),
          mb, node lk (new_height ll ml) (cached_height ll - mh) ll ml⟩ :: above)
        (node k (new_height mr r) (lh - cached_height r) mr r) := by
  simp only [rebalance_loop, compute_node_balance_node, cached_height_node, if_pos h1,
    rebalance_to_right, if_pos h2, rotate_left_node, rotate_right_node, update_height_node_node]

theorem rebalance_loop_left_single (fuel : Nat) (above : List (Frame α)) (k : α) (h b : Int)
    (l : AVLNode α) (rk : α) (rh rb : Int) (rl rr : AVLNode α)
    (h1 : ¬ cached_height l - rh > 1) (h2 : cached_height l - rh < -1)
    (h3 : ¬ cached_height rl - cached_height rr > 0) :
    rebalance_loop (fuel + 1) above (node k h b l (node rk rh rb rl rr)) =
      rebalance_loop fuel
        (⟨Dir.left, rk, new_height (node k (new_height l rl) (cached_height l - rh) l rl) rr,
          cached_height rl - cached_height rr, rr⟩ :: above)
        (node k (new_height l rl) (cached_height l - rh) l rl) := by
  simp only [rebalance_loop, compute_node_balance_node, cached_height_node, if_neg h1, if_pos h2,
    rebalance_to_left, if_neg h3, rotate_left_node, update_height_node_node]

theorem rebalance_loop_left_double (fuel : Nat) (above : List (Frame α)) (k : α) (h b : Int)
    (l : AVLNode α) (rk : α) (rh rb : Int) (mk : α) (mh mb : Int) (ml mr rr : AVLNode α)
    (h1 : ¬ cached_height l - rh > 1) (h2 : cached_height l - rh < -1)
    (h3 : mh - cached_height rr > 0) :
    rebalance_loop (fuel + 1) above (node k h b l (node rk rh rb (node mk mh mb ml mr) rr)) =
      rebalance_loop fuel
        (⟨Dir.left, mk,
          new_height (node k (new_height l ml) (cached_height l - rh) l ml)
            (node rk (new_height mr rr) (mh - cached_height rr) mr rr),
          mb, node rk (new_height mr rr) (mh - cached_height rr) mr rr⟩ :: above)
        (node k (new_height l ml) (cached_height l - rh) l ml) := by
  simp only [rebalance_loop, compute_node_balance_node, cached_height_node, if_neg h1, if_pos h2,
    rebalance_to_left, if_pos h3, rotate_left_node, rotate_right_node, update_height_node_node]

/-! ## True heights, traversals and the path -/

@[simp] theorem inorder_update_height_node (t : AVLNode α) :
    inorder (update_height_node t) = inorder t := by
  cases t with
  | nil => rfl
  | node k h b l r => simp [inorder]

@[simp] theorem inorder_compute_node_balance (t : AVLNode α) :
    inorder (compute_node_balance t).2 = inorder t := by
  cases t with
  | nil => rfl
  | node k h b l r => simp [inorder]

theorem size_eq_length_inorder (t : AVLNode α) : size t = (inorder t).length := by
  induction t with
  | nil => rfl
  | node k h b l r ihl ihr => simp [size, inorder, ihl, ihr]; omega

theorem inorder_plug (f : Frame α) (t : AVLNode α) :
    inorder (plug f t) = inorder_around [f] (inorder t) := by
  cases f with
  | mk d k h b o => cases d <;> simp [plug, inorder_around, inorder]

theorem inorder_plugAll (fs : List (Frame α)) (t : AVLNode α) :
    inorder (plugAll fs t) = inorder_around fs (inorder t) := by
  induction fs generalizing t with
  | nil => rfl
  | cons f fs ih =>
      rw [plugAll, ih, inorder_plug]
      cases f with
      | mk d k h b o => cases d <;> simp [inorder_around]

theorem true_height_plug (f : Frame α) (t : AVLNode α) :
    true_height (plug f t) = 1 + max (true_height t) (true_height f.other) := by
  cases f with
  | mk d k h b o => cases d <;> simp [plug, true_height, max_comm]

theorem height_sum_plug (f : Frame α) (t : AVLNode α) :
    height_sum (plug f t) =
      (1 + max (true_height t) (true_height f.other)) + height_sum t + height_sum f.other := by
  cases f with
  | mk d k h b o =>
      cases d
      · simp [plug, height_sum]
      · simp [plug, height_sum, max_comm]; omega

theorem excess_plug (f : Frame α) (t : AVLNode α) :
    excess (plug f t) =
      (max (true_height t) (true_height f.other) - min (true_height t) (true_height f.other) - 1)
        + excess t + excess f.other := by
  cases f with
  | mk d k h b o =>
      cases d
      · simp [plug, excess]
      · simp [plug, excess, max_comm, min_comm]; omega

theorem plugAll_height_le (fs : List (Frame α)) (t s : AVLNode α)
    (h : true_height s ≤ true_height t) :
    true_height (plugAll fs s) ≤ true_height (plugAll fs t) ∧
      height_sum (plugAll fs s) + height_sum t ≤ height_sum (plugAll fs t) + height_sum s := by
  induction fs generalizing t s with
  | nil => simp [plugAll, h]; omega
  | cons f fs ih =>
      have h1 : true_height (plug f s) ≤ true_height (plug f t) := by
        rw [true_height_plug, true_height_plug]; omega
      obtain ⟨i1, i2⟩ := ih (plug f t) (plug f s) h1
      refine ⟨i1, ?_⟩
      simp only [plugAll]
      rw [height_sum_plug, height_sum_plug] at i2
      omega

theorem plugAll_height_eq (fs : List (Frame α)) (t s : AVLNode α)
    (h : true_height s = true_height t) :
    true_height (plugAll fs s) = true_height (plugAll fs t) ∧
      height_sum (plugAll fs s) + height_sum t = height_sum (plugAll fs t) + height_sum s ∧
      excess (plugAll fs s) + excess t = excess (plugAll fs t) + excess s := by
  induction fs generalizing t s with
  | nil => simp [plugAll, h]; omega
  | cons f fs ih =>
      have h1 : true_height (plug f s) = true_height (plug f t) := by
        rw [true_height_plug, true_height_plug, h]
      obtain ⟨i1, i2, i3⟩ := ih (plug f t) (plug f s) h1
      refine ⟨i1, ?_, ?_⟩
      · simp only [plugAll]
        rw [height_sum_plug, height_sum_plug] at i2
        omega
      · simp only [plugAll]
        rw [excess_plug, excess_plug, h] at i3
        omega

/-- A rotation step makes the subtree smaller in the measure of termination. -/
theorem plugAll_measure_lt (fs : List (Frame α)) (t s : AVLNode α)
    (h : (true_height s ≤ true_height t ∧ height_sum s < height_sum t) ∨
      (true_height s = true_height t ∧ height_sum s = height_sum t ∧ excess s < excess t)) :
    height_sum (plugAll fs s) < height_sum (plugAll fs t) ∨
      (height_sum (plugAll fs s) = height_sum (plugAll fs t) ∧
        excess (plugAll fs s) < excess (plugAll fs t)) := by
  rcases h with ⟨h1, h2⟩ | ⟨h1, h2, h3⟩
  · have := (plugAll_height_le fs t s h1).2
    left; omega
  · obtain ⟨_, i2, i3⟩ := plugAll_height_eq fs t s h1
    right; omega

/-! ## Each rotation decreases the measure of termination -/

theorem measure_right_double (k : α) (h b : Int) (lk : α) (lh lb : Int) (ll : AVLNode α)
    (mk : α) (mh mb : Int) (ml mr r : AVLNode α) (x1 x2 x3 x4 x5 x6 : Int)
    (h1 : true_height r + 1 < 1 + max (true_height ll) (1 + max (true_height ml) (true_height mr)))
    (h2 : true_height ll < 1 + max (true_height ml) (true_height mr)) :
    true_height (node mk x1 x2 (node lk x3 x4 ll ml) (node k x5 x6 mr r)) ≤
        true_height (node k h b (node lk lh lb ll (node mk mh mb ml mr)) r) ∧
      height_sum (node mk x1 x2 (node lk x3 x4 ll ml) (node k x5 x6 mr r)) <
        height_sum (node k h b (node lk lh lb ll (node mk mh mb ml mr)) r) := by
  simp only [true_height, height_sum]
  omega

theorem measure_left_double (k : α) (h b : Int) (l : AVLNode α) (rk : α) (rh rb : Int)
    (mk : α) (mh mb : Int) (ml mr rr : AVLNode α) (x1 x2 x3 x4 x5 x6 : Int)
    (h1 : true_height l + 1 < 1 + max (1 + max (true_height ml) (true_height mr)) (true_height rr))
    (h2 : true_height rr < 1 + max (true_height ml) (true_height mr)) :
    true_height (node mk x1 x2 (node k x3 x4 l ml) (node rk x5 x6 mr rr)) ≤
        true_height (node k h b l (node rk rh rb (node mk mh mb ml mr) rr)) ∧
      height_sum (node mk x1 x2 (node k x3 x4 l ml) (node rk x5 x6 mr rr)) <
        height_sum (node k h b l (node rk rh rb (node mk mh mb ml mr) rr)) := by
  simp only [true_height, height_sum]
  omega

theorem measure_right_single (k : α) (h b : Int) (lk : α) (lh lb : Int) (ll lr r : AVLNode α)
    (x1 x2 x3 x4 : Int)
    (h1 : true_height r + 1 < 1 + max (true_height ll) (true_height lr))
    (h2 : true_height lr ≤ true_height ll) :
    (true_height (node lk x1 x2 ll (node k x3 x4 lr r)) ≤
        true_height (node k h b (node lk lh lb ll lr) r) ∧
      height_sum (node lk x1 x2 ll (node k x3 x4 lr r)) <
        height_sum (node k h b (node lk lh lb ll lr) r)) ∨
    (true_height (node lk x1 x2 ll (node k x3 x4 lr r)) =
        true_height (node k h b (node lk lh lb ll lr) r) ∧
      height_sum (node lk x1 x2 ll (node k x3 x4 lr r)) =
        height_sum (node k h b (node lk lh lb ll lr) r) ∧
      excess (node lk x1 x2 ll (node k x3 x4 lr r)) <
        excess (node k h b (node lk lh lb ll lr) r)) := by
  by_cases h3 : true_height lr = true_height ll
  · right
    simp only [true_height, height_sum, excess, h3]
    omega
  · left
    simp only [true_height, height_sum]
    omega

theorem measure_left_single (k : α) (h b : Int) (l : AVLNode α) (rk : α) (rh rb : Int)
    (rl rr : AVLNode α) (x1 x2 x3 x4 : Int)
    (h1 : true_height l + 1 < 1 + max (true_height rl) (true_height rr))
    (h2 : true_height rl ≤ true_height rr) :
    (true_height (node rk x1 x2 (node k x3 x4 l rl) rr) ≤
        true_height (node k h b l (node rk rh rb rl rr)) ∧
      height_sum (node rk x1 x2 (node k x3 x4 l rl) rr) <
        height_sum (node k h b l (node rk rh rb rl rr))) ∨
    (true_height (node rk x1 x2 (node k x3 x4 l rl) rr) =
        true_height (node k h b l (node rk rh rb rl rr)) ∧
      height_sum (node rk x1 x2 (node k x3 x4 l rl) rr) =
        height_sum (node k h b l (node rk rh rb rl rr)) ∧
      excess (node rk x1 x2 (node k x3 x4 l rl) rr) <
        excess (node k h b l (node rk rh rb rl rr))) := by
  by_cases h3 : true_height rl = true_height rr
  · right
    simp only [true_height, height_sum, excess, h3]
    omega
  · left
    simp only [true_height, height_sum]
    omega

/-! ## The loop of `rebalance` returns, and what it returns -/

theorem good_nil (lvl : Nat) : good lvl (nil : AVLNode α) :=
  ⟨fun _ => trivial, fun _ => trivial⟩

theorem good_new_node (lvl : Nat) (key : α) : good lvl (new_node key) := by
  refine ⟨fun _ => ⟨by simp [true_height], trivial, trivial⟩,
    fun _ => ⟨by simp [true_height], trivial, trivial⟩⟩

theorem good_left {lvl : Nat} {k : α} {h b : Int} {l r : AVLNode α}
    (hg : good lvl (node k h b l r)) : good lvl l :=
  ⟨fun hb => (hg.1 hb).2.1, fun hb => (hg.2 hb).2.1⟩

theorem good_right {lvl : Nat} {k : α} {h b : Int} {l r : AVLNode α}
    (hg : good lvl (node k h b l r)) : good lvl r :=
  ⟨fun hb => (hg.1 hb).2.2, fun hb => (hg.2 hb).2.2⟩

theorem good_new_height {lvl : Nat} (hlvl : 1 ≤ lvl) (k : α) (b : Int) {l r : AVLNode α}
    (hl : good lvl l) (hr : good lvl r)
    (hb : 2 ≤ lvl → true_height l ≤ true_height r + 1 ∧ true_height r ≤ true_height l + 1) :
    good lvl (node k (new_height l r) b l r) :=
  ⟨fun _ => ⟨by rw [new_height_of_exact (hl.1 hlvl) (hr.1 hlvl)]; rfl, hl.1 hlvl, hr.1 hlvl⟩,
    fun h => ⟨hb h, hl.2 h, hr.2 h⟩⟩

theorem returns_succ {above above2 : List (Frame α)} {cur cur2 t : AVLNode α}
    (hstep : ∀ fuel, rebalance_loop (fuel + 1) above cur = rebalance_loop fuel above2 cur2)
    (hr : Returns (fun fuel => rebalance_loop fuel above2 cur2) t) :
    Returns (fun fuel => rebalance_loop fuel above cur) t := by
  obtain ⟨fuel, hfuel⟩ := hr
  refine ⟨fuel + 1, fun n hn => ?_⟩
  obtain ⟨m, rfl⟩ : ∃ m, n = m + 1 := ⟨n - 1, by omega⟩
  simp only [hstep]
  exact hfuel m (by omega)

theorem frames_ok_cons {lvl : Nat} {f : Frame α} {fs : List (Frame α)}
    (h1 : good lvl f.other) (h2 : frames_ok lvl fs) : frames_ok lvl (f :: fs) := by
  intro g hg
  rcases List.mem_cons.mp hg with rfl | hg
  · exact h1
  · exact h2 g hg

theorem kids_ok_plug {lvl : Nat} (f : Frame α) {t : AVLNode α}
    (h1 : good lvl f.other) (h2 : good lvl t) : kids_ok lvl (plug f t) := by
  cases f with
  | mk d k h b o =>
      cases d
      · exact ⟨h2, h1⟩
      · exact ⟨h1, h2⟩

theorem relink_tree (path : List (Frame α)) (c : AVLNode α) :
    Path.tree (relink path c) = plugAll path c := by
  cases path <;> rfl

theorem relink_ok (lvl : Nat) (path : List (Frame α)) (c : AVLNode α)
    (hf : frames_ok lvl path) (hc : good lvl c) : path_ok lvl (relink path c) := by
  cases path with
  | nil => exact hc
  | cons f fs =>
      exact ⟨fun g hg => hf g (List.mem_cons_of_mem _ hg),
        kids_ok_plug f (hf f (List.mem_cons_self _ _)) hc⟩

theorem rotation_measure_lt {above : List (Frame α)} {f : Frame α} {c cur : AVLNode α}
    (h : height_sum (plugAll above (plug f c)) < height_sum (plugAll above cur) ∨
      (height_sum (plugAll above (plug f c)) = height_sum (plugAll above cur) ∧
        excess (plugAll above (plug f c)) < excess (plugAll above cur))) :
    path_measure_lt (f :: above) c above cur := by
  rcases h with h | h
  · exact Or.inl h
  · exact Or.inr (Or.inl h)

/-- One iteration of the loop, given that the loop returns from every smaller state. -/
theorem rebalance_loop_returns_step (lvl : Nat) (hlvl : 1 ≤ lvl) (above : List (Frame α))
    (cur : AVLNode α) (hf : frames_ok lvl above) (hk : kids_ok lvl cur)
    (rebalance_loop_returns : ∀ (above2 : List (Frame α)) (cur2 : AVLNode α),
      frames_ok lvl above2 → kids_ok lvl cur2 → path_measure_lt above2 cur2 above cur →
      ∃ t, Returns (fun fuel => rebalance_loop fuel above2 cur2) t ∧ good lvl t ∧
        inorder t = inorder (plugAll above2 cur2)) :
    ∃ t, Returns (fun fuel => rebalance_loop fuel above cur) t ∧ good lvl t ∧
      inorder t = inorder (plugAll above cur) := by
  cases cur with
  | nil => exact hk.elim
  | node k h b l r =>
    obtain ⟨hl, hr⟩ := hk
    have cl := cached_height_of_exact (hl.1 hlvl)
    have cr := cached_height_of_exact (hr.1 hlvl)
    by_cases h1 : cached_height l - cached_height r > 1
    · -- left-heavy: rebalance_to_right
      have n1 : true_height r + 1 < true_height l := by omega
      clear cl
      cases l with
      | nil => simp [true_height] at n1
      | node lk lh lb ll lr =>
        have gll := good_left hl
        have glr := good_right hl
        have cll := cached_height_of_exact (gll.1 hlvl)
        have clr := cached_height_of_exact (glr.1 hlvl)
        simp only [cached_height_node] at h1
        simp only [true_height] at n1
        by_cases h2 : cached_height ll - cached_height lr < 0
        · have n2 : true_height ll < true_height lr := by omega
          clear cll clr
          cases lr with
          | nil => simp [true_height] at n2
          | node mk mh mb ml mr =>
            have gml := good_left glr
            have gmr := good_right glr
            simp only [cached_height_node] at h2
            simp only [true_height] at n1 n2
            have gn : good lvl (node lk (new_height ll ml) (cached_height ll - mh) ll ml) :=
              good_new_height hlvl lk _ gll gml (fun hb => by
                have e1 := (hl.2 hb).1
                have e2 := (glr.2 hb).1
                simp only [true_height] at e1 e2
                omega)
            have hdec := plugAll_measure_lt above
              (node k h b (node lk lh lb ll (node mk mh mb ml mr)) r)
              (plug ⟨Dir.right, mk,
                new_height (node lk (new_height ll ml) (cached_height ll - mh) ll ml)
                  (node k (new_height mr r) (lh - cached_height r) mr r),
                mb, node lk (new_height ll ml) (cached_height ll - mh) ll ml⟩
                (node k (new_height mr r) (lh - cached_height r) mr r))
              (Or.inl (measure_right_double k h b lk lh lb ll mk mh mb ml mr r _ _ _ _ _ _ n1 n2))
            obtain ⟨t, hret, hg, hi⟩ := rebalance_loop_returns
              (⟨Dir.right, mk,
                new_height (node lk (new_height ll ml) (cached_height ll - mh) ll ml)
                  (node k (new_height mr r) (lh - cached_height r) mr r),
                mb, node lk (new_height ll ml) (cached_height ll - mh) ll ml⟩ :: above)
              (node k (new_height mr r) (lh - cached_height r) mr r)
              (frames_ok_cons gn hf) ⟨gmr, hr⟩ (rotation_measure_lt hdec)
            refine ⟨t, returns_succ (fun fuel =>
              rebalance_loop_right_double fuel above k h b lk lh lb ll mk mh mb ml mr r h1 h2) hret,
              hg, ?_⟩
            rw [hi, inorder_plugAll, inorder_plugAll]
            simp [inorder_around, inorder]
        · have n2 : true_height lr ≤ true_height ll := by omega
          have hdec := plugAll_measure_lt above (node k h b (node lk lh lb ll lr) r)
            (plug ⟨Dir.right, lk,
              new_height ll (node k (new_height lr r) (lh - cached_height r) lr r),
              cached_height ll - cached_height lr, ll⟩
              (node k (new_height lr r) (lh - cached_height r) lr r))
            (measure_right_single k h b lk lh lb ll lr r _ _ _ _ n1 n2)
          obtain ⟨t, hret, hg, hi⟩ := rebalance_loop_returns
            (⟨Dir.right, lk,
              new_height ll (node k (new_height lr r) (lh - cached_height r) lr r),
              cached_height ll - cached_height lr, ll⟩ :: above)
            (node k (new_height lr r) (lh - cached_height r) lr r)
            (frames_ok_cons gll hf) ⟨glr, hr⟩ (rotation_measure_lt hdec)
          refine ⟨t, returns_succ (fun fuel =>
            rebalance_loop_right_single fuel above k h b lk lh lb ll lr r h1 h2) hret, hg, ?_⟩
          rw [hi, inorder_plugAll, inorder_plugAll]
          simp [inorder_around, inorder]
    · by_cases h1b : cached_height l - cached_height r < -1
      · -- right-heavy: rebalance_to_left
        have n1 : true_height l + 1 < true_height r := by omega
        clear cr
        cases r with
        | nil => simp [true_height] at n1
        | node rk rh rb rl rr =>
          have grl := good_left hr
          have grr := good_right hr
          have crl := cached_height_of_exact (grl.1 hlvl)
          have crr := cached_height_of_exact (grr.1 hlvl)
          simp only [cached_height_node] at h1 h1b
          simp only [true_height] at n1
          by_cases h3 : cached_height rl - cached_height rr > 0
          · have n2 : true_height rr < true_height rl := by omega
            clear crl crr
            cases rl with
            | nil => simp [true_height] at n2
            | node mk mh mb ml mr =>
              have gml := good_left grl
              have gmr := good_right grl
              simp only [cached_height_node] at h3
              simp only [true_height] at n1 n2
              have gn : good lvl (node rk (new_height mr rr) (mh - cached_height rr) mr rr) :=
                good_new_height hlvl rk _ gmr grr (fun hb => by
                  have e1 := (hr.2 hb).1
                  have e2 := (grl.2 hb).1
                  simp only [true_height] at e1 e2
                  omega)
              have hdec := plugAll_measure_lt above
                (node k h b l (node rk rh rb (node mk mh mb ml mr) rr))
                (plug ⟨Dir.left, mk,
                  new_height (node k (new_height l ml) (cached_height l - rh) l ml)
                    (node rk (new_height mr rr) (mh - cached_height rr) mr rr),
                  mb, node rk (new_height mr rr) (mh - cached_height rr) mr rr⟩
                  (node k (new_height l ml) (cached_height l - rh) l ml))
                (Or.inl (measure_left_double k h b l rk rh rb mk mh mb ml mr rr _ _ _ _ _ _ n1 n2))
              obtain ⟨t, hret, hg, hi⟩ := rebalance_loop_returns
                (⟨Dir.left, mk,
                  new_height (node k (new_height l ml) (cached_height l - rh) l ml)
                    (node rk (new_height mr rr) (mh - cached_height rr) mr rr),
                  mb, node rk (new_height mr rr) (mh - cached_height rr) mr rr⟩ :: above)
                (node k (new_height l ml) (cached_height l - rh) l ml)
                (frames_ok_cons gn hf) ⟨hl, gml⟩ (rotation_measure_lt hdec)
              refine ⟨t, returns_succ (fun fuel =>
                rebalance_loop_left_double fuel above k h b l rk rh rb mk mh mb ml mr rr h1 h1b h3)
                hret, hg, ?_⟩
              rw [hi, inorder_plugAll, inorder_plugAll]
              simp [inorder_around, inorder]
          · have n2 : true_height rl ≤ true_height rr := by omega
            have hdec := plugAll_measure_lt above (node k h b l (node rk rh rb rl rr))
              (plug ⟨Dir.left, rk,
                new_height (node k (new_height l rl) (cached_height l - rh) l rl) rr,
                cached_height rl - cached_height rr, rr⟩
                (node k (new_height l rl) (cached_height l - rh) l rl))
              (measure_left_single k h b l rk rh rb rl rr _ _ _ _ n1 n2)
            obtain ⟨t, hret, hg, hi⟩ := rebalance_loop_returns
              (⟨Dir.left, rk,
                new_height (node k (new_height l rl) (cached_height l - rh) l rl) rr,
                cached_height rl - cached_height rr, rr⟩ :: above)
              (node k (new_height l rl) (cached_height l - rh) l rl)
              (frames_ok_cons grr hf) ⟨hl, grl⟩ (rotation_measure_lt hdec)
            refine ⟨t, returns_succ (fun fuel =>
              rebalance_loop_left_single fuel above k h b l rk rh rb rl rr h1 h1b h3) hret, hg, ?_⟩
            rw [hi, inorder_plugAll, inorder_plugAll]
            simp [inorder_around, inorder]
      · -- in range: the node stays
        have gc : good lvl (node k (new_height l r) (cached_height l - cached_height r) l r) :=
          good_new_height hlvl k _ hl hr (fun _ => by omega)
        cases above with
        | nil =>
            refine ⟨_, ⟨1, fun n hn => ?_⟩, gc, ?_⟩
            · obtain ⟨m, rfl⟩ : ∃ m, n = m + 1 := ⟨n - 1, by omega⟩
              simp only [rebalance_loop_keep m [] k h b l r h1 h1b]
            · simp [plugAll, inorder]
        | cons f fs =>
            have hsame := plugAll_height_eq fs
              (plug f (node k h b l r))
              (plug f (node k (new_height l r) (cached_height l - cached_height r) l r))
              (by rw [true_height_plug, true_height_plug]; rfl)
            obtain ⟨t, hret, hg, hi⟩ := rebalance_loop_returns fs
              (plug f (node k (new_height l r) (cached_height l - cached_height r) l r))
              (fun g hg => hf g (List.mem_cons_of_mem _ hg))
              (kids_ok_plug f (hf f (List.mem_cons_self _ _)) gc)
              (by
                have e1 : height_sum (plug f (node k h b l r)) = height_sum
                    (plug f (node k (new_height l r) (cached_height l - cached_height r) l r)) := by
                  rw [height_sum_plug, height_sum_plug]; rfl
                have e2 : excess (plug f (node k h b l r)) = excess
                    (plug f (node k (new_height l r) (cached_height l - cached_height r) l r)) := by
                  rw [excess_plug, excess_plug]; rfl
                refine Or.inr (Or.inr ⟨?_, ?_, ?_⟩)
                · show _ = height_sum (plugAll fs (plug f (node k h b l r)))
                  omega
                · show _ = excess (plugAll fs (plug f (node k h b l r)))
                  omega
                · simp)
            refine ⟨t, returns_succ (fun fuel => by
              rw [rebalance_loop_keep fuel (f :: fs) k h b l r h1 h1b]) hret, hg, ?_⟩
            rw [hi]
            show inorder (plugAll (f :: fs) _) = inorder (plugAll (f :: fs) _)
            rw [inorder_plugAll, inorder_plugAll]
            rfl

theorem rebalance_loop_returns (lvl : Nat) (hlvl : 1 ≤ lvl) (above : List (Frame α))
    (cur : AVLNode α) (hf : frames_ok lvl above) (hk : kids_ok lvl cur) :
    ∃ t, Returns (fun fuel => rebalance_loop fuel above cur) t ∧ good lvl t ∧
      inorder t = inorder (plugAll above cur) := by
  generalize ha : height_sum (plugAll above cur) = a
  generalize hb : excess (plugAll above cur) = b
  generalize hc : above.length = c
  induction a using Nat.strong_induction_on generalizing b c above cur with
  | _ a iha =>
    induction b using Nat.strong_induction_on generalizing c above cur with
    | _ b ihb =>
      induction c using Nat.strong_induction_on generalizing above cur with
      | _ c ihc =>
        apply rebalance_loop_returns_step lvl hlvl above cur hf hk
        intro above2 cur2 hf2 hk2 hlt
        rcases hlt with h | ⟨h1, h2⟩ | ⟨h1, h2, h3⟩
        · exact iha _ (by omega) above2 cur2 hf2 hk2 rfl _ rfl _ rfl
        · exact ihb _ (by omega) above2 cur2 hf2 hk2 (by omega) rfl _ rfl
        · exact ihc _ (by omega) above2 cur2 hf2 hk2 (by omega) (by omega) rfl

/-! ## The loop of `rebalance` keeps the in-order traversal, on every tree -/

theorem rotate_right_inorder {t n : AVLNode α} (h : rotate_right t = some n) :
    inorder n = inorder t := by
  cases t with
  | nil => simp [rotate_right] at h
  | node k ht b l r =>
      cases l with
      | nil => simp [rotate_right] at h
      | node lk lh lb ll lr =>
          rw [rotate_right_node] at h
          cases h
          simp [inorder]

theorem rotate_left_inorder {t n : AVLNode α} (h : rotate_left t = some n) :
    inorder n = inorder t := by
  cases t with
  | nil => simp [rotate_left] at h
  | node k ht b l r =>
      cases r with
      | nil => simp [rotate_left] at h
      | node rk rh rb rl rr =>
          rw [rotate_left_node] at h
          cases h
          simp [inorder]

theorem rebalance_to_right_inorder {t n : AVLNode α} (h : rebalance_to_right t = some n) :
    inorder n = inorder t := by
  cases t with
  | nil => simp [rebalance_to_right] at h
  | node k ht b l r =>
      simp only [rebalance_to_right] at h
      split at h
      · cases hrot : rotate_left (compute_node_balance l).2 with
        | none => simp [hrot] at h
        | some l2 =>
            simp only [hrot] at h
            rw [rotate_right_inorder h]
            simp [inorder, rotate_left_inorder hrot]
      · rw [rotate_right_inorder h]
        simp [inorder]

theorem rebalance_to_left_inorder {t n : AVLNode α} (h : rebalance_to_left t = some n) :
    inorder n = inorder t := by
  cases t with
  | nil => simp [rebalance_to_left] at h
  | node k ht b l r =>
      simp only [rebalance_to_left] at h
      split at h
      · cases hrot : rotate_right (compute_node_balance r).2 with
        | none => simp [hrot] at h
        | some r2 =>
            simp only [hrot] at h
            rw [rotate_left_inorder h]
            simp [inorder, rotate_right_inorder hrot]
      · rw [rotate_left_inorder h]
        simp [inorder]

theorem rebalance_loop_succ_node (fuel : Nat) (above : List (Frame α)) (k : α) (h b : Int)
    (l r : AVLNode α) :
    rebalance_loop (fuel + 1) above (node k h b l r) =
      if (compute_node_balance (node k h b l r)).1 > 1 then
        match rebalance_to_right (compute_node_balance (node k h b l r)).2 with
        | some new_node =>
            match update_height_node new_node with
            | node nk nh nb nl nr => rebalance_loop fuel (⟨Dir.right, nk, nh, nb, nl⟩ :: above) nr
            | nil => none
        | none => none
      else if (compute_node_balance (node k h b l r)).1 < -1 then
        match rebalance_to_left (compute_node_balance (node k h b l r)).2 with
        | some new_node =>
            match update_height_node new_node with
            | node nk nh nb nl nr => rebalance_loop fuel (⟨Dir.left, nk, nh, nb, nr⟩ :: above) nl
            | nil => none
        | none => none
      else
        match above with
        | [] => some (update_height_node (compute_node_balance (node k h b l r)).2)
        | f :: above =>
            rebalance_loop fuel above
              (plug f (update_height_node (compute_node_balance (node k h b l r)).2)) := by
  rw [rebalance_loop]

theorem rebalance_loop_inorder (fuel : Nat) (above : List (Frame α)) (cur t : AVLNode α)
    (h : rebalance_loop fuel above cur = some t) :
    inorder t = inorder (plugAll above cur) := by
  induction fuel generalizing above cur with
  | zero => simp [rebalance_loop] at h
  | succ fuel ih =>
    cases cur with
    | nil => simp [rebalance_loop] at h
    | node ck ch cb cl cr =>
      rw [rebalance_loop_succ_node] at h
      generalize node ck ch cb cl cr = cur at h ⊢
      split at h
      · -- rebalance_to_right
        cases hreb : rebalance_to_right (compute_node_balance cur).2 with
        | none => simp [hreb] at h
        | some n =>
            simp only [hreb] at h
            have e := rebalance_to_right_inorder hreb
            cases hup : update_height_node n with
            | nil => simp [hup] at h
            | node k ht b l r =>
                simp only [hup] at h
                rw [ih _ _ h, inorder_plugAll, inorder_plugAll]
                have e2 : inorder (update_height_node n) = inorder n := inorder_update_height_node n
                rw [hup] at e2
                simp only [inorder_around]
                rw [← inorder_compute_node_balance cur, ← e, ← e2]
                rfl
      · split at h
        · cases hreb : rebalance_to_left (compute_node_balance cur).2 with
          | none => simp [hreb] at h
          | some n =>
              simp only [hreb] at h
              have e := rebalance_to_left_inorder hreb
              cases hup : update_height_node n with
              | nil => simp [hup] at h
              | node k ht b l r =>
                  simp only [hup] at h
                  rw [ih _ _ h, inorder_plugAll, inorder_plugAll]
                  have e2 : inorder (update_height_node n) = inorder n :=
                    inorder_update_height_node n
                  rw [hup] at e2
                  simp only [inorder_around]
                  rw [← inorder_compute_node_balance cur, ← e, ← e2]
                  rfl
        · cases above with
          | nil =>
              simp only [Option.some.injEq] at h
              subst h
              simp [plugAll]
          | cons f fs =>
              simp only at h
              rw [ih _ _ h]
              show _ = inorder (plugAll fs (plug f cur))
              rw [inorder_plugAll, inorder_plugAll, inorder_plug, inorder_plug]
              simp

section ordered

variable [LinearOrder α]

/-! ## `insertnb` against its recursive description -/

theorem insertnb_loop_tree (key : α) (path : List (Frame α)) (t : AVLNode α)
    (hp : head_ok key path) :
    Path.tree (insertnb_loop key path t) = plugAll path (bst_insert key t) := by
  induction t generalizing path with
  | nil =>
      cases path with
      | nil => simp [insertnb_loop, Path.tree, plugAll, bst_insert]
      | cons f fs =>
          cases f with
          | mk d k h b o =>
              cases d
              · have hk : ¬ key > k := by simpa [head_ok] using hp
                simp [insertnb_loop, plug, hk, Path.tree, plugAll, bst_insert]
              · have hk : key > k := by simpa [head_ok] using hp
                simp [insertnb_loop, plug, hk, Path.tree, plugAll, bst_insert]
  | node k h b l r ihl ihr =>
      simp only [insertnb_loop, bst_insert]
      split
      · rename_i hgt
        rw [ihr _ (by simpa [head_ok] using hgt)]
        simp [plugAll, plug]
      · split
        · rename_i hgt hlt
          rw [ihl _ (by simpa [head_ok] using hgt)]
          simp [plugAll, plug]
        · simp [Path.tree]

theorem insertnb_tree (t : AVLNode α) (key : α) :
    Path.tree (insertnb t key) = bst_insert key t := by
  cases t with
  | nil => simp [insertnb, Path.tree, bst_insert]
  | node k h b l r =>
      simp only [insertnb]
      rw [insertnb_loop_tree key [] _ (by simp [head_ok])]
      rfl

theorem insertnb_loop_ok (lvl : Nat) (key : α) (path : List (Frame α)) (t : AVLNode α)
    (hp : head_ok key path) (hf : frames_ok lvl path) (ht : good lvl t)
    (hw : good lvl (plugAll path t)) :
    path_ok lvl (insertnb_loop key path t) := by
  induction t generalizing path with
  | nil =>
      cases path with
      | nil => exact good_new_node lvl key
      | cons f fs =>
          have hfs : frames_ok lvl fs := fun g hg => hf g (List.mem_cons_of_mem _ hg)
          have hfo : good lvl f.other := hf f (List.mem_cons_self _ _)
          cases f with
          | mk d k h b o =>
              cases d
              · have hk : ¬ key > k := by simpa [head_ok] using hp
                simp only [insertnb_loop, plug, hk, if_false]
                exact ⟨hfs, good_new_node lvl key, hfo⟩
              · have hk : key > k := by simpa [head_ok] using hp
                simp only [insertnb_loop, plug, hk, if_true]
                exact ⟨hfs, hfo, good_new_node lvl key⟩
  | node k h b l r ihl ihr =>
      simp only [insertnb_loop]
      split
      · rename_i hgt
        exact ihr _ (by simpa [head_ok] using hgt) (frames_ok_cons (good_left ht) hf)
          (good_right ht) hw
      · split
        · rename_i hgt hlt
          exact ihl _ (by simpa [head_ok] using hgt) (frames_ok_cons (good_right ht) hf)
            (good_left ht) hw
        · exact hw

theorem insertnb_ok (lvl : Nat) (t : AVLNode α) (key : α) (ht : good lvl t) :
    path_ok lvl (insertnb t key) := by
  cases t with
  | nil => exact good_new_node lvl key
  | node k h b l r =>
      exact insertnb_loop_ok lvl key [] _ (by simp [head_ok]) (fun _ hg => by simp at hg) ht ht

end ordered

section ordered

variable [LinearOrder α]

/-! ## Search-tree order and the recursive descriptions -/

theorem search_tree_node (k : α) (h b : Int) (l r : AVLNode α) :
    search_tree (node k h b l r) ↔
      search_tree l ∧ search_tree r ∧ (∀ x ∈ inorder l, x < k) ∧ (∀ x ∈ inorder r, k < x) := by
  simp only [search_tree, inorder, List.pairwise_append, List.pairwise_cons, List.mem_cons]
  constructor
  · rintro ⟨h1, ⟨h2, h3⟩, h4⟩
    exact ⟨h1, h3, fun x hx => h4 x hx k (Or.inl rfl), h2⟩
  · rintro ⟨h1, h2, h3, h4⟩
    refine ⟨h1, ⟨h4, h2⟩, ?_⟩
    rintro a ha c (rfl | hc)
    · exact h3 a ha
    · exact lt_trans (h3 a ha) (h4 c hc)

theorem mem_bst_insert (key x : α) (t : AVLNode α) :
    x ∈ inorder (bst_insert key t) ↔ x = key ∨ x ∈ inorder t := by
  induction t with
  | nil => simp [bst_insert, new_node, inorder]
  | node k h b l r ihl ihr =>
      simp only [bst_insert]
      split
      · simp only [inorder, List.mem_append, List.mem_cons, ihr]; tauto
      · split
        · simp only [inorder, List.mem_append, List.mem_cons, ihl]; tauto
        · rename_i h1 h2
          have : key = k := le_antisymm (not_lt.mp h1) (not_lt.mp h2)
          subst this
          simp only [inorder, List.mem_append, List.mem_cons]; tauto

theorem search_tree_bst_insert (key : α) (t : AVLNode α) (ht : search_tree t) :
    search_tree (bst_insert key t) := by
  induction t with
  | nil => simp [bst_insert, new_node, search_tree, inorder]
  | node k h b l r ihl ihr =>
      obtain ⟨h1, h2, h3, h4⟩ := (search_tree_node k h b l r).mp ht
      simp only [bst_insert]
      split
      · rename_i hgt
        refine (search_tree_node _ _ _ _ _).mpr ⟨h1, ihr h2, h3, fun x hx => ?_⟩
        rcases (mem_bst_insert key x r).mp hx with rfl | hx
        · exact hgt
        · exact h4 x hx
      · split
        · rename_i hlt
          refine (search_tree_node _ _ _ _ _).mpr ⟨ihl h1, h2, fun x hx => ?_, h4⟩
          rcases (mem_bst_insert key x l).mp hx with rfl | hx
          · exact hlt
          · exact h3 x hx
        · exact ht

theorem length_bst_insert (key : α) (t : AVLNode α) (ht : search_tree t) :
    (inorder (bst_insert key t)).length =
      (inorder t).length + (if key ∈ inorder t then 0 else 1) := by
  induction t with
  | nil => simp [bst_insert, new_node, inorder]
  | node k h b l r ihl ihr =>
      obtain ⟨h1, h2, h3, h4⟩ := (search_tree_node k h b l r).mp ht
      simp only [bst_insert]
      split
      · rename_i hgt
        have e : (key ∈ inorder (node k h b l r)) ↔ key ∈ inorder r := by
          simp only [inorder, List.mem_append, List.mem_cons]
          constructor
          · rintro (hm | rfl | hm)
            · exact absurd (h3 key hm) (not_lt.mpr (le_of_lt hgt))
            · exact absurd hgt (lt_irrefl _)
            · exact hm
          · exact fun hm => Or.inr (Or.inr hm)
        simp only [e]
        simp only [inorder, List.length_append, List.length_cons, ihr h2]
        omega
      · split
        · rename_i hgt hlt
          have e : (key ∈ inorder (node k h b l r)) ↔ key ∈ inorder l := by
            simp only [inorder, List.mem_append, List.mem_cons]
            constructor
            · rintro (hm | rfl | hm)
              · exact hm
              · exact absurd hlt (lt_irrefl _)
              · exact absurd (h4 key hm) (not_lt.mpr (le_of_lt hlt))
            · exact fun hm => Or.inl hm
          simp only [e]
          simp only [inorder, List.length_append, List.length_cons, ihl h1]
          omega
        · rename_i hgt hlt
          have : key = k := le_antisymm (not_lt.mp hgt) (not_lt.mp hlt)
          subst this
          simp [inorder]

end ordered

section ordered

variable [LinearOrder α]

/-! ## `removenb` and `cut_off_node` against their recursive descriptions -/

theorem splice_loop_spec (lvl : Nat) (sibling : AVLNode α) (skey : α) (path : List (Frame α))
    (t : AVLNode α) (hne : ∀ x ∈ inorder t, x ≠ skey)
    (hh : t = nil → path ≠ [] ∧ head_ok skey path)
    (hf : frames_ok lvl path) (ht : good lvl t) (hs : good lvl sibling) :
    ∃ p, splice_loop sibling skey path t = some p ∧
      Path.tree p = plugAll path (graft sibling skey t) ∧ path_ok lvl p := by
  induction t generalizing path with
  | nil =>
      obtain ⟨hne2, hp⟩ := hh rfl
      cases path with
      | nil => exact absurd rfl hne2
      | cons f fs =>
          have hfs : frames_ok lvl fs := fun g hg => hf g (List.mem_cons_of_mem _ hg)
          have hfo : good lvl f.other := hf f (List.mem_cons_self _ _)
          cases f with
          | mk d k h b o =>
              cases d
              · have hk : ¬ skey > k := by simpa [head_ok] using hp
                exact ⟨Path.nodes fs (node k h b sibling o),
                  by simp only [splice_loop, plug, hk, if_false], rfl, hfs, hs, hfo⟩
              · have hk : skey > k := by simpa [head_ok] using hp
                exact ⟨Path.nodes fs (node k h b o sibling),
                  by simp only [splice_loop, plug, hk, if_true], rfl, hfs, hfo, hs⟩
  | node k h b l r ihl ihr =>
      have hk : k ≠ skey := hne k (by simp [inorder])
      by_cases hgt : skey > k
      · obtain ⟨p, h1, h2, h3⟩ := ihr (⟨Dir.right, k, h, b, l⟩ :: path)
          (fun x hx => hne x (by simp [inorder, hx]))
          (fun _ => ⟨by simp, by simpa [head_ok] using hgt⟩)
          (frames_ok_cons (good_left ht) hf) (good_right ht)
        refine ⟨p, by simp only [splice_loop, if_pos hgt, h1], ?_, h3⟩
        rw [h2]
        simp [graft, hgt, plugAll, plug]
      · have hlt : skey < k := lt_of_le_of_ne (not_lt.mp hgt) (Ne.symm hk)
        obtain ⟨p, h1, h2, h3⟩ := ihl (⟨Dir.left, k, h, b, r⟩ :: path)
          (fun x hx => hne x (by simp [inorder, hx]))
          (fun _ => ⟨by simp, by simpa [head_ok] using hgt⟩)
          (frames_ok_cons (good_right ht) hf) (good_left ht)
        refine ⟨p, by simp only [splice_loop, if_neg hgt, if_pos hlt, h1], ?_, h3⟩
        rw [h2]
        simp [graft, hgt, plugAll, plug]

theorem cut_off_node_spec (lvl : Nat) (k : α) (h b : Int) (l r : AVLNode α)
    (path : List (Frame α)) (hst : search_tree (node k h b l r))
    (hf : frames_ok lvl path) (hl : good lvl l) (hr : good lvl r) :
    ∃ p, cut_off_node (node k h b l r) path = some p ∧
      Path.tree p = plugAll path (cut (node k h b l r)) ∧ path_ok lvl p := by
  obtain ⟨-, -, h3, h4⟩ := (search_tree_node k h b l r).mp hst
  cases l with
  | nil =>
      cases r with
      | nil => exact ⟨_, rfl, relink_tree _ _, relink_ok lvl _ _ hf (good_nil lvl)⟩
      | node rk rh rb rl rr => exact ⟨_, rfl, relink_tree _ _, relink_ok lvl _ _ hf hr⟩
  | node lk lh lb ll lr =>
      cases r with
      | nil => exact ⟨_, rfl, relink_tree _ _, relink_ok lvl _ _ hf hl⟩
      | node rk rh rb rl rr =>
          have hlk : lk < k := h3 lk (by simp [inorder])
          have hrk : k < rk := h4 rk (by simp [inorder])
          have nl : ∀ x ∈ inorder (node lk lh lb ll lr), x ≠ rk :=
            fun x hx => ne_of_lt (lt_trans (h3 x hx) hrk)
          have nr : ∀ x ∈ inorder (node rk rh rb rl rr), x ≠ lk :=
            fun x hx => ne_of_gt (lt_trans hlk (h4 x hx))
          have pl := splice_loop_spec lvl (node rk rh rb rl rr) rk path (node lk lh lb ll lr) nl
            (fun hc => by cases hc) hf hl hr
          have pr := splice_loop_spec lvl (node lk lh lb ll lr) lk path (node rk rh rb rl rr) nr
            (fun hc => by cases hc) hf hr hl
          simp only [cut_off_node, cut]
          split
          · exact pl
          · split
            · exact pr
            · split
              · exact pl
              · exact pr

theorem removenb_loop_spec (lvl : Nat) (key : α) (path : List (Frame α)) (t : AVLNode α)
    (hst : search_tree t) (hf : frames_ok lvl path) (ht : good lvl t)
    (hw : good lvl (plugAll path t)) :
    ∃ p, removenb_loop key path t = some p ∧
      Path.tree p = plugAll path (bst_remove key t) ∧ path_ok lvl p := by
  induction t generalizing path with
  | nil => exact ⟨_, rfl, rfl, hw⟩
  | node k h b l r ihl ihr =>
      obtain ⟨h1, h2, -, -⟩ := (search_tree_node k h b l r).mp hst
      simp only [removenb_loop, bst_remove]
      split
      · obtain ⟨p, e1, e2, e3⟩ := ihr (⟨Dir.right, k, h, b, l⟩ :: path) h2
          (frames_ok_cons (good_left ht) hf) (good_right ht) hw
        exact ⟨p, e1, by rw [e2]; simp [plugAll, plug], e3⟩
      · split
        · obtain ⟨p, e1, e2, e3⟩ := ihl (⟨Dir.left, k, h, b, r⟩ :: path) h1
            (frames_ok_cons (good_right ht) hf) (good_left ht) hw
          exact ⟨p, e1, by rw [e2]; simp [plugAll, plug], e3⟩
        · exact cut_off_node_spec lvl k h b l r path hst hf (good_left ht) (good_right ht)

theorem removenb_spec (lvl : Nat) (t : AVLNode α) (key : α) (hst : search_tree t)
    (ht : good lvl t) :
    ∃ p, removenb t key = some p ∧ Path.tree p = bst_remove key t ∧ path_ok lvl p := by
  cases t with
  | nil => exact ⟨_, rfl, rfl, good_nil lvl⟩
  | node k h b l r =>
      exact removenb_loop_spec lvl key [] _ hst (fun _ hg => by simp at hg) ht ht

theorem inorder_graft_right (s : AVLNode α) (skey : α) (t : AVLNode α)
    (h : ∀ x ∈ inorder t, x < skey) : inorder (graft s skey t) = inorder t ++ inorder s := by
  induction t with
  | nil => simp [graft, inorder]
  | node k ht b l r _ ihr =>
      have hk : skey > k := h k (by simp [inorder])
      simp only [graft, if_pos hk, inorder]
      rw [ihr (fun x hx => h x (by simp [inorder, hx]))]
      simp

theorem inorder_graft_left (s : AVLNode α) (skey : α) (t : AVLNode α)
    (h : ∀ x ∈ inorder t, skey < x) : inorder (graft s skey t) = inorder s ++ inorder t := by
  induction t with
  | nil => simp [graft, inorder]
  | node k ht b l r ihl _ =>
      have hk : ¬ skey > k := not_lt.mpr (le_of_lt (h k (by simp [inorder])))
      simp only [graft, if_neg hk, inorder]
      rw [ihl (fun x hx => h x (by simp [inorder, hx]))]
      simp

theorem inorder_cut (k : α) (h b : Int) (l r : AVLNode α)
    (hst : search_tree (node k h b l r)) :
    inorder (cut (node k h b l r)) = inorder l ++ inorder r := by
  obtain ⟨-, -, h3, h4⟩ := (search_tree_node k h b l r).mp hst
  cases l with
  | nil => cases r <;> simp [cut, inorder]
  | node lk lh lb ll lr =>
      cases r with
      | nil => simp [cut, inorder]
      | node rk rh rb rl rr =>
          have hlk : lk < k := h3 lk (by simp [inorder])
          have hrk : k < rk := h4 rk (by simp [inorder])
          have pl := inorder_graft_right (node rk rh rb rl rr) rk (node lk lh lb ll lr)
            (fun x hx => lt_trans (h3 x hx) hrk)
          have pr := inorder_graft_left (node lk lh lb ll lr) lk (node rk rh rb rl rr)
            (fun x hx => lt_trans hlk (h4 x hx))
          simp only [cut]
          split
          · exact pl
          · split
            · exact pr
            · split
              · exact pl
              · exact pr

theorem inorder_bst_remove (key : α) (t : AVLNode α) (hst : search_tree t) :
    inorder (bst_remove key t) = (inorder t).filter (fun x => x ≠ key) := by
  induction t with
  | nil => simp [bst_remove, inorder]
  | node k h b l r ihl ihr =>
      obtain ⟨h1, h2, h3, h4⟩ := (search_tree_node k h b l r).mp hst
      simp only [bst_remove]
      split
      · rename_i hgt
        have fl : (inorder l).filter (fun x => x ≠ key) = inorder l :=
          List.filter_eq_self.mpr (fun x hx => by
            simpa using ne_of_lt (lt_trans (h3 x hx) hgt))
        have hk : k ≠ key := ne_of_lt hgt
        simp only [inorder]
        rw [List.filter_append, List.filter_cons, fl, ihr h2]
        simp [hk]
      · split
        · rename_i hgt hlt
          have fr : (inorder r).filter (fun x => x ≠ key) = inorder r :=
            List.filter_eq_self.mpr (fun x hx => by
              simpa using ne_of_gt (lt_trans hlt (h4 x hx)))
          have hk : k ≠ key := ne_of_gt hlt
          simp only [inorder]
          rw [List.filter_append, List.filter_cons, fr, ihl h1]
          simp [hk]
        · rename_i hgt hlt
          have : key = k := le_antisymm (not_lt.mp hgt) (not_lt.mp hlt)
          subst this
          have fl : (inorder l).filter (fun x => x ≠ key) = inorder l :=
            List.filter_eq_self.mpr (fun x hx => by simpa using ne_of_lt (h3 x hx))
          have fr : (inorder r).filter (fun x => x ≠ key) = inorder r :=
            List.filter_eq_self.mpr (fun x hx => by simpa using ne_of_gt (h4 x hx))
          rw [inorder_cut key h b l r hst]
          simp only [inorder]
          rw [List.filter_append, List.filter_cons, fl, fr]
          simp

end ordered

/-! ## `is_balanced()` and the loop over the path of the unbalanced mutators -/

theorem forall_mem_push_child (q : List (AVLNode α)) (c : AVLNode α) :
    (∀ t ∈ push_child q c, cached_balanced t) ↔
      (∀ t ∈ q, cached_balanced t) ∧ cached_balanced c := by
  cases c with
  | nil => simp [push_child, cached_balanced]
  | node k h b l r =>
      simp only [push_child, List.mem_append, List.mem_singleton]
      constructor
      · intro hq
        exact ⟨fun t ht => hq t (Or.inl ht), hq _ (Or.inr rfl)⟩
      · rintro ⟨h1, h2⟩ t (ht | rfl)
        · exact h1 t ht
        · exact h2

theorem is_balanced_loop_iff (q : List (AVLNode α)) :
    is_balanced_loop q = true ↔ ∀ t ∈ q, cached_balanced t := by
  induction q using is_balanced_loop.induct with
  | case1 => simp [is_balanced_loop]
  | case2 q ih =>
      rw [is_balanced_loop, ih]
      simp [cached_balanced]
  | case3 k h b l r q balance hbad =>
      rw [is_balanced_loop]
      simp only [balance, compute_node_balance_node] at hbad
      simp only [compute_node_balance_node, if_pos hbad]
      constructor
      · intro hc; cases hc
      · intro hq
        have := (hq _ (List.mem_cons_self _ _)).1
        omega
  | case4 k h b l r q balance hok ih =>
      rw [is_balanced_loop]
      simp only [balance, compute_node_balance_node] at hok
      simp only [compute_node_balance_node, if_neg hok]
      rw [ih, forall_mem_push_child, forall_mem_push_child]
      simp only [List.mem_cons, forall_eq_or_imp, cached_balanced]
      constructor
      · rintro ⟨⟨h1, h2⟩, h3⟩
        exact ⟨⟨⟨by omega, by omega⟩, h2, h3⟩, h1⟩
      · rintro ⟨⟨-, h2, h3⟩, h1⟩
        exact ⟨⟨h1, h2⟩, h3⟩

theorem is_balanced_iff (t : AVLNode α) : is_balanced t = true ↔ cached_balanced t := by
  cases t with
  | nil => simp [is_balanced, cached_balanced]
  | node k h b l r =>
      simp only [is_balanced]
      rw [is_balanced_loop_iff]
      simp

theorem cached_balanced_of_good (t : AVLNode α) (h : good 2 t) : cached_balanced t := by
  induction t with
  | nil => trivial
  | node k ht b l r ihl ihr =>
      have gl := good_left h
      have gr := good_right h
      have cl := cached_height_of_exact (gl.1 (by omega))
      have cr := cached_height_of_exact (gr.1 (by omega))
      have hb := (h.2 (le_refl 2)).1
      exact ⟨by omega, ihl gl, ihr gr⟩

theorem is_balanced_of_good (t : AVLNode α) (h : good 2 t) : is_balanced t = true :=
  (is_balanced_iff t).mpr (cached_balanced_of_good t h)

theorem good_two {t : AVLNode α} (h1 : heights_exact t) (h2 : height_balanced t) : good 2 t :=
  ⟨fun _ => h1, fun _ => h2⟩

theorem good_one {t : AVLNode α} (h1 : heights_exact t) : good 1 t :=
  ⟨fun _ => h1, fun h => absurd h (by omega)⟩

theorem good_zero (t : AVLNode α) : good 0 t :=
  ⟨fun h => absurd h (by omega), fun h => absurd h (by omega)⟩

theorem inorder_refresh_loop (above : List (Frame α)) (cur : AVLNode α) :
    inorder (refresh_loop above cur) = inorder (plugAll above cur) := by
  induction above generalizing cur with
  | nil => simp [refresh_loop, plugAll]
  | cons f fs ih =>
      rw [refresh_loop, ih]
      show _ = inorder (plugAll fs (plug f cur))
      rw [inorder_plugAll, inorder_plugAll, inorder_plug, inorder_plug]
      simp

theorem inorder_refresh (p : Path α) : inorder (refresh p) = inorder (Path.tree p) := by
  cases p with
  | empty root => rfl
  | nodes above back => exact inorder_refresh_loop above back

theorem rebalance_inorder (fuel : Nat) (p : Path α) (t : AVLNode α)
    (h : rebalance fuel p = some t) : inorder t = inorder (Path.tree p) := by
  cases p with
  | empty root =>
      simp only [rebalance, Option.some.injEq] at h
      subst h
      rfl
  | nodes above back => exact rebalance_loop_inorder fuel above back t h

theorem rebalance_returns (lvl : Nat) (hlvl : 1 ≤ lvl) (p : Path α) (hp : path_ok lvl p) :
    ∃ t, Returns (fun fuel => rebalance fuel p) t ∧ good lvl t ∧
      inorder t = inorder (Path.tree p) := by
  cases p with
  | empty root => exact ⟨root, ⟨0, fun _ _ => rfl⟩, hp, rfl⟩
  | nodes above back => exact rebalance_loop_returns lvl hlvl above back hp.1 hp.2

theorem returns_unique {β : Type} {run : Nat → Option β} {v w : β}
    (hv : Returns run v) (hw : Returns run w) : v = w := by
  obtain ⟨f1, h1⟩ := hv
  obtain ⟨f2, h2⟩ := hw
  have e1 := h1 (max f1 f2) (le_max_left _ _)
  have e2 := h2 (max f1 f2) (le_max_right _ _)
  rw [e1] at e2
  exact Option.some.inj e2

section ordered

variable [LinearOrder α]

/-! ## The public operations -/

theorem find_isSome_iff (t : AVLNode α) (key : α) (hs : search_tree t) :
    (find t key).isSome = true ↔ key ∈ inorder t := by
  induction t with
  | nil => simp [find, inorder]
  | node k h b l r ihl ihr =>
      obtain ⟨h1, h2, h3, h4⟩ := (search_tree_node k h b l r).mp hs
      simp only [find, inorder, List.mem_append, List.mem_cons]
      split
      · rename_i hgt
        rw [ihr h2]
        constructor
        · exact fun hm => Or.inr (Or.inr hm)
        · rintro (hm | rfl | hm)
          · exact absurd (h3 key hm) (not_lt.mpr (le_of_lt hgt))
          · exact absurd hgt (lt_irrefl _)
          · exact hm
      · split
        · rename_i hgt hlt
          rw [ihl h1]
          constructor
          · exact fun hm => Or.inl hm
          · rintro (hm | rfl | hm)
            · exact hm
            · exact absurd hlt (lt_irrefl _)
            · exact absurd (h4 key hm) (not_lt.mpr (le_of_lt hlt))
        · rename_i hgt hlt
          have : key = k := le_antisymm (not_lt.mp hgt) (not_lt.mp hlt)
          simp [this]

theorem find_eq_none_iff (t : AVLNode α) (key : α) (hs : search_tree t) :
    find t key = none ↔ key ∉ inorder t := by
  rw [← find_isSome_iff t key hs]
  cases find t key <;> simp

theorem find_key (t : AVLNode α) (key : α) (n : AVLNode α) (hn : find t key = some n) :
    ∃ h b l r, n = node key h b l r := by
  induction t with
  | nil => simp [find] at hn
  | node k h b l r ihl ihr =>
      simp only [find] at hn
      split at hn
      · exact ihr hn
      · split at hn
        · exact ihl hn
        · rename_i hgt hlt
          have : key = k := le_antisymm (not_lt.mp hgt) (not_lt.mp hlt)
          subst this
          exact ⟨h, b, l, r, (Option.some.inj hn).symm⟩

theorem inorder_unbalanced_insert (t : AVLNode α) (key : α) :
    inorder (unbalanced_insert t key) = inorder (bst_insert key t) := by
  rw [unbalanced_insert, inorder_refresh, insertnb_tree]

theorem insert_inorder (fuel : Nat) (t : AVLNode α) (key : α) (t2 : AVLNode α)
    (h : insert fuel t key = some t2) : inorder t2 = inorder (bst_insert key t) := by
  rw [rebalance_inorder fuel _ _ h, insertnb_tree]

theorem insert_returns (lvl : Nat) (hlvl : 1 ≤ lvl) (t : AVLNode α) (key : α)
    (ht : good lvl t) :
    ∃ t2, Returns (fun fuel => insert fuel t key) t2 ∧ good lvl t2 ∧
      inorder t2 = inorder (bst_insert key t) := by
  obtain ⟨t2, h1, h2, h3⟩ := rebalance_returns lvl hlvl _ (insertnb_ok lvl t key ht)
  exact ⟨t2, h1, h2, by rw [h3, insertnb_tree]⟩

theorem unbalanced_remove_spec (t : AVLNode α) (key : α) (hs : search_tree t) :
    ∃ t2, unbalanced_remove t key = some t2 ∧
      inorder t2 = (inorder t).filter (fun x => x ≠ key) := by
  obtain ⟨p, h1, h2, -⟩ := removenb_spec 0 t key hs (good_zero t)
  refine ⟨refresh p, by simp [unbalanced_remove, h1], ?_⟩
  rw [inorder_refresh, h2, inorder_bst_remove key t hs]

theorem remove_inorder (fuel : Nat) (t : AVLNode α) (key : α) (t2 : AVLNode α)
    (hs : search_tree t) (h : remove fuel t key = some t2) :
    inorder t2 = (inorder t).filter (fun x => x ≠ key) := by
  obtain ⟨p, h1, h2, -⟩ := removenb_spec 0 t key hs (good_zero t)
  simp only [remove, h1] at h
  rw [rebalance_inorder fuel _ _ h, h2, inorder_bst_remove key t hs]

theorem remove_returns (lvl : Nat) (hlvl : 1 ≤ lvl) (t : AVLNode α) (key : α)
    (hs : search_tree t) (ht : good lvl t) :
    ∃ t2, Returns (fun fuel => remove fuel t key) t2 ∧ good lvl t2 ∧
      inorder t2 = (inorder t).filter (fun x => x ≠ key) := by
  obtain ⟨p, h1, h2, h3⟩ := removenb_spec lvl t key hs ht
  obtain ⟨t2, ⟨f, hf⟩, g2, g3⟩ := rebalance_returns lvl hlvl p h3
  refine ⟨t2, ⟨f, fun n hn => ?_⟩, g2, ?_⟩
  · simp only [remove, h1]
    exact hf n hn
  · rw [g3, h2, inorder_bst_remove key t hs]

theorem search_tree_of_inorder_insert (t t2 : AVLNode α) (key : α) (hs : search_tree t)
    (h : inorder t2 = inorder (bst_insert key t)) : search_tree t2 := by
  have := search_tree_bst_insert key t hs
  simp only [search_tree] at this ⊢
  rw [h]
  exact this

theorem search_tree_of_inorder_remove (t t2 : AVLNode α) (key : α) (hs : search_tree t)
    (h : inorder t2 = (inorder t).filter (fun x => x ≠ key)) : search_tree t2 := by
  simp only [search_tree] at hs ⊢
  rw [h]
  exact hs.filter _

theorem run_ops_returns (ops : List (Op α)) (t : AVLNode α) (hs : search_tree t)
    (ht : good 2 t) :
    ∃ t2, Returns (fun fuel => run_ops fuel ops t) t2 ∧ search_tree t2 ∧ good 2 t2 := by
  induction ops generalizing t with
  | nil => exact ⟨t, ⟨0, fun _ _ => rfl⟩, hs, ht⟩
  | cons op ops ih =>
      have hop : ∃ t1, Returns (fun fuel => run_op fuel t op) t1 ∧ search_tree t1 ∧ good 2 t1 := by
        cases op with
        | insert key =>
            obtain ⟨t1, h1, h2, h3⟩ := insert_returns 2 (by omega) t key ht
            exact ⟨t1, h1, search_tree_of_inorder_insert t t1 key hs h3, h2⟩
        | remove key =>
            obtain ⟨t1, h1, h2, h3⟩ := remove_returns 2 (by omega) t key hs ht
            exact ⟨t1, h1, search_tree_of_inorder_remove t t1 key hs h3, h2⟩
      obtain ⟨t1, ⟨f1, hf1⟩, hs1, hg1⟩ := hop
      obtain ⟨t2, ⟨f2, hf2⟩, hs2, hg2⟩ := ih t1 hs1 hg1
      refine ⟨t2, ⟨max f1 f2, fun n hn => ?_⟩, hs2, hg2⟩
      simp only [run_ops, hf1 n (le_trans (le_max_left _ _) hn)]
      exact hf2 n (le_trans (le_max_right _ _) hn)

end ordered

section ordered

variable [LinearOrder α]

/-! ## The claims -/

/-- C1: `insert` keeps the tree balanced.  For every tree with exact cached
heights in which every node's left/right height difference is in [-1,1], and for
every key, `insert(key)` returns and `is_balanced()` is true on the tree it
leaves (the search-tree order of the tree is not needed for this). -/
theorem insert_keeps_balanced (t : AVLNode α) (key : α)
    (he : heights_exact t) (hb : height_balanced t) :
    ∃ t2, Returns (fun fuel => insert fuel t key) t2 ∧ is_balanced t2 = true := by
  obtain ⟨t2, h1, h2, -⟩ := insert_returns 2 (by omega) t key (good_two he hb)
  exact ⟨t2, h1, is_balanced_of_good t2 h2⟩

theorem insert_keeps_balanced_witness :
    heights_exact example_tree ∧ height_balanced example_tree ∧
      ∃ t2, Returns (fun fuel => insert fuel example_tree 12) t2 ∧ is_balanced t2 = true :=
  ⟨by decide, by decide, insert_keeps_balanced example_tree 12 (by decide) (by decide)⟩

/-- C2: `remove` keeps the tree balanced.  For every search tree with exact
cached heights in which every node's left/right height difference is in [-1,1],
and for every key (also one held by a node with two children), `remove(key)`
returns and `is_balanced()` is true on the tree it leaves. -/
theorem remove_keeps_balanced (t : AVLNode α) (key : α) (hs : search_tree t)
    (he : heights_exact t) (hb : height_balanced t) :
    ∃ t2, Returns (fun fuel => remove fuel t key) t2 ∧ is_balanced t2 = true := by
  obtain ⟨t2, h1, h2, -⟩ := remove_returns 2 (by omega) t key hs (good_two he hb)
  exact ⟨t2, h1, is_balanced_of_good t2 h2⟩

theorem remove_keeps_balanced_witness :
    search_tree example_tree ∧ heights_exact example_tree ∧ height_balanced example_tree ∧
      ∃ t2, Returns (fun fuel => remove fuel example_tree 20) t2 ∧ is_balanced t2 = true :=
  ⟨by decide, by decide, by decide,
    remove_keeps_balanced example_tree 20 (by decide) (by decide) (by decide)⟩

/-- C3: after every sequence of balanced `insert` and `remove` calls applied to
an empty tree, the sequence returns and every node's cached height equals its
true subtree height. -/
theorem balanced_ops_heights_exact (ops : List (Op α)) :
    ∃ t, Returns (fun fuel => run_ops fuel ops nil) t ∧ heights_exact t := by
  obtain ⟨t, h1, -, h3⟩ := run_ops_returns ops nil (by simp [search_tree, inorder]) (good_nil 2)
  exact ⟨t, h1, h3.1 (by omega)⟩

/-- C4: `insert` and `unbalanced_insert` preserve the search-tree order.  For
every tree whose in-order traversal is strictly increasing and every key, the
traversal after `unbalanced_insert(key)` is strictly increasing, so is the
traversal of whatever tree a run of `insert(key)` leaves, and `insert(key)` does
return when the cached heights of the tree are exact. -/
theorem insert_preserves_order (t : AVLNode α) (key : α) (hs : search_tree t) :
    search_tree (unbalanced_insert t key) ∧
      (∀ fuel t2, insert fuel t key = some t2 → search_tree t2) ∧
      (heights_exact t → ∃ t2, Returns (fun fuel => insert fuel t key) t2 ∧ search_tree t2) := by
  refine ⟨search_tree_of_inorder_insert t _ key hs (inorder_unbalanced_insert t key),
    fun fuel t2 h => search_tree_of_inorder_insert t t2 key hs (insert_inorder fuel t key t2 h),
    fun he => ?_⟩
  obtain ⟨t2, h1, -, h3⟩ := insert_returns 1 (le_refl 1) t key (good_one he)
  exact ⟨t2, h1, search_tree_of_inorder_insert t t2 key hs h3⟩

theorem insert_preserves_order_witness :
    search_tree example_tree ∧ heights_exact example_tree ∧
      search_tree (unbalanced_insert example_tree 12) ∧
      ∃ t2, Returns (fun fuel => insert fuel example_tree 12) t2 ∧ search_tree t2 :=
  ⟨by decide, by decide, (insert_preserves_order example_tree 12 (by decide)).1,
    (insert_preserves_order example_tree 12 (by decide)).2.2 (by decide)⟩

/-- C5: `remove` and `unbalanced_remove` preserve the search-tree order.  For
every tree whose in-order traversal is strictly increasing and every key (also
one held by a node with two children, whose demoted subtree is re-attached
under the promoted child), `unbalanced_remove(key)` returns a tree whose
traversal is strictly increasing, so is the traversal of whatever tree a run of
`remove(key)` leaves, and `remove(key)` does return when the cached heights of
the tree are exact. -/
theorem remove_preserves_order (t : AVLNode α) (key : α) (hs : search_tree t) :
    (∃ t2, unbalanced_remove t key = some t2 ∧ search_tree t2) ∧
      (∀ fuel t2, remove fuel t key = some t2 → search_tree t2) ∧
      (heights_exact t → ∃ t2, Returns (fun fuel => remove fuel t key) t2 ∧ search_tree t2) := by
  refine ⟨?_, fun fuel t2 h =>
    search_tree_of_inorder_remove t t2 key hs (remove_inorder fuel t key t2 hs h), fun he => ?_⟩
  · obtain ⟨t2, h1, h2⟩ := unbalanced_remove_spec t key hs
    exact ⟨t2, h1, search_tree_of_inorder_remove t t2 key hs h2⟩
  · obtain ⟨t2, h1, -, h3⟩ := remove_returns 1 (le_refl 1) t key hs (good_one he)
    exact ⟨t2, h1, search_tree_of_inorder_remove t t2 key hs h3⟩

theorem remove_preserves_order_witness :
    search_tree example_tree ∧ heights_exact example_tree ∧
      (∃ t2, unbalanced_remove example_tree 20 = some t2 ∧ search_tree t2) ∧
      ∃ t2, Returns (fun fuel => remove fuel example_tree 20) t2 ∧ search_tree t2 :=
  ⟨by decide, by decide, (remove_preserves_order example_tree 20 (by decide)).1,
    (remove_preserves_order example_tree 20 (by decide)).2.2 (by decide)⟩

/-- C6: `find` is a correct membership test on search trees.  For every tree
with strictly increasing in-order keys and every key `k`, `find(k)` returns a
node exactly when `k` is one of the keys of the tree, the key of the node
returned is `k`, and `find` returns not-found on the empty tree. -/
theorem find_correct (t : AVLNode α) (key : α) (hs : search_tree t) :
    ((find t key).isSome = true ↔ key ∈ inorder t) ∧
      (∀ n, find t key = some n → ∃ h b l r, n = node key h b l r) ∧
      find (nil : AVLNode α) key = none :=
  ⟨find_isSome_iff t key hs, fun n hn => find_key t key n hn, rfl⟩

theorem find_correct_witness :
    search_tree example_tree ∧
      (((find example_tree 15).isSome = true ↔ 15 ∈ inorder example_tree) ∧
        (∀ n, find example_tree 15 = some n → ∃ h b l r, n = node 15 h b l r) ∧
        find (nil : AVLNode Nat) 15 = none) :=
  ⟨by decide, find_correct example_tree 15 (by decide)⟩

/-- C7: insert then find succeeds.  For every search tree and every key `k`,
`find(k)` returns a node on the tree left by `unbalanced_insert(k)` and on
whatever tree a run of `insert(k)` leaves, and `insert(k)` does return when the
cached heights of the tree are exact. -/
theorem find_after_insert (t : AVLNode α) (key : α) (hs : search_tree t) :
    (find (unbalanced_insert t key) key).isSome = true ∧
      (∀ fuel t2, insert fuel t key = some t2 → (find t2 key).isSome = true) ∧
      (heights_exact t →
        ∃ t2, Returns (fun fuel => insert fuel t key) t2 ∧ (find t2 key).isSome = true) := by
  have hfound : ∀ t2, inorder t2 = inorder (bst_insert key t) → (find t2 key).isSome = true := by
    intro t2 h
    rw [find_isSome_iff t2 key (search_tree_of_inorder_insert t t2 key hs h), h]
    exact (mem_bst_insert key key t).mpr (Or.inl rfl)
  refine ⟨hfound _ (inorder_unbalanced_insert t key),
    fun fuel t2 h => hfound t2 (insert_inorder fuel t key t2 h), fun he => ?_⟩
  obtain ⟨t2, h1, -, h3⟩ := insert_returns 1 (le_refl 1) t key (good_one he)
  exact ⟨t2, h1, hfound t2 h3⟩

theorem find_after_insert_witness :
    search_tree example_tree ∧ heights_exact example_tree ∧
      (find (unbalanced_insert example_tree 12) 12).isSome = true ∧
      ∃ t2, Returns (fun fuel => insert fuel example_tree 12) t2 ∧ (find t2 12).isSome = true :=
  ⟨by decide, by decide, (find_after_insert example_tree 12 (by decide)).1,
    (find_after_insert example_tree 12 (by decide)).2.2 (by decide)⟩

/-- C8: remove then find fails.  For every search tree (its keys are distinct)
and every key `k`, `unbalanced_remove(k)` returns a tree on which `find(k)`
returns not-found, so does `find(k)` on whatever tree a run of `remove(k)`
leaves, and `remove(k)` does return when the cached heights of the tree are
exact. -/
theorem find_after_remove (t : AVLNode α) (key : α) (hs : search_tree t) :
    (∃ t2, unbalanced_remove t key = some t2 ∧ find t2 key = none) ∧
      (∀ fuel t2, remove fuel t key = some t2 → find t2 key = none) ∧
      (heights_exact t →
        ∃ t2, Returns (fun fuel => remove fuel t key) t2 ∧ find t2 key = none) := by
  have hgone : ∀ t2, inorder t2 = (inorder t).filter (fun x => x ≠ key) → find t2 key = none := by
    intro t2 h
    rw [find_eq_none_iff t2 key (search_tree_of_inorder_remove t t2 key hs h), h]
    simp
  refine ⟨?_, fun fuel t2 h => hgone t2 (remove_inorder fuel t key t2 hs h), fun he => ?_⟩
  · obtain ⟨t2, h1, h2⟩ := unbalanced_remove_spec t key hs
    exact ⟨t2, h1, hgone t2 h2⟩
  · obtain ⟨t2, h1, -, h3⟩ := remove_returns 1 (le_refl 1) t key hs (good_one he)
    exact ⟨t2, h1, hgone t2 h3⟩

theorem find_after_remove_witness :
    search_tree example_tree ∧ heights_exact example_tree ∧
      (∃ t2, unbalanced_remove example_tree 20 = some t2 ∧ find t2 20 = none) ∧
      ∃ t2, Returns (fun fuel => remove fuel example_tree 20) t2 ∧ find t2 20 = none :=
  ⟨by decide, by decide, (find_after_remove example_tree 20 (by decide)).1,
    (find_after_remove example_tree 20 (by decide)).2.2 (by decide)⟩

/-- C9: `remove` deletes exactly one key.  For every search tree `t` and key
`k`, the in-order key list of the tree returned by `unbalanced_remove(k)`, and
of whatever tree a run of `remove(k)` leaves, is the key list of `t` without
`k` (no other key is lost or duplicated, also when the node removed has two
children), and `remove(k)` does return when the cached heights are exact. -/
theorem remove_deletes_one_key (t : AVLNode α) (key : α) (hs : search_tree t) :
    (∃ t2, unbalanced_remove t key = some t2 ∧
        inorder t2 = (inorder t).filter (fun x => x ≠ key)) ∧
      (∀ fuel t2, remove fuel t key = some t2 →
        inorder t2 = (inorder t).filter (fun x => x ≠ key)) ∧
      (heights_exact t → ∃ t2, Returns (fun fuel => remove fuel t key) t2 ∧
        inorder t2 = (inorder t).filter (fun x => x ≠ key)) := by
  refine ⟨unbalanced_remove_spec t key hs,
    fun fuel t2 h => remove_inorder fuel t key t2 hs h, fun he => ?_⟩
  obtain ⟨t2, h1, -, h3⟩ := remove_returns 1 (le_refl 1) t key hs (good_one he)
  exact ⟨t2, h1, h3⟩

theorem remove_deletes_one_key_witness :
    build 5 [20, 10, 30, 5, 15] = some example_tree ∧ search_tree example_tree ∧
      heights_exact example_tree ∧
      (∃ t2, unbalanced_remove example_tree 20 = some t2 ∧ inorder t2 = [5, 10, 15, 30]) ∧
      ∃ t2, Returns (fun fuel => remove fuel example_tree 20) t2 ∧
        inorder t2 = [5, 10, 15, 30] := by
  have h := remove_deletes_one_key example_tree 20 (by decide)
  refine ⟨by decide, by decide, by decide, ?_, ?_⟩
  · obtain ⟨t2, h1, h2⟩ := h.1
    exact ⟨t2, h1, h2.trans (by decide)⟩
  · obtain ⟨t2, h1, h2⟩ := h.2.2 (by decide)
    exact ⟨t2, h1, h2.trans (by decide)⟩

theorem one_key_added_of_inorder (t t2 : AVLNode α) (key : α) (hs : search_tree t)
    (h : inorder t2 = inorder (bst_insert key t)) : one_key_added t key t2 := by
  have hl := length_bst_insert key t hs
  rw [← h, ← size_eq_length_inorder, ← size_eq_length_inorder] at hl
  refine ⟨fun x => by rw [h]; exact mem_bst_insert key x t, fun hm => ?_, fun hm => ?_⟩
  · rw [hl, if_pos hm]; rfl
  · rw [hl, if_neg hm]

/-- C10: `insert` adds exactly one key.  For every search tree `t` and key `k`,
the tree left by `unbalanced_insert(k)`, and whatever tree a run of `insert(k)`
leaves, holds the keys of `t` together with `k` and has one node more than `t`
exactly when `k` was absent, and `insert(k)` does return when the cached heights
are exact. -/
theorem insert_adds_one_key (t : AVLNode α) (key : α) (hs : search_tree t) :
    one_key_added t key (unbalanced_insert t key) ∧
      (∀ fuel t2, insert fuel t key = some t2 → one_key_added t key t2) ∧
      (heights_exact t →
        ∃ t2, Returns (fun fuel => insert fuel t key) t2 ∧ one_key_added t key t2) := by
  refine ⟨one_key_added_of_inorder t _ key hs (inorder_unbalanced_insert t key),
    fun fuel t2 h => one_key_added_of_inorder t t2 key hs (insert_inorder fuel t key t2 h),
    fun he => ?_⟩
  obtain ⟨t2, h1, -, h3⟩ := insert_returns 1 (le_refl 1) t key (good_one he)
  exact ⟨t2, h1, one_key_added_of_inorder t t2 key hs h3⟩

theorem insert_adds_one_key_witness :
    search_tree example_tree ∧ heights_exact example_tree ∧
      one_key_added example_tree 12 (unbalanced_insert example_tree 12) ∧
      ∃ t2, Returns (fun fuel => insert fuel example_tree 12) t2 ∧
        one_key_added example_tree 12 t2 :=
  ⟨by decide, by decide, (insert_adds_one_key example_tree 12 (by decide)).1,
    (insert_adds_one_key example_tree 12 (by decide)).2.2 (by decide)⟩

end ordered

section ordered

variable [LinearOrder α]

/-! ## A present key is not inserted, an absent key is not removed -/

theorem insertnb_loop_present (key : α) (path : List (Frame α)) (t : AVLNode α)
    (hs : search_tree t) (hk : key ∈ inorder t) :
    insertnb_loop key path t = Path.empty (plugAll path t) := by
  induction t generalizing path with
  | nil => simp [inorder] at hk
  | node k h b l r ihl ihr =>
      obtain ⟨h1, h2, h3, h4⟩ := (search_tree_node k h b l r).mp hs
      simp only [inorder, List.mem_append, List.mem_cons] at hk
      simp only [insertnb_loop]
      split
      · rename_i hgt
        have hr : key ∈ inorder r := by
          rcases hk with hm | rfl | hm
          · exact absurd (h3 key hm) (not_lt.mpr (le_of_lt hgt))
          · exact absurd hgt (lt_irrefl _)
          · exact hm
        rw [ihr _ h2 hr]
        rfl
      · split
        · rename_i hgt hlt
          have hl : key ∈ inorder l := by
            rcases hk with hm | rfl | hm
            · exact hm
            · exact absurd hlt (lt_irrefl _)
            · exact absurd (h4 key hm) (not_lt.mpr (le_of_lt hlt))
          rw [ihl _ h1 hl]
          rfl
        · rfl

theorem insertnb_present (t : AVLNode α) (key : α) (hs : search_tree t)
    (hk : key ∈ inorder t) : insertnb t key = Path.empty t := by
  cases t with
  | nil => simp [inorder] at hk
  | node k h b l r => exact insertnb_loop_present key [] _ hs hk

theorem insert_present (fuel : Nat) (t : AVLNode α) (key : α) (hs : search_tree t)
    (hk : key ∈ inorder t) : insert fuel t key = some t := by
  rw [insert, insertnb_present t key hs hk]
  rfl

theorem unbalanced_insert_present (t : AVLNode α) (key : α) (hs : search_tree t)
    (hk : key ∈ inorder t) : unbalanced_insert t key = t := by
  rw [unbalanced_insert, insertnb_present t key hs hk]
  rfl

theorem removenb_loop_absent (key : α) (path : List (Frame α)) (t : AVLNode α)
    (hk : key ∉ inorder t) :
    removenb_loop key path t = some (Path.empty (plugAll path t)) := by
  induction t generalizing path with
  | nil => rfl
  | node k h b l r ihl ihr =>
      simp only [inorder, List.mem_append, List.mem_cons, not_or] at hk
      obtain ⟨hl, hne, hr⟩ := hk
      simp only [removenb_loop]
      split
      · rw [ihr _ hr]
        rfl
      · split
        · rw [ihl _ hl]
          rfl
        · rename_i hgt hlt
          exact absurd (le_antisymm (not_lt.mp hgt) (not_lt.mp hlt)) hne

theorem removenb_absent (t : AVLNode α) (key : α) (hk : key ∉ inorder t) :
    removenb t key = some (Path.empty t) := by
  cases t with
  | nil => rfl
  | node k h b l r => exact removenb_loop_absent key [] _ hk

theorem mem_inorder_of_insert (t t2 : AVLNode α) (key : α)
    (h : inorder t2 = inorder (bst_insert key t)) : key ∈ inorder t2 := by
  rw [h]
  exact (mem_bst_insert key key t).mpr (Or.inl rfl)

end ordered

section ordered

variable [LinearOrder α]

/-! ## Sequences of calls and the keys they leave -/

theorem key_model_congr (ops : List (Op α)) (l1 l2 : List α)
    (h : ∀ x, x ∈ l1 ↔ x ∈ l2) : ∀ x, x ∈ key_model ops l1 ↔ x ∈ key_model ops l2 := by
  induction ops generalizing l1 l2 with
  | nil => exact h
  | cons op ops ih =>
      cases op with
      | insert k =>
          exact ih _ _ (fun x => by simp only [List.mem_cons, h x])
      | remove k =>
          exact ih _ _ (fun x => by simp only [List.mem_filter, h x])

theorem key_model_append (a b : List (Op α)) (l : List α) :
    key_model (a ++ b) l = key_model b (key_model a l) := by
  induction a generalizing l with
  | nil => rfl
  | cons op a ih => cases op <;> exact ih _

theorem mem_key_model_inserts (keys : List α) (l : List α) (x : α) :
    x ∈ key_model (keys.map Op.insert) l ↔ x ∈ keys ∨ x ∈ l := by
  induction keys generalizing l with
  | nil => simp [key_model]
  | cons k keys ih =>
      simp only [List.map_cons, key_model, ih, List.mem_cons]
      tauto

theorem mem_key_model_removes (keys : List α) (l : List α) (x : α) :
    x ∈ key_model (keys.map Op.remove) l ↔ x ∈ l ∧ x ∉ keys := by
  induction keys generalizing l with
  | nil => simp [key_model]
  | cons k keys ih =>
      simp only [List.map_cons, key_model, ih, List.mem_cons, List.mem_filter,
        decide_eq_true_eq, not_or]
      tauto

theorem key_model_closure (keys removals : List α) (hp : removals.Perm keys) (x : α) :
    x ∉ key_model (keys.map Op.insert ++ removals.map Op.remove) [] := by
  rw [key_model_append, mem_key_model_removes, mem_key_model_inserts]
  rintro ⟨h1 | h1, h2⟩
  · exact h2 (hp.mem_iff.mpr h1)
  · simp at h1

theorem run_ops_returns_keys (ops : List (Op α)) (t : AVLNode α) (hs : search_tree t)
    (ht : good 2 t) :
    ∃ t2, Returns (fun fuel => run_ops fuel ops t) t2 ∧ search_tree t2 ∧ good 2 t2 ∧
      ∀ x, x ∈ inorder t2 ↔ x ∈ key_model ops (inorder t) := by
  induction ops generalizing t with
  | nil => exact ⟨t, ⟨0, fun _ _ => rfl⟩, hs, ht, fun _ => Iff.rfl⟩
  | cons op ops ih =>
      have hop : ∃ t1, Returns (fun fuel => run_op fuel t op) t1 ∧ search_tree t1 ∧ good 2 t1 ∧
          ∀ x, x ∈ key_model ops (inorder t1) ↔ x ∈ key_model (op :: ops) (inorder t) := by
        cases op with
        | insert key =>
            obtain ⟨t1, h1, h2, h3⟩ := insert_returns 2 (by omega) t key ht
            refine ⟨t1, h1, search_tree_of_inorder_insert t t1 key hs h3, h2, ?_⟩
            exact key_model_congr ops _ _ (fun x => by
              rw [h3, mem_bst_insert, List.mem_cons])
        | remove key =>
            obtain ⟨t1, h1, h2, h3⟩ := remove_returns 2 (by omega) t key hs ht
            refine ⟨t1, h1, search_tree_of_inorder_remove t t1 key hs h3, h2, ?_⟩
            rw [h3]
            exact fun x => Iff.rfl
      obtain ⟨t1, ⟨f1, hf1⟩, hs1, hg1, hk1⟩ := hop
      obtain ⟨t2, ⟨f2, hf2⟩, hs2, hg2, hk2⟩ := ih t1 hs1 hg1
      refine ⟨t2, ⟨max f1 f2, fun n hn => ?_⟩, hs2, hg2, fun x => (hk2 x).trans (hk1 x)⟩
      simp only [run_ops, hf1 n (le_trans (le_max_left _ _) hn)]
      exact hf2 n (le_trans (le_max_right _ _) hn)

theorem run_unbalanced_ops_keys (ops : List (Op α)) (t : AVLNode α) (hs : search_tree t) :
    ∃ t2, run_unbalanced_ops ops t = some t2 ∧ search_tree t2 ∧
      ∀ x, x ∈ inorder t2 ↔ x ∈ key_model ops (inorder t) := by
  induction ops generalizing t with
  | nil => exact ⟨t, rfl, hs, fun _ => Iff.rfl⟩
  | cons op ops ih =>
      have hop : ∃ t1, run_unbalanced_op t op = some t1 ∧ search_tree t1 ∧
          ∀ x, x ∈ key_model ops (inorder t1) ↔ x ∈ key_model (op :: ops) (inorder t) := by
        cases op with
        | insert key =>
            have h3 := inorder_unbalanced_insert t key
            refine ⟨_, rfl, search_tree_of_inorder_insert t _ key hs h3, ?_⟩
            exact key_model_congr ops _ _ (fun x => by
              rw [h3, mem_bst_insert, List.mem_cons])
        | remove key =>
            obtain ⟨t1, h1, h3⟩ := unbalanced_remove_spec t key hs
            refine ⟨t1, h1, search_tree_of_inorder_remove t t1 key hs h3, ?_⟩
            rw [h3]
            exact fun x => Iff.rfl
      obtain ⟨t1, h1, hs1, hk1⟩ := hop
      obtain ⟨t2, h2, hs2, hk2⟩ := ih t1 hs1
      refine ⟨t2, ?_, hs2, fun x => (hk2 x).trans (hk1 x)⟩
      simp only [run_unbalanced_ops, h1]
      exact h2

end ordered

theorem is_empty_of_inorder (t : AVLNode α) (h : ∀ x, x ∉ inorder t) : is_empty t = true := by
  cases t with
  | nil => rfl
  | node k ht b l r => exact absurd (by simp [inorder]) (h k)

section ordered

variable [LinearOrder α]

/-! ## Three ascending insertions -/

theorem build_three_ascending (a b c : α) (hab : a < b) (hbc : b < c) (m : Nat) :
    build (m + 4) [a, b, c] = some (node b 2 0 (node a 1 0 nil nil) (node c 1 0 nil nil)) := by
  have hac : a < c := lt_trans hab hbc
  simp [build, run_ops, run_op, insert, insertnb, insertnb_loop, new_node, plug, rebalance,
    rebalance_loop, rebalance_to_left, rotate_left, new_height, hab, hbc, hac]

end ordered

/-! ## The unbalanced insertion, recursively -/

@[simp] theorem fixup_node (k : α) (h b : Int) (l r : AVLNode α) :
    fixup (node k h b l r) =
      node k (new_height l r) (cached_height l - cached_height r) l r := by
  simp [fixup]

theorem refresh_loop_eq_refresh_up (above : List (Frame α)) (cur : AVLNode α) :
    refresh_loop above cur = refresh_up above (fixup cur) := by
  induction above generalizing cur with
  | nil => rfl
  | cons f fs ih =>
      rw [refresh_loop, ih]
      rfl

theorem cached_height_right_chain (ks : List α) :
    cached_height (right_chain ks) = (ks.length : Int) := by
  cases ks with
  | nil => rfl
  | cons k ks => simp [right_chain]

theorem spine_keys_right_chain (ks : List α) : spine_keys (right_chain ks) = some ks := by
  induction ks with
  | nil => rfl
  | cons k ks ih => simp [right_chain, spine_keys, ih]

theorem cached_balanced_right_chain (ks : List α) :
    cached_balanced (right_chain ks) ↔ ks.length ≤ 2 := by
  induction ks with
  | nil => simp [right_chain, cached_balanced]
  | cons k ks ih =>
      simp only [right_chain, cached_balanced, cached_height_nil, cached_height_right_chain, ih,
        List.length_cons, true_and]
      constructor
      · rintro ⟨⟨h1, -⟩, -⟩
        omega
      · intro h
        exact ⟨⟨by omega, by omega⟩, by omega⟩

theorem fixup_right_chain (k : α) (h b : Int) (l : List α) :
    fixup (node k h b nil (right_chain l)) = right_chain (k :: l) := by
  have hc := cached_height_right_chain l
  rw [fixup_node, new_height_eq _ _ (by simp) (by rw [hc]; omega), hc]
  simp only [cached_height_nil, right_chain]
  congr 1
  · push_cast; omega
  · omega

section ordered

variable [LinearOrder α]

theorem refresh_insertnb_loop (key : α) (path : List (Frame α)) (t : AVLNode α)
    (hp : head_ok key path) :
    refresh (insertnb_loop key path t) =
      match unbalanced_insert_rec key t with
      | some t2 => refresh_up path t2
      | none => plugAll path t := by
  induction t generalizing path with
  | nil =>
      cases path with
      | nil => rfl
      | cons f fs =>
          cases f with
          | mk d k h b o =>
              cases d
              · have hk : ¬ key > k := by simpa [head_ok] using hp
                simp only [insertnb_loop, plug, hk, if_false, refresh, unbalanced_insert_rec,
                  refresh_loop_eq_refresh_up]
                rfl
              · have hk : key > k := by simpa [head_ok] using hp
                simp only [insertnb_loop, plug, hk, if_true, refresh, unbalanced_insert_rec,
                  refresh_loop_eq_refresh_up]
                rfl
  | node k h b l r ihl ihr =>
      simp only [insertnb_loop, unbalanced_insert_rec]
      split
      · rename_i hgt
        rw [ihr _ (by simpa [head_ok] using hgt)]
        cases unbalanced_insert_rec key r <;> rfl
      · split
        · rename_i hgt hlt
          rw [ihl _ (by simpa [head_ok] using hgt)]
          cases unbalanced_insert_rec key l <;> rfl
        · rfl

theorem unbalanced_insert_eq_rec (t : AVLNode α) (key : α) :
    unbalanced_insert t key = (unbalanced_insert_rec key t).getD t := by
  cases t with
  | nil => rfl
  | node k h b l r =>
      have := refresh_insertnb_loop key [] (node k h b l r) (by simp [head_ok])
      show refresh (insertnb_loop key [] (node k h b l r)) = _
      rw [this]
      cases unbalanced_insert_rec key (node k h b l r) <;> rfl

theorem unbalanced_insert_rec_right_chain (key : α) (ks : List α) (h : ∀ x ∈ ks, x < key) :
    unbalanced_insert_rec key (right_chain ks) = some (right_chain (ks ++ [key])) := by
  induction ks with
  | nil => simp [right_chain, unbalanced_insert_rec, new_node]
  | cons k ks ih =>
      have hk : key > k := h k (List.mem_cons_self _ _)
      simp only [right_chain, unbalanced_insert_rec, if_pos hk,
        ih (fun x hx => h x (List.mem_cons_of_mem _ hx))]
      rw [fixup_right_chain]
      rfl

theorem foldl_unbalanced_insert_ascending (keys : List α) (hs : keys.Pairwise (· < ·)) :
    keys.foldl unbalanced_insert nil = right_chain keys := by
  induction keys using List.reverseRecOn with
  | nil => rfl
  | append_singleton ks k ih =>
      rw [List.pairwise_append] at hs
      obtain ⟨h1, -, h3⟩ := hs
      rw [List.foldl_append, ih h1]
      simp only [List.foldl_cons, List.foldl_nil]
      rw [unbalanced_insert_eq_rec,
        unbalanced_insert_rec_right_chain k ks (fun x hx => h3 x hx k (List.mem_singleton_self k))]
      rfl

end ordered

/-! ## Shape and keys, and the removal of a node with two children -/

@[simp] theorem keys_only_update_height_node (t : AVLNode α) :
    keys_only (update_height_node t) = keys_only t := by
  cases t with
  | nil => rfl
  | node k h b l r => simp [keys_only]

@[simp] theorem keys_only_compute_node_balance (t : AVLNode α) :
    keys_only (compute_node_balance t).2 = keys_only t := by
  cases t with
  | nil => rfl
  | node k h b l r => simp [keys_only]

theorem keys_only_plug_congr (f : Frame α) (t s : AVLNode α) (h : keys_only t = keys_only s) :
    keys_only (plug f t) = keys_only (plug f s) := by
  cases f with
  | mk d k ht b o => cases d <;> simp [plug, keys_only, h]

theorem keys_only_plugAll_congr (fs : List (Frame α)) (t s : AVLNode α)
    (h : keys_only t = keys_only s) : keys_only (plugAll fs t) = keys_only (plugAll fs s) := by
  induction fs generalizing t s with
  | nil => exact h
  | cons f fs ih => exact ih _ _ (keys_only_plug_congr f t s h)

theorem keys_only_refresh_loop (above : List (Frame α)) (cur : AVLNode α) :
    keys_only (refresh_loop above cur) = keys_only (plugAll above cur) := by
  induction above generalizing cur with
  | nil => simp [refresh_loop, plugAll]
  | cons f fs ih =>
      rw [refresh_loop, ih]
      exact keys_only_plugAll_congr fs _ _ (keys_only_plug_congr f _ _ (by simp))

theorem keys_only_refresh (p : Path α) : keys_only (refresh p) = keys_only (Path.tree p) := by
  cases p with
  | empty root => rfl
  | nodes above back => exact keys_only_refresh_loop above back

section ordered

variable [LinearOrder α]

theorem removenb_eq_loop (t : AVLNode α) (key : α) : removenb t key = removenb_loop key [] t := by
  cases t <;> rfl

theorem removenb_loop_descend (key : α) (path : List (Frame α)) (n : AVLNode α)
    (hd : descends key path) :
    removenb_loop key [] (plugAll path n) = removenb_loop key path n := by
  induction path generalizing n with
  | nil => rfl
  | cons f fs ih =>
      have hf := hd f (List.mem_cons_self _ _)
      rw [plugAll, ih _ (fun g hg => hd g (List.mem_cons_of_mem _ hg))]
      cases f with
      | mk d k h b o =>
          cases d
          · have hlt : key < k := by simpa using hf
            have hgt : ¬ key > k := not_lt.mpr (le_of_lt hlt)
            simp only [plug, removenb_loop, if_neg hgt, if_pos hlt]
          · have hgt : key > k := by simpa using hf
            simp only [plug, removenb_loop, if_pos hgt]

theorem unbalanced_remove_at (key : α) (path : List (Frame α)) (h b : Int) (l r : AVLNode α)
    (hd : descends key path) :
    unbalanced_remove (plugAll path (node key h b l r)) key =
      match cut_off_node (node key h b l r) path with
      | some p => some (refresh p)
      | none => none := by
  rw [unbalanced_remove, removenb_eq_loop, removenb_loop_descend key path _ hd]
  simp only [removenb_loop, gt_iff_lt, lt_irrefl, if_false]

theorem splice_loop_tree (sibling : AVLNode α) (skey : α) (path : List (Frame α))
    (t : AVLNode α) (p : Path α) (h : splice_loop sibling skey path t = some p)
    (hh : t = nil → path ≠ [] ∧ head_ok skey path) :
    Path.tree p = plugAll path (graft sibling skey t) := by
  induction t generalizing path with
  | nil =>
      obtain ⟨hne, hp⟩ := hh rfl
      cases path with
      | nil => exact absurd rfl hne
      | cons f fs =>
          cases f with
          | mk d k ht b o =>
              cases d
              · have hk : ¬ skey > k := by simpa [head_ok] using hp
                simp only [splice_loop, plug, hk, if_false, Option.some.injEq] at h
                subst h
                rfl
              · have hk : skey > k := by simpa [head_ok] using hp
                simp only [splice_loop, plug, hk, if_true, Option.some.injEq] at h
                subst h
                rfl
  | node k ht b l r ihl ihr =>
      simp only [splice_loop] at h
      split at h
      · rename_i hgt
        rw [ihr _ h (fun _ => ⟨by simp, by simpa [head_ok] using hgt⟩)]
        simp [graft, hgt, plugAll, plug]
      · split at h
        · rename_i hgt hlt
          rw [ihl _ h (fun _ => ⟨by simp, by simpa [head_ok] using hgt⟩)]
          simp [graft, hgt, plugAll, plug]
        · cases h

theorem cut_off_node_tree (k : α) (h b : Int) (l r : AVLNode α) (path : List (Frame α))
    (p : Path α) (hp : cut_off_node (node k h b l r) path = some p) :
    Path.tree p = plugAll path (cut (node k h b l r)) := by
  cases l with
  | nil =>
      cases r with
      | nil =>
          simp only [cut_off_node, Option.some.injEq] at hp
          subst hp
          exact relink_tree _ _
      | node rk rh rb rl rr =>
          simp only [cut_off_node, Option.some.injEq] at hp
          subst hp
          exact relink_tree _ _
  | node lk lh lb ll lr =>
      cases r with
      | nil =>
          simp only [cut_off_node, Option.some.injEq] at hp
          subst hp
          exact relink_tree _ _
      | node rk rh rb rl rr =>
          simp only [cut_off_node] at hp
          simp only [cut]
          split at hp
          · rename_i h1
            rw [if_pos h1]
            exact splice_loop_tree _ _ _ _ _ hp (fun hc => by cases hc)
          · split at hp
            · rename_i h1 h2
              rw [if_neg h1, if_pos h2]
              exact splice_loop_tree _ _ _ _ _ hp (fun hc => by cases hc)
            · split at hp
              · rename_i h1 h2 h3
                rw [if_neg h1, if_neg h2, if_pos h3]
                exact splice_loop_tree _ _ _ _ _ hp (fun hc => by cases hc)
              · rename_i h1 h2 h3
                rw [if_neg h1, if_neg h2, if_neg h3]
                exact splice_loop_tree _ _ _ _ _ hp (fun hc => by cases hc)

theorem root_key_graft (s : AVLNode α) (skey k : α) (h b : Int) (l r : AVLNode α) :
    root_key (graft s skey (node k h b l r)) = some k := by
  simp only [graft]
  split <;> rfl

theorem graft_eq_attach_rightmost (s : AVLNode α) (skey : α) (t : AVLNode α)
    (h : ∀ x ∈ inorder t, x < skey) : graft s skey t = attach_rightmost s t := by
  induction t with
  | nil => rfl
  | node k ht b l r _ ihr =>
      have hk : skey > k := h k (by simp [inorder])
      simp only [graft, if_pos hk, attach_rightmost]
      rw [ihr (fun x hx => h x (by simp [inorder, hx]))]

theorem graft_eq_attach_leftmost (s : AVLNode α) (skey : α) (t : AVLNode α)
    (h : ∀ x ∈ inorder t, skey < x) : graft s skey t = attach_leftmost s t := by
  induction t with
  | nil => rfl
  | node k ht b l r ihl _ =>
      have hk : ¬ skey > k := not_lt.mpr (le_of_lt (h k (by simp [inorder])))
      simp only [graft, if_neg hk, attach_leftmost]
      rw [ihl (fun x hx => h x (by simp [inorder, hx]))]

theorem search_tree_plug (f : Frame α) (n : AVLNode α) (h : search_tree (plug f n)) :
    search_tree n := by
  cases f with
  | mk d k ht b o =>
      cases d
      · exact ((search_tree_node k ht b n o).mp h).1
      · exact ((search_tree_node k ht b o n).mp h).2.1

theorem search_tree_of_plugAll (path : List (Frame α)) (n : AVLNode α)
    (h : search_tree (plugAll path n)) : search_tree n := by
  induction path generalizing n with
  | nil => exact h
  | cons f fs ih => exact search_tree_plug f n (ih _ h)

theorem descends_of_search_tree (key : α) (path : List (Frame α)) (n : AVLNode α)
    (h : search_tree (plugAll path n)) (hk : key ∈ inorder n) : descends key path := by
  induction path generalizing n with
  | nil => exact fun f hf => by simp at hf
  | cons f fs ih =>
      have hs := search_tree_of_plugAll fs _ h
      have hm : key ∈ inorder (plug f n) := by
        cases f with
        | mk d k ht b o => cases d <;> simp [plug, inorder, hk]
      intro g hg
      rcases List.mem_cons.mp hg with rfl | hg
      · cases g with
        | mk d k ht b o =>
            cases d
            · exact Or.inr ⟨rfl, ((search_tree_node k ht b n o).mp hs).2.2.1 key hk⟩
            · exact Or.inl ⟨rfl, ((search_tree_node k ht b o n).mp hs).2.2.2 key hk⟩
      · exact ih _ h hm g hg

end ordered

/-! ## The loop of `operator=` copies every non-empty tree -/

theorem mem_strip (d : Dir) (pend : List (List Dir)) (p : List Dir) :
    p ∈ strip d pend ↔ d :: p ∈ pend := by
  simp only [strip, List.mem_filterMap]
  constructor
  · rintro ⟨a, ha, h⟩
    cases a with
    | nil => simp at h
    | cons e rest =>
        by_cases he : e = d
        · simp only [he, if_true, Option.some.injEq] at h
          subst h; subst he
          exact ha
        · simp [he] at h
  · intro h
    exact ⟨d :: p, h, by simp⟩

theorem strip_cons_same (d : Dir) (p : List Dir) (pend : List (List Dir)) :
    strip d ((d :: p) :: pend) = p :: strip d pend := by
  simp [strip]

theorem strip_cons_other (d e : Dir) (p : List Dir) (pend : List (List Dir)) (h : e ≠ d) :
    strip d ((e :: p) :: pend) = strip d pend := by
  simp [strip, h]

theorem strip_push_pos_same (d e : Dir) (pos : List Dir) (pend : List (List Dir))
    (c : AVLNode α) :
    strip d (push_pos pend (d :: pos) e c) = push_pos (strip d pend) pos e c := by
  cases c with
  | nil => rfl
  | node k h b l r => simp [push_pos, strip, List.filterMap_append]

theorem strip_push_pos_other (d d2 e : Dir) (pos : List Dir) (pend : List (List Dir))
    (c : AVLNode α) (h : d2 ≠ d) :
    strip d (push_pos pend (d2 :: pos) e c) = strip d pend := by
  cases c with
  | nil => rfl
  | node k hh b l r => simp [push_pos, strip, List.filterMap_append, h]

theorem nil_mem_push_pos (pend : List (List Dir)) (pos : List Dir) (e : Dir) (c : AVLNode α) :
    [] ∈ push_pos pend pos e c ↔ [] ∈ pend := by
  cases c with
  | nil => rfl
  | node k h b l r => simp [push_pos]

theorem link_placeholder_cons_left (zero : α) (pos : List Dir) (e : Dir) (c : AVLNode α)
    (k : α) (h b : Int) (l r : AVLNode α) :
    link_placeholder zero (Dir.left :: pos) e c (node k h b l r) =
      node k h b (link_placeholder zero pos e c l) r := by
  cases c <;> rfl

theorem link_placeholder_cons_right (zero : α) (pos : List Dir) (e : Dir) (c : AVLNode α)
    (k : α) (h b : Int) (l r : AVLNode α) :
    link_placeholder zero (Dir.right :: pos) e c (node k h b l r) =
      node k h b l (link_placeholder zero pos e c r) := by
  cases c <;> rfl

theorem partial_copy_pending (zero : α) (pend : List (List Dir)) (c : AVLNode α)
    (h : [] ∈ pend) : partial_copy zero pend c = new_node zero := by
  cases c <;> simp [partial_copy, h]

theorem partial_copy_nil (zero : α) (pend : List (List Dir)) (h : [] ∉ pend) :
    partial_copy zero pend (nil : AVLNode α) = nil := by
  simp [partial_copy, h]

theorem nil_mem_strip_push_pos (d e : Dir) (pend : List (List Dir)) (c : AVLNode α) :
    [] ∈ strip d (push_pos pend [] e c) ↔ [] ∈ strip d pend ∨ (e = d ∧ c ≠ nil) := by
  cases c with
  | nil => simp [push_pos]
  | node k h b l r =>
      simp only [mem_strip, push_pos, List.nil_append, List.mem_append, List.mem_singleton]
      simp [eq_comm]

/-- One iteration of the loop, on the copy. -/
theorem partial_copy_step (zero : α) (pos : List Dir) (t : AVLNode α) (rest : List (List Dir))
    (k : α) (h b : Int) (l r : AVLNode α) (ht : subtree_at pos t = node k h b l r)
    (h1 : ∀ p ∈ rest, ¬ p <+: pos) (h2 : ∀ p ∈ rest, subtree_at p t ≠ nil) :
    link_placeholder zero pos Dir.right r (link_placeholder zero pos Dir.left l
        (modify_at (set_fields k h b) pos (partial_copy zero (pos :: rest) t))) =
      partial_copy zero (push_pos (push_pos rest pos Dir.left l) pos Dir.right r) t := by
  induction pos generalizing t rest with
  | nil =>
      simp only [subtree_at] at ht
      subst ht
      have hn : [] ∉ rest := fun hc => h1 [] hc (List.prefix_refl _)
      have hl : l = nil → [] ∉ strip Dir.left rest := by
        intro hl hc
        have := h2 _ ((mem_strip _ _ _).mp hc)
        simp [subtree_at, hl] at this
      have hr : r = nil → [] ∉ strip Dir.right rest := by
        intro hr hc
        have := h2 _ ((mem_strip _ _ _).mp hc)
        simp [subtree_at, hr] at this
      have hn3 : ([] : List Dir) ∉
          push_pos (push_pos rest [] Dir.left l) [] Dir.right r := by
        rw [nil_mem_push_pos, nil_mem_push_pos]
        exact hn
      have el : partial_copy zero
          (strip Dir.left (push_pos (push_pos rest [] Dir.left l) [] Dir.right r)) l =
          placeholder_for zero l := by
        cases l with
        | nil =>
            refine partial_copy_nil zero _ ?_
            rw [nil_mem_strip_push_pos, nil_mem_strip_push_pos]
            simp [hl rfl]
        | node lk lh lb ll lr =>
            refine partial_copy_pending zero _ _ ?_
            rw [nil_mem_strip_push_pos, nil_mem_strip_push_pos]
            simp
      have er : partial_copy zero
          (strip Dir.right (push_pos (push_pos rest [] Dir.left l) [] Dir.right r)) r =
          placeholder_for zero r := by
        cases r with
        | nil =>
            refine partial_copy_nil zero _ ?_
            rw [nil_mem_strip_push_pos, nil_mem_strip_push_pos]
            simp [hr rfl]
        | node rk rh rb rl rr =>
            refine partial_copy_pending zero _ _ ?_
            rw [nil_mem_strip_push_pos, nil_mem_strip_push_pos]
            simp
      rw [partial_copy_pending zero _ _ (List.mem_cons_self _ _)]
      simp only [partial_copy, if_neg hn3, el, er]
      cases l <;> cases r <;> rfl
  | cons d pos ih =>
      have hn : [] ∉ rest := fun hc => h1 [] hc (List.nil_prefix)
      cases t with
      | nil => simp [subtree_at] at ht
      | node k0 h0 b0 l0 r0 =>
          have hn2 : ([] : List Dir) ∉ (d :: pos) :: rest := by simp [hn]
          have hn3 : ([] : List Dir) ∉
              push_pos (push_pos rest (d :: pos) Dir.left l) (d :: pos) Dir.right r := by
            rw [nil_mem_push_pos, nil_mem_push_pos]
            exact hn
          cases d with
          | left =>
              simp only [subtree_at] at ht
              have i1 : ∀ p ∈ strip Dir.left rest, ¬ p <+: pos := by
                intro p hp hc
                exact h1 _ ((mem_strip _ _ _).mp hp) ((List.prefix_cons_inj _).mpr hc)
              have i2 : ∀ p ∈ strip Dir.left rest, subtree_at p l0 ≠ nil := by
                intro p hp
                exact h2 _ ((mem_strip _ _ _).mp hp)
              have := ih l0 (strip Dir.left rest) ht i1 i2
              simp only [partial_copy, if_neg hn2, if_neg hn3, modify_at,
                link_placeholder_cons_left, strip_cons_same,
                strip_cons_other Dir.right Dir.left pos rest (by decide),
                strip_push_pos_same,
                strip_push_pos_other Dir.right Dir.left _ pos _ _ (by decide), this]
          | right =>
              simp only [subtree_at] at ht
              have i1 : ∀ p ∈ strip Dir.right rest, ¬ p <+: pos := by
                intro p hp hc
                exact h1 _ ((mem_strip _ _ _).mp hp) ((List.prefix_cons_inj _).mpr hc)
              have i2 : ∀ p ∈ strip Dir.right rest, subtree_at p r0 ≠ nil := by
                intro p hp
                exact h2 _ ((mem_strip _ _ _).mp hp)
              have := ih r0 (strip Dir.right rest) ht i1 i2
              simp only [partial_copy, if_neg hn2, if_neg hn3, modify_at,
                link_placeholder_cons_right, strip_cons_same,
                strip_cons_other Dir.left Dir.right pos rest (by decide),
                strip_push_pos_same,
                strip_push_pos_other Dir.left Dir.right _ pos _ _ (by decide), this]

theorem partial_copy_done (zero : α) (t : AVLNode α) : partial_copy zero [] t = t := by
  induction t with
  | nil => simp [partial_copy]
  | node k h b l r ihl ihr =>
      have e : ∀ d, strip d ([] : List (List Dir)) = [] := fun d => rfl
      simp [partial_copy, e, ihl, ihr]

theorem subtree_at_concat_left (pos : List Dir) (t : AVLNode α) (k : α) (h b : Int)
    (l r : AVLNode α) (ht : subtree_at pos t = node k h b l r) :
    subtree_at (pos ++ [Dir.left]) t = l := by
  induction pos generalizing t with
  | nil =>
      simp only [subtree_at] at ht
      subst ht
      rfl
  | cons d pos ih =>
      cases t with
      | nil => simp [subtree_at] at ht
      | node k0 h0 b0 l0 r0 => cases d <;> exact ih _ ht

theorem subtree_at_concat_right (pos : List Dir) (t : AVLNode α) (k : α) (h b : Int)
    (l r : AVLNode α) (ht : subtree_at pos t = node k h b l r) :
    subtree_at (pos ++ [Dir.right]) t = r := by
  induction pos generalizing t with
  | nil =>
      simp only [subtree_at] at ht
      subst ht
      rfl
  | cons d pos ih =>
      cases t with
      | nil => simp [subtree_at] at ht
      | node k0 h0 b0 l0 r0 => cases d <;> exact ih _ ht

theorem apart_concat (pos p : List Dir) (d : Dir) (h : apart pos p) : apart p (pos ++ [d]) := by
  constructor
  · intro hc
    rcases List.prefix_concat_iff.mp hc with rfl | hc
    · exact h.1 (List.prefix_append _ _)
    · exact h.2 hc
  · intro hc
    exact h.1 ((List.prefix_append _ _).trans hc)

theorem apart_siblings (pos : List Dir) : apart (pos ++ [Dir.left]) (pos ++ [Dir.right]) := by
  constructor
  · intro hc
    have := hc.eq_of_length (by simp)
    simp at this
  · intro hc
    have := hc.eq_of_length (by simp)
    simp at this

theorem mem_push_pos (qc : List (List Dir)) (pos : List Dir) (d : Dir) (c : AVLNode α)
    (p : List Dir) (h : p ∈ push_pos qc pos d c) : p ∈ qc ∨ p = pos ++ [d] := by
  cases c with
  | nil => exact Or.inl h
  | node k hh b l r =>
      simp only [push_pos, List.mem_append, List.mem_singleton] at h
      exact h

theorem pairwise_push_pos (qc : List (List Dir)) (pos : List Dir) (d : Dir) (c : AVLNode α)
    (h1 : qc.Pairwise apart) (h2 : ∀ p ∈ qc, apart p (pos ++ [d])) :
    (push_pos qc pos d c).Pairwise apart := by
  cases c with
  | nil => exact h1
  | node k hh b l r =>
      simp only [push_pos]
      rw [List.pairwise_append]
      refine ⟨h1, List.pairwise_singleton _ _, fun a ha b hb => ?_⟩
      rw [List.mem_singleton.mp hb]
      exact h2 a ha

theorem forall2_push (t : AVLNode α) (qc : List (List Dir)) (q : List (AVLNode α))
    (pos : List Dir) (d : Dir) (c : AVLNode α)
    (h1 : List.Forall₂ (fun p n => subtree_at p t = n ∧ n ≠ nil) qc q)
    (h2 : subtree_at (pos ++ [d]) t = c) :
    List.Forall₂ (fun p n => subtree_at p t = n ∧ n ≠ nil)
      (push_pos qc pos d c) (push_child q c) := by
  cases c with
  | nil => exact h1
  | node k hh b l r =>
      simp only [push_pos, push_child]
      exact List.rel_append h1 (List.Forall₂.cons ⟨h2, by simp⟩ List.Forall₂.nil)

theorem forall2_subtree_ne_nil (t : AVLNode α) (qc : List (List Dir)) (q : List (AVLNode α))
    (h : List.Forall₂ (fun p n => subtree_at p t = n ∧ n ≠ nil) qc q) :
    ∀ p ∈ qc, subtree_at p t ≠ nil := by
  induction h with
  | nil => exact fun p hp => by simp at hp
  | cons hab _ ih =>
      intro p hp
      rcases List.mem_cons.mp hp with rfl | hp
      · rw [hab.1]
        exact hab.2
      · exact ih p hp

/-- The loop of `operator=` returns the source tree, from every state in which
the copy is the source tree cut off at the pointers waiting in `qc`. -/
theorem assign_loop_spec (zero : α) (t : AVLNode α) (copy : AVLNode α)
    (q : List (AVLNode α)) (qc : List (List Dir))
    (hc : copy = partial_copy zero qc t)
    (hq : List.Forall₂ (fun p n => subtree_at p t = n ∧ n ≠ nil) qc q)
    (hp : qc.Pairwise apart) : assign_loop zero copy q qc = some t := by
  induction copy, q, qc using assign_loop.induct zero with
  | case1 copy qc =>
      cases hq
      rw [assign_loop, hc, partial_copy_done]
  | case2 copy tail qc =>
      cases hq with
      | cons hab _ => exact absurd rfl hab.2
  | case3 copy k h b l r tail => cases hq
  | case4 copy k h b l r q pos qc copy1 copy2 qc1 copy3 qc2 ih =>
      rw [assign_loop]
      obtain ⟨hpos, hrest⟩ := List.forall₂_cons.mp hq
      obtain ⟨hp1, hp2⟩ := List.pairwise_cons.mp hp
      apply ih
      · subst hc
        exact partial_copy_step zero pos t qc k h b l r hpos.1
          (fun p hm => (hp1 p hm).2) (forall2_subtree_ne_nil t qc q hrest)
      · exact forall2_push t _ _ pos Dir.right r
          (forall2_push t qc q pos Dir.left l hrest
            (subtree_at_concat_left pos t k h b l r hpos.1))
          (subtree_at_concat_right pos t k h b l r hpos.1)
      · refine pairwise_push_pos _ pos Dir.right r
          (pairwise_push_pos qc pos Dir.left l hp2
            (fun p hm => apart_concat pos p Dir.left (hp1 p hm))) (fun p hm => ?_)
        rcases mem_push_pos qc pos Dir.left l p hm with hm | rfl
        · exact apart_concat pos p Dir.right (hp1 p hm)
        · exact apart_siblings pos

/-- The function `operator=` copies every non-empty source tree node for node: same shape,
keys, cached heights and cached balances.  The source is another tree than the
one assigned to, as `assign` takes it. -/
theorem assign_nonempty_source (zero : α) (root t : AVLNode α) (ht : t ≠ nil) :
    assign zero root t = some t := by
  rw [assign]
  refine assign_loop_spec zero t _ _ _ ?_ ?_ ?_
  · exact (partial_copy_pending zero _ t (List.mem_singleton_self _)).symm
  · exact List.Forall₂.cons ⟨rfl, ht⟩ List.Forall₂.nil
  · exact List.pairwise_singleton _ _

section ordered

variable [LinearOrder α]

/-! ## The claims, continued -/

/-- C11: inserting a present key changes nothing.  For every search tree and
every key already in it, every run of `insert` and `unbalanced_insert` leave
the very same tree (shape, keys, cached heights and cached balances); hence,
for every key, a second insertion of it leaves the tree the first insertion
left, and the first `insert` does return when the cached heights are exact. -/
theorem insert_present_unchanged (t : AVLNode α) (key : α) (hs : search_tree t) :
    (key ∈ inorder t → (∀ fuel, insert fuel t key = some t) ∧ unbalanced_insert t key = t) ∧
      unbalanced_insert (unbalanced_insert t key) key = unbalanced_insert t key ∧
      (∀ fuel t1, insert fuel t key = some t1 → ∀ fuel2, insert fuel2 t1 key = some t1) ∧
      (heights_exact t → ∃ t1, Returns (fun fuel => insert fuel t key) t1 ∧
        ∀ fuel2, insert fuel2 t1 key = some t1) := by
  have twice : ∀ t1, inorder t1 = inorder (bst_insert key t) →
      (∀ fuel2, insert fuel2 t1 key = some t1) ∧ unbalanced_insert t1 key = t1 := by
    intro t1 h
    have hs1 := search_tree_of_inorder_insert t t1 key hs h
    have hk1 := mem_inorder_of_insert t t1 key h
    exact ⟨fun fuel2 => insert_present fuel2 t1 key hs1 hk1,
      unbalanced_insert_present t1 key hs1 hk1⟩
  refine ⟨fun hk => ⟨fun fuel => insert_present fuel t key hs hk,
    unbalanced_insert_present t key hs hk⟩,
    (twice _ (inorder_unbalanced_insert t key)).2,
    fun fuel t1 h => (twice t1 (insert_inorder fuel t key t1 h)).1, fun he => ?_⟩
  obtain ⟨t1, h1, -, h3⟩ := insert_returns 1 (le_refl 1) t key (good_one he)
  exact ⟨t1, h1, (twice t1 h3).1⟩

theorem insert_present_unchanged_witness :
    search_tree example_tree ∧ 15 ∈ inorder example_tree ∧ heights_exact example_tree ∧
      ((∀ fuel, insert fuel example_tree 15 = some example_tree) ∧
        unbalanced_insert example_tree 15 = example_tree) ∧
      ∃ t1, Returns (fun fuel => insert fuel example_tree 12) t1 ∧
        ∀ fuel2, insert fuel2 t1 12 = some t1 :=
  ⟨by decide, by decide, by decide,
    (insert_present_unchanged example_tree 15 (by decide)).1 (by decide),
    (insert_present_unchanged example_tree 12 (by decide)).2.2.2 (by decide)⟩

/-- C12: removing an absent key changes nothing.  For every tree (the empty
tree and every search tree among them) and every key not in it, every run of
`remove` and `unbalanced_remove` leave the very same tree (shape, keys, cached
heights and cached balances). -/
theorem remove_absent_unchanged (t : AVLNode α) (key : α) (hk : key ∉ inorder t) :
    (∀ fuel, remove fuel t key = some t) ∧ unbalanced_remove t key = some t ∧
      (∀ fuel, remove fuel (nil : AVLNode α) key = some nil) ∧
      unbalanced_remove (nil : AVLNode α) key = some nil := by
  refine ⟨fun fuel => ?_, ?_, fun fuel => rfl, rfl⟩
  · rw [remove, removenb_absent t key hk]
    rfl
  · rw [unbalanced_remove, removenb_absent t key hk]
    rfl

theorem remove_absent_unchanged_witness :
    12 ∉ inorder example_tree ∧
      ((∀ fuel, remove fuel example_tree 12 = some example_tree) ∧
        unbalanced_remove example_tree 12 = some example_tree ∧
        (∀ fuel, remove fuel (nil : AVLNode Nat) 12 = some nil) ∧
        unbalanced_remove (nil : AVLNode Nat) 12 = some nil) :=
  ⟨by decide, remove_absent_unchanged example_tree 12 (by decide)⟩

/-- C20: `remove` always finishes its rebalance pass.  For every search tree
with exact cached heights and all height differences in [-1,1] and every key,
`removenb` returns a path, and the loop of `rebalance` on that path (which
pushes two nodes back after each rotation) empties the path after finitely many
iterations, so that `remove` returns. -/
theorem remove_rebalance_terminates (t : AVLNode α) (key : α) (hs : search_tree t)
    (he : heights_exact t) (hb : height_balanced t) :
    ∃ p t2, removenb t key = some p ∧ Returns (fun fuel => rebalance fuel p) t2 ∧
      Returns (fun fuel => remove fuel t key) t2 := by
  obtain ⟨p, h1, -, h3⟩ := removenb_spec 2 t key hs (good_two he hb)
  obtain ⟨t2, ⟨f, hf⟩, -, -⟩ := rebalance_returns 2 (by omega) p h3
  refine ⟨p, t2, h1, ⟨f, hf⟩, ⟨f, fun n hn => ?_⟩⟩
  simp only [remove, h1]
  exact hf n hn

theorem remove_rebalance_terminates_witness :
    search_tree example_tree ∧ heights_exact example_tree ∧ height_balanced example_tree ∧
      ∃ p t2, removenb example_tree 20 = some p ∧ Returns (fun fuel => rebalance fuel p) t2 ∧
        Returns (fun fuel => remove fuel example_tree 20) t2 :=
  ⟨by decide, by decide, by decide,
    remove_rebalance_terminates example_tree 20 (by decide) (by decide) (by decide)⟩

/-- C13: emptiness closure.  For every list of keys (distinct or not) and every
ordering of those keys for removal, inserting all of them into an empty tree
with `insert` and then removing all of them with `remove` returns a tree on
which `is_empty()` is true; the same holds with `unbalanced_insert` and
`unbalanced_remove`. -/
theorem emptiness_closure (keys removals : List α) (hp : removals.Perm keys) :
    (∃ t, Returns (fun fuel =>
        run_ops fuel (keys.map Op.insert ++ removals.map Op.remove) nil) t ∧
        is_empty t = true) ∧
      ∃ t, run_unbalanced_ops (keys.map Op.insert ++ removals.map Op.remove) nil = some t ∧
        is_empty t = true := by
  have hnil : search_tree (nil : AVLNode α) := by simp [search_tree, inorder]
  constructor
  · obtain ⟨t, h1, -, -, h4⟩ := run_ops_returns_keys
      (keys.map Op.insert ++ removals.map Op.remove) nil hnil (good_nil 2)
    exact ⟨t, h1, is_empty_of_inorder t (fun x hx =>
      key_model_closure keys removals hp x ((h4 x).mp hx))⟩
  · obtain ⟨t, h1, -, h3⟩ := run_unbalanced_ops_keys
      (keys.map Op.insert ++ removals.map Op.remove) nil hnil
    exact ⟨t, h1, is_empty_of_inorder t (fun x hx =>
      key_model_closure keys removals hp x ((h3 x).mp hx))⟩

theorem emptiness_closure_witness :
    [5, 30, 20, 15, 10].Perm [20, 10, 30, 5, 15] ∧
      (∃ t, Returns (fun fuel => run_ops fuel
          ([20, 10, 30, 5, 15].map Op.insert ++ [5, 30, 20, 15, 10].map Op.remove) nil) t ∧
          is_empty t = true) ∧
        ∃ t, run_unbalanced_ops
          ([20, 10, 30, 5, 15].map Op.insert ++ [5, 30, 20, 15, 10].map Op.remove) nil = some t ∧
          is_empty t = true :=
  ⟨by decide, emptiness_closure [20, 10, 30, 5, 15] [5, 30, 20, 15, 10] (by decide)⟩

/-- C16: three ascending inserts rotate once.  For all keys `a < b < c`,
inserting `a`, `b`, `c` in that order with `insert` into an empty tree returns
the tree with root `b`, left child `a` and right child `c`, the two children
with cached height 1, the root with cached height 2, and all three cached
balances 0. -/
theorem three_ascending_inserts (a b c : α) (hab : a < b) (hbc : b < c) :
    Returns (fun fuel => build fuel [a, b, c])
      (node b 2 0 (node a 1 0 nil nil) (node c 1 0 nil nil)) := by
  refine ⟨4, fun n hn => ?_⟩
  obtain ⟨m, rfl⟩ : ∃ m, n = m + 4 := ⟨n - 4, by omega⟩
  exact build_three_ascending a b c hab hbc m

theorem three_ascending_inserts_witness :
    (10 : Nat) < 20 ∧ (20 : Nat) < 30 ∧
      Returns (fun fuel => build fuel [10, 20, 30])
        (node 20 2 0 (node 10 1 0 nil nil) (node 30 1 0 nil nil)) :=
  ⟨by decide, by decide, three_ascending_inserts 10 20 30 (by decide) (by decide)⟩

/-- C17: unbalanced ascending inserts build a chain.  For strictly ascending
keys `k1 < ... < kn` (any `n`), inserting them in order with `unbalanced_insert`
into an empty tree yields a tree in which no node has a left child and the i-th
node down the right spine holds `ki`, and `is_balanced()` returns false on it
exactly when `n >= 3`. -/
theorem unbalanced_ascending_chain (keys : List α) (hs : keys.Pairwise (· < ·)) :
    spine_keys (keys.foldl unbalanced_insert nil) = some keys ∧
      (is_balanced (keys.foldl unbalanced_insert nil) = false ↔ 3 ≤ keys.length) := by
  rw [foldl_unbalanced_insert_ascending keys hs]
  refine ⟨spine_keys_right_chain keys, ?_⟩
  rw [← Bool.not_eq_true, is_balanced_iff, cached_balanced_right_chain]
  omega

theorem unbalanced_ascending_chain_witness :
    [1, 2, 3, 4, 5].Pairwise (· < ·) ∧
      spine_keys ([1, 2, 3, 4, 5].foldl unbalanced_insert nil) = some [1, 2, 3, 4, 5] ∧
      (is_balanced ([1, 2, 3, 4, 5].foldl unbalanced_insert nil) = false ↔
        3 ≤ [1, 2, 3, 4, 5].length) :=
  ⟨by decide, unbalanced_ascending_chain [1, 2, 3, 4, 5] (by decide)⟩

/-- C18: two-child promotion policy.  Let a traversal with `key` reach, below
the ancestors `path`, a node holding `key` with two children.  Whenever
`unbalanced_remove(key)` returns, the node in the slot of the node deleted holds
the key of the child with the greater cached height, and on equal cached heights
the greater of the two child keys; in a search tree `unbalanced_remove(key)`
does return, and on a height tie the slot holds the key of the right child. -/
theorem promotion_policy (path : List (Frame α)) (key : α) (h b : Int)
    (lk : α) (lh lb : Int) (ll lr : AVLNode α) (rk : α) (rh rb : Int) (rl rr : AVLNode α)
    (hd : descends key path) :
    (∀ t2, unbalanced_remove (plugAll path
          (node key h b (node lk lh lb ll lr) (node rk rh rb rl rr))) key = some t2 →
        (lh > rh → slot_holds path t2 lk) ∧ (lh < rh → slot_holds path t2 rk) ∧
        (lh = rh → slot_holds path t2 (max lk rk))) ∧
      (search_tree (plugAll path (node key h b (node lk lh lb ll lr) (node rk rh rb rl rr))) →
        ∃ t2, unbalanced_remove (plugAll path
            (node key h b (node lk lh lb ll lr) (node rk rh rb rl rr))) key = some t2 ∧
          (lh = rh → slot_holds path t2 rk)) := by
  have hpol : ∀ t2, unbalanced_remove (plugAll path
        (node key h b (node lk lh lb ll lr) (node rk rh rb rl rr))) key = some t2 →
      (lh > rh → slot_holds path t2 lk) ∧ (lh < rh → slot_holds path t2 rk) ∧
      (lh = rh → slot_holds path t2 (max lk rk)) := by
    intro t2 ht2
    rw [unbalanced_remove_at key path h b _ _ hd] at ht2
    cases hc : cut_off_node (node key h b (node lk lh lb ll lr) (node rk rh rb rl rr)) path with
    | none => simp [hc] at ht2
    | some p =>
        simp only [hc, Option.some.injEq] at ht2
        subst ht2
        have hk : keys_only (refresh p) = keys_only (plugAll path
            (cut (node key h b (node lk lh lb ll lr) (node rk rh rb rl rr)))) := by
          rw [keys_only_refresh, cut_off_node_tree _ _ _ _ _ _ _ hc]
        refine ⟨fun h1 => ⟨_, hk, ?_⟩, fun h1 => ⟨_, hk, ?_⟩, fun h1 => ⟨_, hk, ?_⟩⟩
        · simp only [cut, if_pos h1]
          exact root_key_graft _ _ _ _ _ _ _
        · have h2 : ¬ lh > rh := not_lt.mpr (le_of_lt h1)
          simp only [cut, if_neg h2, if_pos h1]
          exact root_key_graft _ _ _ _ _ _ _
        · subst h1
          simp only [cut, gt_iff_lt, lt_irrefl, if_false]
          split
          · rename_i h3
            rw [root_key_graft, max_eq_left (le_of_lt h3)]
          · rename_i h3
            rw [root_key_graft, max_eq_right (not_lt.mp h3)]
  refine ⟨hpol, fun hs => ?_⟩
  obtain ⟨t2, h1, -⟩ := unbalanced_remove_spec _ key hs
  refine ⟨t2, h1, fun he => ?_⟩
  have hsn := search_tree_of_plugAll path _ hs
  obtain ⟨-, -, h3, h4⟩ := (search_tree_node _ _ _ _ _).mp hsn
  have hlk : lk < key := h3 lk (by simp [inorder])
  have hrk : key < rk := h4 rk (by simp [inorder])
  have := (hpol t2 h1).2.2 he
  rwa [max_eq_right (le_of_lt (lt_trans hlk hrk))] at this

theorem promotion_policy_witness :
    descends 10 example_path ∧ plugAll example_path example_node = example_tree ∧
      search_tree example_tree ∧
      ∃ t2, unbalanced_remove example_tree 10 = some t2 ∧ slot_holds example_path t2 15 := by
  have h := (promotion_policy example_path 10 2 0 5 1 0 nil nil 15 1 0 nil nil (by decide)).2
    (by decide)
  obtain ⟨t2, h1, h2⟩ := h
  exact ⟨by decide, rfl, by decide, t2, h1, h2 rfl⟩

/-- C19: splice shape.  When `unbalanced_remove` deletes from a search tree a
node with two children, it returns a tree whose shape and keys are those of the
old tree with the subtree in the slot of the node deleted replaced by the
promoted child's subtree, the whole demoted subtree hung as the right child of
its rightmost node when the left child is promoted (greater cached height), or
as the left child of its leftmost node when the right child is promoted; no
other link changes. -/
theorem splice_shape (path : List (Frame α)) (key : α) (h b : Int)
    (lk : α) (lh lb : Int) (ll lr : AVLNode α) (rk : α) (rh rb : Int) (rl rr : AVLNode α)
    (hs : search_tree (plugAll path
      (node key h b (node lk lh lb ll lr) (node rk rh rb rl rr)))) :
    ∃ t2, unbalanced_remove (plugAll path
        (node key h b (node lk lh lb ll lr) (node rk rh rb rl rr))) key = some t2 ∧
      (lh > rh → slot_holds path t2 lk ∧ keys_only t2 = keys_only (plugAll path
        (attach_rightmost (node rk rh rb rl rr) (node lk lh lb ll lr)))) ∧
      (¬ lh > rh → slot_holds path t2 rk ∧ keys_only t2 = keys_only (plugAll path
        (attach_leftmost (node lk lh lb ll lr) (node rk rh rb rl rr)))) := by
  have hd : descends key path := descends_of_search_tree key path _ hs (by simp [inorder])
  have hsn := search_tree_of_plugAll path _ hs
  obtain ⟨-, -, h3, h4⟩ := (search_tree_node _ _ _ _ _).mp hsn
  have hlk : lk < key := h3 lk (by simp [inorder])
  have hrk : key < rk := h4 rk (by simp [inorder])
  have hkk : ¬ lk > rk := not_lt.mpr (le_of_lt (lt_trans hlk hrk))
  obtain ⟨t2, h1, -⟩ := unbalanced_remove_spec _ key hs
  have ht2 := h1
  rw [unbalanced_remove_at key path h b _ _ hd] at ht2
  cases hc : cut_off_node (node key h b (node lk lh lb ll lr) (node rk rh rb rl rr)) path with
  | none => simp [hc] at ht2
  | some p =>
      simp only [hc, Option.some.injEq] at ht2
      have hk : keys_only t2 = keys_only (plugAll path
          (cut (node key h b (node lk lh lb ll lr) (node rk rh rb rl rr)))) := by
        rw [← ht2, keys_only_refresh, cut_off_node_tree _ _ _ _ _ _ _ hc]
      have gl := graft_eq_attach_rightmost (node rk rh rb rl rr) rk (node lk lh lb ll lr)
        (fun x hx => lt_trans (h3 x hx) hrk)
      have gr := graft_eq_attach_leftmost (node lk lh lb ll lr) lk (node rk rh rb rl rr)
        (fun x hx => lt_trans hlk (h4 x hx))
      refine ⟨t2, h1, fun hgt => ?_, fun hgt => ?_⟩
      · have e : cut (node key h b (node lk lh lb ll lr) (node rk rh rb rl rr)) =
            attach_rightmost (node rk rh rb rl rr) (node lk lh lb ll lr) := by
          simp only [cut, if_pos hgt]
          exact gl
        rw [e] at hk
        exact ⟨⟨_, hk, rfl⟩, hk⟩
      · have e : cut (node key h b (node lk lh lb ll lr) (node rk rh rb rl rr)) =
            attach_leftmost (node lk lh lb ll lr) (node rk rh rb rl rr) := by
          simp only [cut, if_neg hgt, if_neg hkk]
          split <;> exact gr
        rw [e] at hk
        exact ⟨⟨_, hk, rfl⟩, hk⟩

theorem splice_shape_witness :
    search_tree example_tree ∧
      ∃ t2, unbalanced_remove example_tree 20 = some t2 ∧
        keys_only t2 = keys_only (attach_rightmost (node 30 1 0 nil nil) example_node) := by
  obtain ⟨t2, h1, h2, -⟩ := splice_shape [] 20 3 1 10 2 0 (node 5 1 0 nil nil)
    (node 15 1 0 nil nil) 30 1 0 nil nil (by decide)
  exact ⟨by decide, t2, h1, (h2 (by decide)).2⟩

end ordered

/-- C14 (the code departs from the claim on the empty source): `operator=` with
an empty source tree dereferences the null pointer it has put into the queue, so
the assignment yields no tree at all, whatever the assigned tree held before. -/
theorem assign_empty_source (zero : α) (root : AVLNode α) :
    assign zero root (nil : AVLNode α) = none := by
  simp [assign, assign_loop]

/-! ## Rotations -/

/-- C25: shape of the rotations.  For every node with a right child,
`rotate_left` returns that right child as the new subtree root, with the node
as its left child and the former left subtree of the new root as the right
subtree of the node; the three subtrees `x`, `y`, `z` hanging below are
untouched, and so are keys and cached balances.  When the cached heights in
`x`, `y` and `z` are exact, the cached heights of the node and of the new root
are exact afterwards.  `rotate_right` is the mirror image for a node with a
left child. -/
theorem rotation_shape (k : α) (h b : Int) (ck : α) (ch cb : Int) (x y z : AVLNode α) :
    (∃ h1 h2 : Int,
      rotate_left (node k h b x (node ck ch cb y z)) =
          some (node ck h2 cb (node k h1 b x y) z) ∧
        (heights_exact x → heights_exact y → heights_exact z →
          heights_exact (node k h1 b x y) ∧
            heights_exact (node ck h2 cb (node k h1 b x y) z))) ∧
      ∃ h1 h2 : Int,
        rotate_right (node k h b (node ck ch cb x y) z) =
            some (node ck h2 cb x (node k h1 b y z)) ∧
          (heights_exact x → heights_exact y → heights_exact z →
            heights_exact (node k h1 b y z) ∧
              heights_exact (node ck h2 cb x (node k h1 b y z))) := by
  constructor
  · refine ⟨_, _, rotate_left_node k h b x ck ch cb y z, fun hx hy hz => ?_⟩
    have e1 : heights_exact (node k (new_height x y) b x y) :=
      ⟨by rw [new_height_of_exact hx hy]; simp [true_height], hx, hy⟩
    refine ⟨e1, ?_, e1, hz⟩
    rw [new_height_of_exact e1 hz]
    simp [true_height]
  · refine ⟨_, _, rotate_right_node k h b ck ch cb x y z, fun hx hy hz => ?_⟩
    have e1 : heights_exact (node k (new_height y z) b y z) :=
      ⟨by rw [new_height_of_exact hy hz]; simp [true_height], hy, hz⟩
    refine ⟨e1, ?_, hx, e1⟩
    rw [new_height_of_exact hx e1]
    simp [true_height]

theorem rotation_shape_witness :
    (∃ h1 h2 : Int,
      rotate_left (node 10 7 0 (node 5 1 0 nil nil)
          (node 20 2 0 (node 15 1 0 nil nil) (node 30 1 0 nil nil))) =
          some (node 20 h2 0 (node 10 h1 0 (node 5 1 0 nil nil) (node 15 1 0 nil nil))
            (node 30 1 0 nil nil)) ∧
        heights_exact (node 10 h1 0 (node 5 1 0 nil nil) (node 15 1 0 nil nil)) ∧
        heights_exact (node 20 h2 0 (node 10 h1 0 (node 5 1 0 nil nil) (node 15 1 0 nil nil))
            (node 30 1 0 nil nil))) ∧
      ∃ h1 h2 : Int,
        rotate_right (node 20 7 0 (node 10 2 0 (node 5 1 0 nil nil) (node 15 1 0 nil nil))
            (node 30 1 0 nil nil)) =
            some (node 10 h2 0 (node 5 1 0 nil nil)
              (node 20 h1 0 (node 15 1 0 nil nil) (node 30 1 0 nil nil))) ∧
          heights_exact (node 20 h1 0 (node 15 1 0 nil nil) (node 30 1 0 nil nil)) ∧
          heights_exact (node 10 h2 0 (node 5 1 0 nil nil)
              (node 20 h1 0 (node 15 1 0 nil nil) (node 30 1 0 nil nil))) := by
  obtain ⟨⟨a1, a2, ha, hb⟩, c1, c2, hc, hd⟩ :=
    rotation_shape (10 : Nat) 7 0 20 2 0 (node 5 1 0 nil nil) (node 15 1 0 nil nil)
      (node 30 1 0 nil nil)
  obtain ⟨⟨d1, d2, ha2, hb2⟩, e1, e2, hc2, hd2⟩ :=
    rotation_shape (20 : Nat) 7 0 10 2 0 (node 5 1 0 nil nil) (node 15 1 0 nil nil)
      (node 30 1 0 nil nil)
  exact ⟨⟨a1, a2, ha, hb (by decide) (by decide) (by decide)⟩,
    e1, e2, hc2, hd2 (by decide) (by decide) (by decide)⟩

/-- C26: rotations preserve the in-order key sequence.  For every node with a
right child `rotate_left` returns a subtree whose in-order key list is that of
the subtree before the rotation, and likewise `rotate_right` for every node
with a left child. -/
theorem rotation_preserves_inorder (k : α) (h b : Int) (ck : α) (ch cb : Int)
    (x y z : AVLNode α) :
    (∃ n, rotate_left (node k h b x (node ck ch cb y z)) = some n ∧
        inorder n = inorder (node k h b x (node ck ch cb y z))) ∧
      ∃ n, rotate_right (node k h b (node ck ch cb x y) z) = some n ∧
        inorder n = inorder (node k h b (node ck ch cb x y) z) :=
  ⟨⟨_, rotate_left_node k h b x ck ch cb y z,
      rotate_left_inorder (rotate_left_node k h b x ck ch cb y z)⟩,
    ⟨_, rotate_right_node k h b ck ch cb x y z,
      rotate_right_inorder (rotate_right_node k h b ck ch cb x y z)⟩⟩

section ordered

variable [LinearOrder α]

/-! ## The descent loop of `cut_off_node` -/

/-- On a node whose key equals the key of the demoted root the descent loop
makes no progress: it does not exit, whatever the fuel. -/
theorem splice_run_stuck (sibling : AVLNode α) (k : α) (h b : Int) (l r : AVLNode α)
    (fuel : Nat) (path : List (Frame α)) :
    splice_run sibling k fuel path (node k h b l r) = none := by
  induction fuel with
  | zero => rfl
  | succ n ih => simp [splice_run, ih]

/-- When no key of the subtree equals the key of the demoted root, the descent
loop exits within `true_height t + 1` iterations, with the result of
`splice_loop`. -/
theorem splice_run_eq (sibling : AVLNode α) (skey : α) (t : AVLNode α) :
    ∀ (path : List (Frame α)) (fuel : Nat), (∀ x ∈ inorder t, x ≠ skey) →
      true_height t + 1 ≤ fuel →
      splice_run sibling skey fuel path t = splice_loop sibling skey path t := by
  induction t with
  | nil =>
      intro path fuel _ hf
      obtain ⟨n, rfl⟩ : ∃ n, fuel = n + 1 := ⟨fuel - 1, by omega⟩
      cases path <;> simp [splice_run, splice_loop]
  | node k h b l r ihl ihr =>
      intro path fuel hne hf
      obtain ⟨n, rfl⟩ : ∃ n, fuel = n + 1 := ⟨fuel - 1, by omega⟩
      simp only [true_height] at hf
      have hk : k ≠ skey := hne k (by simp [inorder])
      simp only [splice_run, splice_loop]
      by_cases h1 : skey > k
      · simp only [if_pos h1]
        exact ihr _ n (fun x hx => hne x (by simp [inorder, hx])) (by omega)
      · simp only [if_neg h1]
        have h2 : skey < k := lt_of_le_of_ne (not_lt.mp h1) (Ne.symm hk)
        simp only [if_pos h2]
        exact ihl _ n (fun x hx => hne x (by simp [inorder, hx])) (by omega)

/-- C27: the descent that re-attaches the demoted subtree terminates.  In a
tree with strictly increasing in-order keys, when the node to delete has two
children, no key of the promoted child's subtree equals the key of the demoted
root (the left child is promoted when its cached height is greater, the right
child otherwise), so the loop of `cut_off_node` never meets a node on which it
makes no progress: it reaches an absent child after finitely many iterations
and `cut_off_node` returns. -/
theorem splice_descent_terminates (path : List (Frame α)) (key : α) (h b : Int)
    (lk : α) (lh lb : Int) (ll lr : AVLNode α) (rk : α) (rh rb : Int) (rl rr : AVLNode α)
    (hs : search_tree (plugAll path
      (node key h b (node lk lh lb ll lr) (node rk rh rb rl rr)))) :
    (∀ x ∈ inorder (node lk lh lb ll lr), x ≠ rk) ∧
      (∀ x ∈ inorder (node rk rh rb rl rr), x ≠ lk) ∧
      ∃ p, cut_off_node (node key h b (node lk lh lb ll lr) (node rk rh rb rl rr)) path =
          some p ∧
        (lh > rh → Returns (fun fuel =>
          splice_run (node rk rh rb rl rr) rk fuel path (node lk lh lb ll lr)) p) ∧
        (¬ lh > rh → Returns (fun fuel =>
          splice_run (node lk lh lb ll lr) lk fuel path (node rk rh rb rl rr)) p) := by
  have hsn := search_tree_of_plugAll path _ hs
  obtain ⟨-, -, h3, h4⟩ := (search_tree_node _ _ _ _ _).mp hsn
  have hlk : lk < key := h3 lk (by simp [inorder])
  have hrk : key < rk := h4 rk (by simp [inorder])
  have hkk : ¬ lk > rk := not_lt.mpr (le_of_lt (lt_trans hlk hrk))
  have nl : ∀ x ∈ inorder (node lk lh lb ll lr), x ≠ rk :=
    fun x hx => ne_of_lt (lt_trans (h3 x hx) hrk)
  have nr : ∀ x ∈ inorder (node rk rh rb rl rr), x ≠ lk :=
    fun x hx => ne_of_gt (lt_trans hlk (h4 x hx))
  obtain ⟨p, hp, -, -⟩ := cut_off_node_spec 0 key h b _ _ path hsn
    (fun f _ => good_zero _) (good_zero _) (good_zero _)
  refine ⟨nl, nr, p, hp, fun hgt => ?_, fun hgt => ?_⟩
  · refine ⟨true_height (node lk lh lb ll lr) + 1, fun n hn => ?_⟩
    show splice_run _ rk n path _ = some p
    rw [splice_run_eq _ rk _ path n nl hn, ← hp]
    simp only [cut_off_node, if_pos hgt]
  · refine ⟨true_height (node rk rh rb rl rr) + 1, fun n hn => ?_⟩
    show splice_run _ lk n path _ = some p
    rw [splice_run_eq _ lk _ path n nr hn, ← hp]
    simp only [cut_off_node, if_neg hgt, if_neg hkk]
    split <;> rfl

theorem splice_descent_terminates_witness :
    search_tree (plugAll example_path example_node) ∧
      (∀ x ∈ inorder (node 5 1 0 nil nil : AVLNode Nat), x ≠ 15) ∧
      (∀ x ∈ inorder (node 15 1 0 nil nil : AVLNode Nat), x ≠ 5) ∧
      ∃ p, cut_off_node example_node example_path = some p ∧
        ((1 : Int) > 1 → Returns (fun fuel =>
          splice_run (node 15 1 0 nil nil) 15 fuel example_path (node 5 1 0 nil nil)) p) ∧
        (¬ (1 : Int) > 1 → Returns (fun fuel =>
          splice_run (node 5 1 0 nil nil) 5 fuel example_path (node 15 1 0 nil nil)) p) :=
  ⟨by decide, splice_descent_terminates example_path 10 2 0 5 1 0 nil nil 15 1 0 nil nil
    (by decide)⟩

end ordered

/-! ## Properties of the subtrees off the path -/

theorem frames_all_cons {P : AVLNode α → Prop} {f : Frame α} {fs : List (Frame α)}
    (h1 : P f.other) (h2 : frames_all P fs) : frames_all P (f :: fs) := by
  intro g hg
  rcases List.mem_cons.mp hg with rfl | hg
  · exact h1
  · exact h2 g hg

theorem frames_all_tail {P : AVLNode α → Prop} {f : Frame α} {fs : List (Frame α)}
    (h : frames_all P (f :: fs)) : frames_all P fs :=
  fun g hg => h g (List.mem_cons_of_mem _ hg)

theorem kids_all_plug {P : AVLNode α → Prop} (f : Frame α) {t : AVLNode α}
    (h1 : P f.other) (h2 : P t) : kids_all P (plug f t) := by
  cases f with
  | mk d k h b o =>
      cases d
      · exact ⟨h2, h1⟩
      · exact ⟨h1, h2⟩

theorem relink_all {P : AVLNode α → Prop} (path : List (Frame α)) (c : AVLNode α)
    (hf : frames_all P path) (hc : P c) : path_all P (relink path c) := by
  cases path with
  | nil => exact hc
  | cons f fs => exact ⟨frames_all_tail hf, kids_all_plug f (hf f (List.mem_cons_self _ _)) hc⟩

theorem all_nodes_sub {q : Int → Nat → Nat → Prop} (k : α) (h b : Int) (l r : AVLNode α)
    (hn : all_nodes q (node k h b l r)) : all_nodes q l ∧ all_nodes q r :=
  hn.2

theorem caches_exact_sub (k : α) (h b : Int) (l r : AVLNode α)
    (hn : caches_exact (node k h b l r)) : caches_exact l ∧ caches_exact r :=
  ⟨⟨hn.1.2.1, hn.2.2.1⟩, ⟨hn.1.2.2, hn.2.2.2⟩⟩

theorem caches_exact_nil : caches_exact (nil : AVLNode α) := ⟨trivial, trivial⟩

theorem caches_exact_new_node (key : α) : caches_exact (new_node key) := by
  refine ⟨?_, ?_⟩
  · simp [new_node, heights_exact, true_height]
  · simp [new_node, balances_exact, all_nodes, balance_exact, true_height]

theorem caches_exact_fixup (k : α) (h b : Int) (l r : AVLNode α) (hl : caches_exact l)
    (hr : caches_exact r) : caches_exact (fixup (node k h b l r)) := by
  rw [fixup_node]
  refine ⟨⟨?_, hl.1, hr.1⟩, ?_, hl.2, hr.2⟩
  · rw [new_height_of_exact hl.1 hr.1]
    simp [true_height]
  · show cached_height l - cached_height r = _
    rw [cached_height_of_exact hl.1, cached_height_of_exact hr.1]

theorem refresh_up_exact (fs : List (Frame α)) (t : AVLNode α)
    (hf : frames_all caches_exact fs) (ht : caches_exact t) :
    caches_exact (refresh_up fs t) := by
  induction fs generalizing t with
  | nil => exact ht
  | cons f fs ih =>
      have ho := hf f (List.mem_cons_self _ _)
      refine ih _ (frames_all_tail hf) ?_
      cases f with
      | mk d k h b o =>
          cases d
          · exact caches_exact_fixup k h b t o ht ho
          · exact caches_exact_fixup k h b o t ho ht

theorem refresh_exact (p : Path α) (hp : path_all caches_exact p) :
    caches_exact (refresh p) := by
  cases p with
  | empty root => exact hp
  | nodes above back =>
      cases back with
      | nil => exact hp.2.elim
      | node k h b l r =>
          show caches_exact (refresh_loop above _)
          rw [refresh_loop_eq_refresh_up]
          exact refresh_up_exact above _ hp.1 (caches_exact_fixup k h b l r hp.2.1 hp.2.2)

theorem cached_balanced_iff_of_exact (t : AVLNode α) (he : heights_exact t) :
    cached_balanced t ↔ height_balanced t := by
  induction t with
  | nil => exact Iff.rfl
  | node k h b l r ihl ihr =>
      have cl := cached_height_of_exact he.2.1
      have cr := cached_height_of_exact he.2.2
      simp only [cached_balanced, height_balanced, ihl he.2.1, ihr he.2.2, cl, cr]
      constructor
      · rintro ⟨⟨h1, h2⟩, h3, h4⟩
        exact ⟨⟨by omega, by omega⟩, h3, h4⟩
      · rintro ⟨⟨h1, h2⟩, h3, h4⟩
        exact ⟨⟨by omega, by omega⟩, h3, h4⟩

section ordered

variable [LinearOrder α]

theorem insertnb_loop_all (P : AVLNode α → Prop) (hnil : P nil)
    (hsub : ∀ (k : α) (h b : Int) (l r : AVLNode α), P (node k h b l r) → P l ∧ P r)
    (key : α) (hleaf : P (new_node key)) (path : List (Frame α)) (t : AVLNode α)
    (hf : frames_all P path) (ht : P t) (hw : P (plugAll path t)) :
    path_all P (insertnb_loop key path t) := by
  induction t generalizing path with
  | nil =>
      cases path with
      | nil => exact hleaf
      | cons f fs =>
          have hfs := frames_all_tail hf
          have hfo : P f.other := hf f (List.mem_cons_self _ _)
          cases f with
          | mk d k h b o =>
              cases d
              · simp only [insertnb_loop, plug]
                split
                · exact ⟨hfs, hnil, hleaf⟩
                · exact ⟨hfs, hleaf, hfo⟩
              · simp only [insertnb_loop, plug]
                split
                · exact ⟨hfs, hfo, hleaf⟩
                · exact ⟨hfs, hleaf, hnil⟩
  | node k h b l r ihl ihr =>
      obtain ⟨pl, pr⟩ := hsub k h b l r ht
      simp only [insertnb_loop]
      split
      · exact ihr _ (frames_all_cons pl hf) pr hw
      · split
        · exact ihl _ (frames_all_cons pr hf) pl hw
        · exact hw

theorem insertnb_all (P : AVLNode α → Prop) (hnil : P nil)
    (hsub : ∀ (k : α) (h b : Int) (l r : AVLNode α), P (node k h b l r) → P l ∧ P r)
    (key : α) (hleaf : P (new_node key)) (t : AVLNode α) (ht : P t) :
    path_all P (insertnb t key) := by
  cases t with
  | nil => exact hleaf
  | node k h b l r =>
      exact insertnb_loop_all P hnil hsub key hleaf [] _ (fun _ hg => by simp at hg) ht ht

theorem splice_loop_all (P : AVLNode α → Prop) (hnil : P nil)
    (hsub : ∀ (k : α) (h b : Int) (l r : AVLNode α), P (node k h b l r) → P l ∧ P r)
    (sibling : AVLNode α) (skey : α) (path : List (Frame α)) (t : AVLNode α) (p : Path α)
    (hp : splice_loop sibling skey path t = some p)
    (hf : frames_all P path) (ht : P t) (hs : P sibling) : path_all P p := by
  induction t generalizing path with
  | nil =>
      cases path with
      | nil => simp [splice_loop] at hp
      | cons f fs =>
          have hfs := frames_all_tail hf
          have hfo : P f.other := hf f (List.mem_cons_self _ _)
          cases f with
          | mk d k h b o =>
              cases d
              · simp only [splice_loop, plug] at hp
                split at hp
                · simp only [Option.some.injEq] at hp
                  subst hp
                  exact ⟨hfs, hnil, hs⟩
                · simp only [Option.some.injEq] at hp
                  subst hp
                  exact ⟨hfs, hs, hfo⟩
              · simp only [splice_loop, plug] at hp
                split at hp
                · simp only [Option.some.injEq] at hp
                  subst hp
                  exact ⟨hfs, hfo, hs⟩
                · simp only [Option.some.injEq] at hp
                  subst hp
                  exact ⟨hfs, hs, hnil⟩
  | node k h b l r ihl ihr =>
      obtain ⟨pl, pr⟩ := hsub k h b l r ht
      simp only [splice_loop] at hp
      split at hp
      · exact ihr _ hp (frames_all_cons pl hf) pr
      · split at hp
        · exact ihl _ hp (frames_all_cons pr hf) pl
        · simp at hp

theorem cut_off_node_all (P : AVLNode α → Prop) (hnil : P nil)
    (hsub : ∀ (k : α) (h b : Int) (l r : AVLNode α), P (node k h b l r) → P l ∧ P r)
    (k : α) (h b : Int) (l r : AVLNode α) (path : List (Frame α)) (p : Path α)
    (hp : cut_off_node (node k h b l r) path = some p)
    (hf : frames_all P path) (hl : P l) (hr : P r) : path_all P p := by
  cases l with
  | nil =>
      cases r with
      | nil =>
          simp only [cut_off_node, Option.some.injEq] at hp
          subst hp
          exact relink_all path _ hf hnil
      | node rk rh rb rl rr =>
          simp only [cut_off_node, Option.some.injEq] at hp
          subst hp
          exact relink_all path _ hf hr
  | node lk lh lb ll lr =>
      cases r with
      | nil =>
          simp only [cut_off_node, Option.some.injEq] at hp
          subst hp
          exact relink_all path _ hf hl
      | node rk rh rb rl rr =>
          simp only [cut_off_node] at hp
          split at hp
          · exact splice_loop_all P hnil hsub _ _ _ _ p hp hf hl hr
          · split at hp
            · exact splice_loop_all P hnil hsub _ _ _ _ p hp hf hr hl
            · split at hp
              · exact splice_loop_all P hnil hsub _ _ _ _ p hp hf hl hr
              · exact splice_loop_all P hnil hsub _ _ _ _ p hp hf hr hl

theorem removenb_loop_all (P : AVLNode α → Prop) (hnil : P nil)
    (hsub : ∀ (k : α) (h b : Int) (l r : AVLNode α), P (node k h b l r) → P l ∧ P r)
    (key : α) (path : List (Frame α)) (t : AVLNode α) (p : Path α)
    (hp : removenb_loop key path t = some p)
    (hf : frames_all P path) (ht : P t) (hw : P (plugAll path t)) : path_all P p := by
  induction t generalizing path with
  | nil =>
      simp only [removenb_loop, Option.some.injEq] at hp
      subst hp
      exact hw
  | node k h b l r ihl ihr =>
      obtain ⟨pl, pr⟩ := hsub k h b l r ht
      simp only [removenb_loop] at hp
      split at hp
      · exact ihr _ hp (frames_all_cons pl hf) pr hw
      · split at hp
        · exact ihl _ hp (frames_all_cons pr hf) pl hw
        · exact cut_off_node_all P hnil hsub k h b l r path p hp hf pl pr

theorem removenb_all (P : AVLNode α → Prop) (hnil : P nil)
    (hsub : ∀ (k : α) (h b : Int) (l r : AVLNode α), P (node k h b l r) → P l ∧ P r)
    (t : AVLNode α) (key : α) (p : Path α) (hp : removenb t key = some p) (ht : P t) :
    path_all P p := by
  cases t with
  | nil =>
      simp only [removenb, Option.some.injEq] at hp
      subst hp
      exact hnil
  | node k h b l r =>
      exact removenb_loop_all P hnil hsub key [] _ p hp (fun _ hg => by simp at hg) ht ht

/-! ## Sequences of unbalanced calls -/

theorem unbalanced_insert_exact (t : AVLNode α) (key : α) (ht : caches_exact t) :
    caches_exact (unbalanced_insert t key) :=
  refresh_exact _ (insertnb_all caches_exact caches_exact_nil caches_exact_sub key
    (caches_exact_new_node key) t ht)

theorem unbalanced_remove_exact (t : AVLNode α) (key : α) (t2 : AVLNode α)
    (h : unbalanced_remove t key = some t2) (ht : caches_exact t) : caches_exact t2 := by
  simp only [unbalanced_remove] at h
  cases hp : removenb t key with
  | none => simp [hp] at h
  | some p =>
      simp only [hp, Option.some.injEq] at h
      subst h
      exact refresh_exact _ (removenb_all caches_exact caches_exact_nil caches_exact_sub t key p
        hp ht)

theorem run_unbalanced_ops_exact (ops : List (Op α)) (t : AVLNode α) (hs : search_tree t)
    (ht : caches_exact t) :
    ∃ t2, run_unbalanced_ops ops t = some t2 ∧ search_tree t2 ∧ caches_exact t2 := by
  induction ops generalizing t with
  | nil => exact ⟨t, rfl, hs, ht⟩
  | cons op ops ih =>
      have hop : ∃ t1, run_unbalanced_op t op = some t1 ∧ search_tree t1 ∧ caches_exact t1 := by
        cases op with
        | insert key =>
            exact ⟨_, rfl, search_tree_of_inorder_insert t _ key hs
              (inorder_unbalanced_insert t key), unbalanced_insert_exact t key ht⟩
        | remove key =>
            obtain ⟨t1, h1, h3⟩ := unbalanced_remove_spec t key hs
            exact ⟨t1, h1, search_tree_of_inorder_remove t t1 key hs h3,
              unbalanced_remove_exact t key t1 h1 ht⟩
      obtain ⟨t1, h1, hs1, he1⟩ := hop
      obtain ⟨t2, h2, hs2, he2⟩ := ih t1 hs1 he1
      refine ⟨t2, ?_, hs2, he2⟩
      simp only [run_unbalanced_ops, h1]
      exact h2

/-- C21: unbalanced operations keep cached heights exact.  Every sequence of
`unbalanced_insert` and `unbalanced_remove` calls applied to an empty tree
returns, every node's cached height equals its true subtree height in the tree
it leaves, and `is_balanced()` is true on that tree exactly when every node's
true left/right height difference is in [-1,1]. -/
theorem unbalanced_calls_keep_heights_exact (ops : List (Op α)) :
    ∃ t, run_unbalanced_ops ops nil = some t ∧ heights_exact t ∧
      (is_balanced t = true ↔ height_balanced t) := by
  obtain ⟨t, h1, -, h3⟩ := run_unbalanced_ops_exact ops nil (by simp [search_tree, inorder])
    caches_exact_nil
  exact ⟨t, h1, h3.1, (is_balanced_iff t).trans (cached_balanced_iff_of_exact t h3.1)⟩

/-- C22: unbalanced operations keep cached balances exact.  Every sequence of
`unbalanced_insert` and `unbalanced_remove` calls applied to an empty tree
returns, and in the tree it leaves every node's cached balance equals the
height of its left subtree minus the height of its right subtree (an absent
subtree counted as 0). -/
theorem unbalanced_calls_keep_balances_exact (ops : List (Op α)) :
    ∃ t, run_unbalanced_ops ops nil = some t ∧ balances_exact t := by
  obtain ⟨t, h1, -, h3⟩ := run_unbalanced_ops_exact ops nil (by simp [search_tree, inorder])
    caches_exact_nil
  exact ⟨t, h1, h3.2⟩

end ordered

/-! ## Cached balances under the loop of `rebalance` -/

theorem all_nodes_new_node {q : Int → Nat → Nat → Prop} (hq : rebalance_stable q) (key : α) :
    all_nodes q (new_node key) := by
  have h := hq.1 0 0 (by omega) (by omega)
  exact ⟨by simpa [true_height] using h, trivial, trivial⟩

theorem rebalance_stable_in_range : rebalance_stable balance_in_range := by
  refine ⟨fun x y h1 h2 => ?_, fun x y _ => ?_, fun x y _ => ?_⟩
  · constructor <;> omega
  · exact ⟨le_refl _, by omega⟩
  · exact ⟨by omega, le_refl _⟩

theorem rebalance_stable_exact_or_moved : rebalance_stable balance_exact_or_moved := by
  refine ⟨fun x y _ _ => Or.inl rfl, fun x y h => Or.inr (Or.inl ⟨rfl, ?_⟩),
    fun x y h => Or.inr (Or.inr ⟨rfl, ?_⟩)⟩
  · omega
  · omega

/-- A property of cached balances that the loop of `rebalance` can establish
holds at every node of the tree the loop returns, when it holds in the subtrees
off the path and these are balanced with exact cached heights. -/
theorem rebalance_loop_all_nodes (q : Int → Nat → Nat → Prop) (hq : rebalance_stable q)
    (fuel : Nat) : ∀ (above : List (Frame α)) (cur t : AVLNode α),
      rebalance_loop fuel above cur = some t → frames_ok 2 above → kids_ok 2 cur →
      frames_all (all_nodes q) above → kids_all (all_nodes q) cur → all_nodes q t := by
  induction fuel with
  | zero =>
      intro above cur t h
      simp [rebalance_loop] at h
  | succ fuel ih =>
    intro above cur t h hf hk qf qk
    cases cur with
    | nil => exact hk.elim
    | node k hh b l r =>
      obtain ⟨hl, hr⟩ := hk
      obtain ⟨ql, qr⟩ := qk
      have cl := cached_height_of_exact (hl.1 (by omega))
      have cr := cached_height_of_exact (hr.1 (by omega))
      by_cases h1 : cached_height l - cached_height r > 1
      · have n1 : true_height r + 1 < true_height l := by omega
        clear cl
        cases l with
        | nil => simp [true_height] at n1
        | node lk lh lb ll lr =>
          have gll := good_left hl
          have glr := good_right hl
          have cll := cached_height_of_exact (gll.1 (by omega))
          have clr := cached_height_of_exact (glr.1 (by omega))
          simp only [cached_height_node] at h1
          by_cases h2 : cached_height ll - cached_height lr < 0
          · have n2 : true_height ll < true_height lr := by omega
            cases lr with
            | nil => simp [true_height] at n2
            | node mk mh mb ml mr =>
              have gml := good_left glr
              have gmr := good_right glr
              simp only [cached_height_node] at h2 clr
              rw [rebalance_loop_right_double fuel above k hh b lk lh lb ll mk mh mb ml mr r h1 h2]
                at h
              have e1 := (hl.2 (le_refl 2)).1
              have e2 := (glr.2 (le_refl 2)).1
              simp only [true_height] at e1 e2 n2 clr
              have gn : good 2 (node lk (new_height ll ml) (cached_height ll - mh) ll ml) :=
                good_new_height (by omega) lk _ gll gml (fun _ => by omega)
              have hb : cached_height ll - mh = -1 := by omega
              have qn : all_nodes q (node lk (new_height ll ml) (cached_height ll - mh) ll ml) := by
                refine ⟨?_, ql.2.1, ql.2.2.2.1⟩
                rw [hb]
                exact hq.2.1 _ _ (by omega)
              exact ih _ _ t h (frames_ok_cons gn hf) ⟨gmr, hr⟩ (frames_all_cons qn qf)
                ⟨ql.2.2.2.2, qr⟩
          · rw [rebalance_loop_right_single fuel above k hh b lk lh lb ll lr r h1 h2] at h
            exact ih _ _ t h (frames_ok_cons gll hf) ⟨glr, hr⟩ (frames_all_cons ql.2.1 qf)
              ⟨ql.2.2, qr⟩
      · by_cases h1b : cached_height l - cached_height r < -1
        · have n1 : true_height l + 1 < true_height r := by omega
          clear cr
          cases r with
          | nil => simp [true_height] at n1
          | node rk rh rb rl rr =>
            have grl := good_left hr
            have grr := good_right hr
            have crl := cached_height_of_exact (grl.1 (by omega))
            have crr := cached_height_of_exact (grr.1 (by omega))
            simp only [cached_height_node] at h1 h1b
            by_cases h3 : cached_height rl - cached_height rr > 0
            · have n2 : true_height rr < true_height rl := by omega
              cases rl with
              | nil => simp [true_height] at n2
              | node mk mh mb ml mr =>
                have gml := good_left grl
                have gmr := good_right grl
                simp only [cached_height_node] at h3 crl
                rw [rebalance_loop_left_double fuel above k hh b l rk rh rb mk mh mb ml mr rr
                  h1 h1b h3] at h
                have e1 := (hr.2 (le_refl 2)).1
                have e2 := (grl.2 (le_refl 2)).1
                simp only [true_height] at e1 e2 n2 crl
                have gn : good 2 (node rk (new_height mr rr) (mh - cached_height rr) mr rr) :=
                  good_new_height (by omega) rk _ gmr grr (fun _ => by omega)
                have hb : mh - cached_height rr = 1 := by omega
                have qn : all_nodes q
                    (node rk (new_height mr rr) (mh - cached_height rr) mr rr) := by
                  refine ⟨?_, qr.2.1.2.2, qr.2.2⟩
                  rw [hb]
                  exact hq.2.2 _ _ (by omega)
                exact ih _ _ t h (frames_ok_cons gn hf) ⟨hl, gml⟩ (frames_all_cons qn qf)
                  ⟨ql, qr.2.1.2.1⟩
            · rw [rebalance_loop_left_single fuel above k hh b l rk rh rb rl rr h1 h1b h3] at h
              exact ih _ _ t h (frames_ok_cons grr hf) ⟨hl, grl⟩ (frames_all_cons qr.2.2 qf)
                ⟨ql, qr.2.1⟩
        · have gc : good 2 (node k (new_height l r) (cached_height l - cached_height r) l r) :=
            good_new_height (by omega) k _ hl hr (fun _ => by omega)
          have qc : all_nodes q
              (node k (new_height l r) (cached_height l - cached_height r) l r) := by
            refine ⟨?_, ql, qr⟩
            rw [cl, cr]
            exact hq.1 _ _ (by omega) (by omega)
          rw [rebalance_loop_keep fuel above k hh b l r h1 h1b] at h
          cases above with
          | nil =>
              simp only [Option.some.injEq] at h
              subst h
              exact qc
          | cons f fs =>
              exact ih fs _ t h (fun g hg => hf g (List.mem_cons_of_mem _ hg))
                (kids_ok_plug f (hf f (List.mem_cons_self _ _)) gc) (frames_all_tail qf)
                (kids_all_plug f (qf f (List.mem_cons_self _ _)) qc)

theorem rebalance_all_nodes (q : Int → Nat → Nat → Prop) (hq : rebalance_stable q)
    (fuel : Nat) (p : Path α) (t : AVLNode α) (h : rebalance fuel p = some t)
    (hp : path_ok 2 p) (hpq : path_all (all_nodes q) p) : all_nodes q t := by
  cases p with
  | empty root =>
      simp only [rebalance, Option.some.injEq] at h
      subst h
      exact hpq
  | nodes above back =>
      exact rebalance_loop_all_nodes q hq fuel above back t h hp.1 hp.2 hpq.1 hpq.2

section ordered

variable [LinearOrder α]

theorem insert_all_nodes (q : Int → Nat → Nat → Prop) (hq : rebalance_stable q)
    (fuel : Nat) (t : AVLNode α) (key : α) (t2 : AVLNode α) (h : insert fuel t key = some t2)
    (ht : good 2 t) (hqt : all_nodes q t) : all_nodes q t2 :=
  rebalance_all_nodes q hq fuel _ t2 h (insertnb_ok 2 t key ht)
    (insertnb_all (all_nodes q) trivial all_nodes_sub key (all_nodes_new_node hq key) t hqt)

theorem remove_all_nodes (q : Int → Nat → Nat → Prop) (hq : rebalance_stable q)
    (fuel : Nat) (t : AVLNode α) (key : α) (t2 : AVLNode α) (h : remove fuel t key = some t2)
    (hs : search_tree t) (ht : good 2 t) (hqt : all_nodes q t) : all_nodes q t2 := by
  obtain ⟨p, h1, -, h3⟩ := removenb_spec 2 t key hs ht
  simp only [remove, h1] at h
  exact rebalance_all_nodes q hq fuel p t2 h h3
    (removenb_all (all_nodes q) trivial all_nodes_sub t key p h1 hqt)

theorem run_ops_all_nodes (q : Int → Nat → Nat → Prop) (hq : rebalance_stable q)
    (ops : List (Op α)) (t : AVLNode α) (hs : search_tree t) (ht : good 2 t)
    (hqt : all_nodes q t) :
    ∃ t2, Returns (fun fuel => run_ops fuel ops t) t2 ∧ search_tree t2 ∧ good 2 t2 ∧
      all_nodes q t2 := by
  induction ops generalizing t with
  | nil => exact ⟨t, ⟨0, fun _ _ => rfl⟩, hs, ht, hqt⟩
  | cons op ops ih =>
      have hop : ∃ t1, Returns (fun fuel => run_op fuel t op) t1 ∧ search_tree t1 ∧
          good 2 t1 ∧ all_nodes q t1 := by
        cases op with
        | insert key =>
            obtain ⟨t1, ⟨f, hf⟩, h2, h3⟩ := insert_returns 2 (by omega) t key ht
            exact ⟨t1, ⟨f, hf⟩, search_tree_of_inorder_insert t t1 key hs h3, h2,
              insert_all_nodes q hq f t key t1 (hf f (le_refl f)) ht hqt⟩
        | remove key =>
            obtain ⟨t1, ⟨f, hf⟩, h2, h3⟩ := remove_returns 2 (by omega) t key hs ht
            exact ⟨t1, ⟨f, hf⟩, search_tree_of_inorder_remove t t1 key hs h3, h2,
              remove_all_nodes q hq f t key t1 (hf f (le_refl f)) hs ht hqt⟩
      obtain ⟨t1, ⟨f1, hf1⟩, hs1, hg1, hq1⟩ := hop
      obtain ⟨t2, ⟨f2, hf2⟩, hs2, hg2, hq2⟩ := ih t1 hs1 hg1 hq1
      refine ⟨t2, ⟨max f1 f2, fun n hn => ?_⟩, hs2, hg2, hq2⟩
      simp only [run_ops, hf1 n (le_trans (le_max_left _ _) hn)]
      exact hf2 n (le_trans (le_max_right _ _) hn)

/-- Inserting `c`, `a`, `b` with `a < b < c` into an empty tree ends with a
left-right double rotation: the node holding `a`, moved by its first rotation,
is a leaf afterwards and keeps the cached balance -1 written before it. -/
theorem build_left_right (a b c : α) (hab : a < b) (hbc : b < c) (m : Nat) :
    build (m + 4) [c, a, b] =
      some (node b 2 0 (node a 1 (-1) nil nil) (node c 1 0 nil nil)) := by
  have hac : a < c := lt_trans hab hbc
  have h1 : ¬ c < a := not_lt.mpr (le_of_lt hac)
  have h2 : ¬ c < b := not_lt.mpr (le_of_lt hbc)
  have h3 : ¬ b < a := not_lt.mpr (le_of_lt hab)
  simp [build, run_ops, run_op, insert, insertnb, insertnb_loop, new_node, plug, rebalance,
    rebalance_loop, rebalance_to_right, rotate_left, rotate_right, new_height, hab, hbc, hac,
    h1, h2, h3]

/-- C23: cached balances stay in range under balanced operations.  Every
sequence of balanced `insert` and `remove` calls applied to an empty tree
returns, and in the tree it leaves every node's cached balance field is -1, 0
or 1. -/
theorem balanced_ops_balances_in_range (ops : List (Op α)) :
    ∃ t, Returns (fun fuel => run_ops fuel ops nil) t ∧ balances_in_range t := by
  obtain ⟨t, h1, -, -, h4⟩ := run_ops_all_nodes balance_in_range rebalance_stable_in_range
    ops nil (by simp [search_tree, inorder]) (good_nil 2) trivial
  exact ⟨t, h1, h4⟩

/-- C24, as amended: after every sequence of balanced `insert` and `remove`
calls applied to an empty tree, every node's cached balance field equals the
height of its left subtree minus the height of its right subtree, or is the
value written just before the node was moved by the first rotation of a double
rotation: -1 while the true difference is 0 or 1 (left-right), 1 while the true
difference is 0 or -1 (right-left). -/
theorem balanced_ops_balances_exact_or_moved (ops : List (Op α)) :
    ∃ t, Returns (fun fuel => run_ops fuel ops nil) t ∧ balances_exact_or_moved t := by
  obtain ⟨t, h1, -, -, h4⟩ := run_ops_all_nodes balance_exact_or_moved
    rebalance_stable_exact_or_moved ops nil (by simp [search_tree, inorder]) (good_nil 2) trivial
  exact ⟨t, h1, h4⟩

end ordered

/-- C24, as stated, fails: the balanced insertions of 30 and 10 into an empty
tree return the tree with root 30 and left child 10; the balanced insertion of
20 into it returns the tree with root 20 and the leaves 10 and 30, in which the
leaf 10, moved by the first rotation of the left-right double rotation, has
the cached balance -1, whereas both its subtrees are absent. -/
theorem balanced_insert_leaves_stale_balance :
    Returns (fun fuel => run_ops fuel [Op.insert 30, Op.insert 10] (nil : AVLNode Nat))
        (node 30 2 1 (node 10 1 0 nil nil) nil) ∧
      Returns (fun fuel => insert fuel (node 30 2 1 (node 10 1 0 nil nil) nil) 20)
        (node 20 2 0 (node 10 1 (-1) nil nil) (node 30 1 0 nil nil)) ∧
      ¬ balances_exact (node 20 2 0 (node 10 1 (-1) nil nil) (node 30 1 0 nil nil) :
        AVLNode Nat) := by
  refine ⟨⟨4, fun n hn => ?_⟩, ⟨4, fun n hn => ?_⟩, by decide⟩
  · obtain ⟨m, rfl⟩ : ∃ m, n = m + 4 := ⟨n - 4, by omega⟩
    simp [run_ops, run_op, insert, insertnb, insertnb_loop, new_node, plug, rebalance,
      rebalance_loop, new_height]
  · obtain ⟨m, rfl⟩ : ∃ m, n = m + 4 := ⟨n - 4, by omega⟩
    simp [insert, insertnb, insertnb_loop, new_node, plug, rebalance,
      rebalance_loop, rebalance_to_right, rotate_left, rotate_right, new_height]

/-! ## The arithmetic of `int` in `compute_node_balance` -/

theorem wrap_int_of_fits (x : Int) (h1 : -2147483648 ≤ x) (h2 : x ≤ 2147483647) :
    wrap_int x = x := by
  unfold wrap_int
  omega

@[simp] theorem compute_node_balance32_node (k : α) (h b : Int) (l r : AVLNode α) :
    compute_node_balance32 (node k h b l r) =
      (int_balance l r, node k h (int_balance l r) l r) := by
  cases l <;> cases r <;> rfl

theorem int_balance_eq (l r : AVLNode α)
    (h : -2147483648 ≤ cached_height l - cached_height r ∧
      cached_height l - cached_height r ≤ 2147483647) :
    int_balance l r = cached_height l - cached_height r := by
  obtain ⟨h1, h2⟩ := h
  cases l <;> cases r <;> simp only [int_balance, cached_height] at *
  · simp
  · rw [wrap_int_of_fits _ (by omega) (by omega)]
    omega
  · simp
  · exact wrap_int_of_fits _ h1 h2

/-- Where no subtraction overflows, `compute_node_balance` with the arithmetic of
`int` is the function `compute_node_balance` on integers. -/
theorem compute_node_balance32_eq (k : α) (h b : Int) (l r : AVLNode α)
    (hf : -2147483648 ≤ cached_height l - cached_height r ∧
      cached_height l - cached_height r ≤ 2147483647) :
    compute_node_balance32 (node k h b l r) = compute_node_balance (node k h b l r) := by
  rw [compute_node_balance32_node, compute_node_balance_node, int_balance_eq l r hf]

theorem int_balanced_iff_of_fits (t : AVLNode α) (hf : no_overflow t) :
    int_balanced t ↔ cached_balanced t := by
  induction t with
  | nil => exact Iff.rfl
  | node k h b l r ihl ihr =>
      simp only [int_balanced, cached_balanced, int_balance_eq l r hf.1, ihl hf.2.1,
        ihr hf.2.2]

/-! ## The writes of `is_balanced()` -/

theorem written_pending (pend : List (List Dir)) (c : AVLNode α) (h : [] ∈ pend) :
    written pend c = c := by
  cases c <;> simp [written, h]

theorem cached_height_written (pend : List (List Dir)) (t : AVLNode α) :
    cached_height (written pend t) = cached_height t := by
  cases t with
  | nil => rfl
  | node k h b l r =>
      simp only [written]
      split <;> rfl

theorem int_balance_written (p1 p2 : List (List Dir)) (l r : AVLNode α) :
    int_balance (written p1 l) (written p2 r) = int_balance l r := by
  cases l with
  | nil =>
      cases r with
      | nil => rfl
      | node rk rh rb rl rr =>
          simp only [written]
          split <;> rfl
  | node lk lh lb ll lr =>
      cases r with
      | nil =>
          simp only [written]
          split <;> rfl
      | node rk rh rb rl rr =>
          simp only [written]
          split <;> split <;> rfl

theorem only_balances_written_refl (t : AVLNode α) : only_balances_written t t := by
  induction t with
  | nil => trivial
  | node k h b l r ihl ihr => exact ⟨rfl, rfl, Or.inl rfl, ihl, ihr⟩

theorem only_balances_written_written (pend : List (List Dir)) (t : AVLNode α) :
    only_balances_written t (written pend t) := by
  induction t generalizing pend with
  | nil => trivial
  | node k h b l r ihl ihr =>
      simp only [written]
      split
      · exact only_balances_written_refl _
      · exact ⟨rfl, rfl, Or.inr rfl, ihl _, ihr _⟩

theorem balances_cached_written (t : AVLNode α) : balances_cached (written [] t) := by
  induction t with
  | nil => trivial
  | node k h b l r ihl ihr =>
      have e : ∀ d, strip d ([] : List (List Dir)) = [] := fun d => rfl
      simp only [written, List.not_mem_nil, if_false, e]
      exact ⟨(int_balance_written _ _ l r).symm, ihl, ihr⟩

theorem subtree_at_written (pos : List Dir) (pend : List (List Dir)) (t : AVLNode α)
    (h : pos ∈ pend) : subtree_at pos (written pend t) = subtree_at pos t := by
  induction pos generalizing t pend with
  | nil => rw [written_pending pend t h]
  | cons d pos ih =>
      cases t with
      | nil => rfl
      | node k hh b l r =>
          by_cases hn : [] ∈ pend
          · rw [written_pending pend _ hn]
          · simp only [written, if_neg hn]
            cases d
            · exact ih _ l ((mem_strip _ _ _).mpr h)
            · exact ih _ r ((mem_strip _ _ _).mpr h)

/-- One iteration of the loop, on the tree. -/
theorem written_step (pos : List Dir) (t : AVLNode α) (rest : List (List Dir))
    (k : α) (h b : Int) (l r : AVLNode α) (ht : subtree_at pos t = node k h b l r)
    (h1 : ∀ p ∈ rest, ¬ p <+: pos) :
    modify_at (fun cur => (compute_node_balance32 cur).2) pos (written (pos :: rest) t) =
      written (push_pos (push_pos rest pos Dir.left l) pos Dir.right r) t := by
  induction pos generalizing t rest with
  | nil =>
      simp only [subtree_at] at ht
      subst ht
      have hn : [] ∉ rest := fun hc => h1 [] hc (List.prefix_refl _)
      have hn3 : ([] : List Dir) ∉
          push_pos (push_pos rest [] Dir.left l) [] Dir.right r := by
        rw [nil_mem_push_pos, nil_mem_push_pos]
        exact hn
      have el : written
          (strip Dir.left (push_pos (push_pos rest [] Dir.left l) [] Dir.right r)) l = l := by
        cases l with
        | nil => rfl
        | node lk lh lb ll lr =>
            refine written_pending _ _ ?_
            rw [nil_mem_strip_push_pos, nil_mem_strip_push_pos]
            simp
      have er : written
          (strip Dir.right (push_pos (push_pos rest [] Dir.left l) [] Dir.right r)) r = r := by
        cases r with
        | nil => rfl
        | node rk rh rb rl rr =>
            refine written_pending _ _ ?_
            rw [nil_mem_strip_push_pos, nil_mem_strip_push_pos]
            simp
      rw [written_pending _ _ (List.mem_cons_self _ _)]
      simp only [written, if_neg hn3, el, er, modify_at, compute_node_balance32_node]
  | cons d pos ih =>
      have hn : [] ∉ rest := fun hc => h1 [] hc (List.nil_prefix)
      cases t with
      | nil => simp [subtree_at] at ht
      | node k0 h0 b0 l0 r0 =>
          have hn2 : ([] : List Dir) ∉ (d :: pos) :: rest := by simp [hn]
          have hn3 : ([] : List Dir) ∉
              push_pos (push_pos rest (d :: pos) Dir.left l) (d :: pos) Dir.right r := by
            rw [nil_mem_push_pos, nil_mem_push_pos]
            exact hn
          cases d with
          | left =>
              simp only [subtree_at] at ht
              have i1 : ∀ p ∈ strip Dir.left rest, ¬ p <+: pos := by
                intro p hp hc
                exact h1 _ ((mem_strip _ _ _).mp hp) ((List.prefix_cons_inj _).mpr hc)
              have := ih l0 (strip Dir.left rest) ht i1
              simp only [written, if_neg hn2, if_neg hn3, modify_at, strip_cons_same,
                strip_cons_other Dir.right Dir.left pos rest (by decide),
                strip_push_pos_same,
                strip_push_pos_other Dir.right Dir.left _ pos _ _ (by decide), this]
          | right =>
              simp only [subtree_at] at ht
              have i1 : ∀ p ∈ strip Dir.right rest, ¬ p <+: pos := by
                intro p hp hc
                exact h1 _ ((mem_strip _ _ _).mp hp) ((List.prefix_cons_inj _).mpr hc)
              have := ih r0 (strip Dir.right rest) ht i1
              simp only [written, if_neg hn2, if_neg hn3, modify_at, strip_cons_same,
                strip_cons_other Dir.left Dir.right pos rest (by decide),
                strip_push_pos_same,
                strip_push_pos_other Dir.left Dir.right _ pos _ _ (by decide), this]

theorem queue_measure_push_child (q : List (AVLNode α)) (c : AVLNode α) :
    queue_measure (push_child q c) ≤ queue_measure q + 2 * size c + 1 := by
  cases c with
  | nil => simp [push_child, queue_measure, size, List.sum_append]
  | node _ _ _ _ _ =>
      simp only [push_child, queue_measure, size, List.sum_append, List.map_append,
        List.map_cons, List.map_nil, List.sum_cons, List.sum_nil]
      omega

theorem map_push_pos (t : AVLNode α) (q : List (List Dir)) (pos : List Dir) (d : Dir)
    (c : AVLNode α) (h : subtree_at (pos ++ [d]) t = c) :
    (push_pos q pos d c).map (fun p => subtree_at p t) =
      push_child (q.map (fun p => subtree_at p t)) c := by
  cases c with
  | nil => rfl
  | node k hh b l r => simp [push_pos, push_child, h]

theorem forall_mem_push_pos (P : AVLNode α → Prop) (hnil : P nil) (t : AVLNode α)
    (q : List (List Dir)) (pos : List Dir) (d : Dir) (c : AVLNode α)
    (h : subtree_at (pos ++ [d]) t = c) :
    (∀ p ∈ push_pos q pos d c, P (subtree_at p t)) ↔
      (∀ p ∈ q, P (subtree_at p t)) ∧ P c := by
  cases c with
  | nil => simp [push_pos, hnil]
  | node k hh b l r =>
      simp only [push_pos, List.mem_append, List.mem_singleton]
      constructor
      · intro hp
        exact ⟨fun p hm => hp p (Or.inl hm), by rw [← h]; exact hp _ (Or.inr rfl)⟩
      · rintro ⟨h1, h2⟩ p (hm | rfl)
        · exact h1 p hm
        · rw [h]; exact h2

/-- The loop of `is_balanced()` exits from every state in which the tree is the
original tree with the balances written everywhere but at and below the
pointers waiting in the queue. -/
theorem is_balanced_run_loop_spec (t : AVLNode α) (n : Nat) :
    ∀ q : List (List Dir), queue_measure (q.map (fun p => subtree_at p t)) ≤ n →
      q.Pairwise apart → (∀ p ∈ q, subtree_at p t ≠ nil) →
      ∃ res t2, (∀ fuel, n ≤ fuel →
          is_balanced_run_loop fuel (written q t) q = some (res, t2)) ∧
        only_balances_written t t2 ∧
        (res = true ↔ ∀ p ∈ q, int_balanced (subtree_at p t)) ∧
        (res = true → t2 = written [] t) := by
  induction n with
  | zero =>
      intro q hm _ _
      cases q with
      | nil =>
          refine ⟨true, written [] t, fun fuel _ => ?_, only_balances_written_written _ _,
            by simp, fun _ => rfl⟩
          cases fuel <;> rfl
      | cons pos rest => simp [queue_measure] at hm
  | succ m ih =>
      intro q hm hp hne
      cases q with
      | nil =>
          refine ⟨true, written [] t, fun fuel _ => ?_, only_balances_written_written _ _,
            by simp, fun _ => rfl⟩
          cases fuel <;> rfl
      | cons pos rest =>
          obtain ⟨hp1, hp2⟩ := List.pairwise_cons.mp hp
          have hpos := hne pos (List.mem_cons_self _ _)
          cases hsub : subtree_at pos t with
          | nil => exact absurd hsub hpos
          | node k h b l r =>
              have hl := subtree_at_concat_left pos t k h b l r hsub
              have hr := subtree_at_concat_right pos t k h b l r hsub
              have hstep := written_step pos t rest k h b l r hsub (fun p hm => (hp1 p hm).2)
              have hcur : subtree_at pos (written (pos :: rest) t) = node k h b l r := by
                rw [subtree_at_written pos _ t (List.mem_cons_self _ _), hsub]
              have hloop : ∀ fuel, is_balanced_run_loop (fuel + 1) (written (pos :: rest) t)
                  (pos :: rest) =
                  if int_balance l r < -1 ∨ int_balance l r > 1 then
                    some (false, written
                      (push_pos (push_pos rest pos Dir.left l) pos Dir.right r) t)
                  else is_balanced_run_loop fuel
                    (written (push_pos (push_pos rest pos Dir.left l) pos Dir.right r) t)
                    (push_pos (push_pos rest pos Dir.left l) pos Dir.right r) := by
                intro fuel
                simp only [is_balanced_run_loop, hcur, hstep, compute_node_balance32_node]
              by_cases hb : int_balance l r < -1 ∨ int_balance l r > 1
              · refine ⟨false,
                  written (push_pos (push_pos rest pos Dir.left l) pos Dir.right r) t,
                  fun fuel hf => ?_, only_balances_written_written _ _, ?_,
                  fun hc => by simp at hc⟩
                · obtain ⟨f, rfl⟩ : ∃ f, fuel = f + 1 := ⟨fuel - 1, by omega⟩
                  rw [hloop f, if_pos hb]
                · simp only [Bool.false_eq_true, false_iff]
                  intro hall
                  have := hall pos (List.mem_cons_self _ _)
                  rw [hsub] at this
                  have h1 := this.1
                  omega
              · have hm2 : queue_measure ((push_pos (push_pos rest pos Dir.left l) pos
                    Dir.right r).map (fun p => subtree_at p t)) ≤ m := by
                  rw [map_push_pos t _ pos Dir.right r hr, map_push_pos t _ pos Dir.left l hl]
                  have a1 := queue_measure_push_child
                    (push_child (rest.map (fun p => subtree_at p t)) l) r
                  have a2 := queue_measure_push_child (rest.map (fun p => subtree_at p t)) l
                  simp only [queue_measure, List.map_cons, List.sum_cons, hsub, size] at hm a1 a2 ⊢
                  omega
                have hp3 : (push_pos (push_pos rest pos Dir.left l) pos Dir.right r).Pairwise
                    apart := by
                  refine pairwise_push_pos _ pos Dir.right r
                    (pairwise_push_pos rest pos Dir.left l hp2
                      (fun p hm => apart_concat pos p Dir.left (hp1 p hm))) (fun p hm => ?_)
                  rcases mem_push_pos rest pos Dir.left l p hm with hm | rfl
                  · exact apart_concat pos p Dir.right (hp1 p hm)
                  · exact apart_siblings pos
                have hne3 : ∀ p ∈ push_pos (push_pos rest pos Dir.left l) pos Dir.right r,
                    subtree_at p t ≠ nil := by
                  intro p hm
                  rcases mem_push_pos _ pos Dir.right r p hm with hm | rfl
                  · rcases mem_push_pos _ pos Dir.left l p hm with hm | rfl
                    · exact hne p (List.mem_cons_of_mem _ hm)
                    · rw [hl]
                      intro hc
                      subst hc
                      simp only [push_pos] at hm
                      exact absurd (hl ▸ hne _ (List.mem_cons_of_mem _ hm)) (by simp)
                  · rw [hr]
                    intro hc
                    subst hc
                    simp only [push_pos] at hm
                    rcases mem_push_pos _ pos Dir.left l _ hm with hm | hm
                    · exact absurd (hr ▸ hne _ (List.mem_cons_of_mem _ hm)) (by simp)
                    · have := congrArg List.getLast? hm
                      simp at this
                obtain ⟨res, t2, h1, h2, h3, h4⟩ := ih _ hm2 hp3 hne3
                refine ⟨res, t2, fun fuel hf => ?_, h2, ?_, h4⟩
                · obtain ⟨f, rfl⟩ : ∃ f, fuel = f + 1 := ⟨fuel - 1, by omega⟩
                  rw [hloop f, if_neg hb]
                  exact h1 f (by omega)
                · rw [h3, forall_mem_push_pos int_balanced trivial t _ pos Dir.right r hr,
                    forall_mem_push_pos int_balanced trivial t _ pos Dir.left l hl]
                  constructor
                  · rintro ⟨⟨a1, a2⟩, a3⟩ p hm
                    rcases List.mem_cons.mp hm with rfl | hm
                    · rw [hsub]
                      exact ⟨⟨by omega, by omega⟩, a2, a3⟩
                    · exact a1 p hm
                  · intro hall
                    have := hall pos (List.mem_cons_self _ _)
                    rw [hsub] at this
                    exact ⟨⟨fun p hm => hall p (List.mem_cons_of_mem _ hm), this.2.1⟩, this.2.2⟩

theorem balances_differences_written (t : AVLNode α) (hf : no_overflow t) :
    balances_differences (written [] t) := by
  induction t with
  | nil => trivial
  | node k h b l r ihl ihr =>
      have e : ∀ d, strip d ([] : List (List Dir)) = [] := fun d => rfl
      simp only [written, List.not_mem_nil, if_false, e]
      refine ⟨?_, ihl hf.2.1, ihr hf.2.2⟩
      rw [cached_height_written, cached_height_written]
      exact int_balance_eq l r hf.1

/-- The function `is_balanced()` returns on every tree: the value it returns
says whether every balance factor the code computes lies in [-1,1], the tree
afterwards differs from the tree before in cached balances only, and after the
value true it is the tree with every balance written. -/
theorem is_balanced_run_spec (t : AVLNode α) :
    ∃ res t2, Returns (fun fuel => is_balanced_run fuel t) (res, t2) ∧
      only_balances_written t t2 ∧ (res = true ↔ int_balanced t) ∧
      (res = true → t2 = written [] t) := by
  cases t with
  | nil => exact ⟨true, nil, ⟨0, fun _ _ => rfl⟩, trivial, by simp [int_balanced], fun _ => rfl⟩
  | node k h b l r =>
      obtain ⟨res, t2, h1, h2, h3, h4⟩ := is_balanced_run_loop_spec (node k h b l r)
        (queue_measure ([[]].map (fun p => subtree_at p (node k h b l r)))) [[]] (le_refl _)
        (List.pairwise_singleton _ _) (fun p hp => by
          rw [List.mem_singleton.mp hp]
          simp [subtree_at])
      rw [written_pending _ _ (List.mem_singleton_self _)] at h1
      refine ⟨res, t2, ⟨_, h1⟩, h2, ?_, h4⟩
      rw [h3]
      simp [subtree_at]

/-- Where no subtraction overflows, the value `is_balanced()` returns is the
value of the function `is_balanced` on integers. -/
theorem is_balanced_run_eq_is_balanced (t : AVLNode α) (hf : no_overflow t) :
    ∃ t2, Returns (fun fuel => is_balanced_run fuel t) (is_balanced t, t2) := by
  obtain ⟨res, t2, h1, -, h3, -⟩ := is_balanced_run_spec t
  have e : (res = true) ↔ (is_balanced t = true) := by
    rw [h3, is_balanced_iff, int_balanced_iff_of_fits t hf]
  have e2 : res = is_balanced t := by
    cases res <;> cases hb : is_balanced t <;> simp_all
  rw [e2] at h1
  exact ⟨t2, h1⟩

/-- On `overflow_tree` the subtraction at the root wraps around: the call
writes the balance 1 there and returns true, whereas the cached height of the
left child minus that of the right child is -4294967295. -/
theorem is_balanced_run_overflow_tree :
    Returns (fun fuel => is_balanced_run fuel overflow_tree)
        (true, node 2 1 1 (node 1 (-2147483648) 0 nil nil) (node 3 2147483647 0 nil nil)) ∧
      ¬ cached_balanced overflow_tree := by
  refine ⟨⟨3, fun n hn => ?_⟩, by decide⟩
  obtain ⟨m, rfl⟩ : ∃ m, n = m + 3 := ⟨n - 3, by omega⟩
  have e : wrap_int (-4294967295) = 1 := by decide
  simp [is_balanced_run, is_balanced_run_loop, overflow_tree, subtree_at, push_pos, modify_at,
    int_balance, e]

/-- C15: the function `is_balanced()` returns true on the empty tree; on every
tree it returns, and it returns true exactly when every node's balance factor,
computed by the code as the cached height of its left child minus the cached
height of its right child with an absent child counted as 0, lies in [-1,1].
The subtraction is that of `int`; on every tree in which it does not overflow,
the value returned is true exactly when every such difference, as an integer,
lies in [-1,1]. -/
theorem is_balanced_correct :
    (∀ fuel, is_balanced_run fuel (nil : AVLNode α) = some (true, nil)) ∧
      ∀ t : AVLNode α, ∃ res t2, Returns (fun fuel => is_balanced_run fuel t) (res, t2) ∧
        (res = true ↔ int_balanced t) ∧
        (no_overflow t → (res = true ↔ cached_balanced t)) := by
  refine ⟨fun fuel => by cases fuel <;> rfl, fun t => ?_⟩
  obtain ⟨res, t2, h1, -, h3, -⟩ := is_balanced_run_spec t
  exact ⟨res, t2, h1, h3, fun hf => h3.trans (int_balanced_iff_of_fits t hf)⟩

theorem is_balanced_correct_witness :
    no_overflow example_tree ∧
      ∃ t2, Returns (fun fuel => is_balanced_run fuel example_tree) (true, t2) := by
  obtain ⟨res, t2, h1, -, h3⟩ := is_balanced_correct.2 example_tree
  have hres : res = true := (h3 (by decide)).mpr (by decide)
  rw [hres] at h1
  exact ⟨by decide, t2, h1⟩

/-- C29: `is_balanced()` only touches balance caches.  For every tree the call
returns; keys, cached heights and child links of the tree afterwards are those
before; the cached balance of a node is either the one before or the balance
factor the code computes, the cached height of its left child minus that of its
right child in the arithmetic of `int` (an absent child counted as 0); after a
call that returns true every node's cached balance is that balance factor, and
on every tree in which the subtraction does not overflow it is that difference
as an integer. -/
theorem is_balanced_only_writes_balances (t : AVLNode α) :
    ∃ res t2, Returns (fun fuel => is_balanced_run fuel t) (res, t2) ∧
      only_balances_written t t2 ∧ (res = true → balances_cached t2) ∧
      (no_overflow t → res = true → balances_differences t2) := by
  obtain ⟨res, t2, h1, h2, -, h4⟩ := is_balanced_run_spec t
  refine ⟨res, t2, h1, h2, fun hres => ?_, fun hf hres => ?_⟩
  · rw [h4 hres]
    exact balances_cached_written _
  · rw [h4 hres]
    exact balances_differences_written t hf

theorem is_balanced_only_writes_balances_witness :
    no_overflow example_tree ∧
      ∃ t2, Returns (fun fuel => is_balanced_run fuel example_tree) (true, t2) ∧
        only_balances_written example_tree t2 ∧ balances_cached t2 ∧
        balances_differences t2 := by
  obtain ⟨res, t2, h1, h2, h3, h4⟩ := is_balanced_only_writes_balances example_tree
  obtain ⟨t3, h5⟩ := is_balanced_run_eq_is_balanced example_tree (by decide)
  have e := returns_unique h1 h5
  have hres : res = true := by
    have e1 : res = is_balanced example_tree := congrArg Prod.fst e
    rw [e1]
    exact (is_balanced_iff _).mpr (by decide)
  rw [hres] at h1
  exact ⟨by decide, t2, h1, h2, h3 hres, h4 (by decide) hres⟩

/-! ## Counting the calls of `rebalance_to_right` and `rebalance_to_left` -/

theorem rebalance_loop_calls_keep (fuel : Nat) (above : List (Frame α)) (k : α) (h b : Int)
    (l r : AVLNode α) (h1 : ¬ cached_height l - cached_height r > 1)
    (h2 : ¬ cached_height l - cached_height r < -1) :
    rebalance_loop_calls (fuel + 1) above (node k h b l r) =
      match above with
      | [] => some (node k (new_height l r) (cached_height l - cached_height r) l r, 0)
      | f :: fs =>
          rebalance_loop_calls fuel fs
            (plug f (node k (new_height l r) (cached_height l - cached_height r) l r)) := by
  cases above <;>
    simp only [rebalance_loop_calls, compute_node_balance_node, if_neg h1, if_neg h2,
      update_height_node_node]

theorem rebalance_loop_calls_right_single (fuel : Nat) (above : List (Frame α)) (k : α)
    (h b : Int) (lk : α) (lh lb : Int) (ll lr r : AVLNode α) (h1 : lh - cached_height r > 1)
    (h2 : ¬ cached_height ll - cached_height lr < 0) :
    rebalance_loop_calls (fuel + 1) above (node k h b (node lk lh lb ll lr) r) =
      (rebalance_loop_calls fuel
        (⟨Dir.right, lk, new_height ll (node k (new_height lr r) (lh - cached_height r) lr r),
          cached_height ll - cached_height lr, ll⟩ :: above)
        (node k (new_height lr r) (lh - cached_height r) lr r)).map
        fun res => (res.1, res.2 + 1) := by
  simp only [rebalance_loop_calls, compute_node_balance_node, cached_height_node, if_pos h1,
    rebalance_to_right, if_neg h2, rotate_right_node, update_height_node_node]

theorem rebalance_loop_calls_right_double (fuel : Nat) (above : List (Frame α)) (k : α)
    (h b : Int) (lk : α) (lh lb : Int) (ll : AVLNode α) (mk : α) (mh mb : Int)
    (ml mr r : AVLNode α) (h1 : lh - cached_height r > 1) (h2 : cached_height ll - mh < 0) :
    rebalance_loop_calls (fuel + 1) above
        (node k h b (node lk lh lb ll (node mk mh mb ml mr)) r) =
      (rebalance_loop_calls fuel
        (⟨Dir.right, mk,
          new_height (node lk (new_height ll ml) (cached_height ll - mh) ll ml)
            (node k (new_height mr r) (lh - cached_height r) mr r),
          mb, node lk (new_height ll ml) (cached_height ll - mh) ll ml⟩ :: above)
        (node k (new_height mr r) (lh - cached_height r) mr r)).map
        fun res => (res.1, res.2 + 1) := by
  simp only [rebalance_loop_calls, compute_node_balance_node, cached_height_node, if_pos h1,
    rebalance_to_right, if_pos h2, rotate_left_node, rotate_right_node, update_height_node_node]

theorem rebalance_loop_calls_left_single (fuel : Nat) (above : List (Frame α)) (k : α)
    (h b : Int) (l : AVLNode α) (rk : α) (rh rb : Int) (rl rr : AVLNode α)
    (h1 : ¬ cached_height l - rh > 1) (h2 : cached_height l - rh < -1)
    (h3 : ¬ cached_height rl - cached_height rr > 0) :
    rebalance_loop_calls (fuel + 1) above (node k h b l (node rk rh rb rl rr)) =
      (rebalance_loop_calls fuel
        (⟨Dir.left, rk, new_height (node k (new_height l rl) (cached_height l - rh) l rl) rr,
          cached_height rl - cached_height rr, rr⟩ :: above)
        (node k (new_height l rl) (cached_height l - rh) l rl)).map
        fun res => (res.1, res.2 + 1) := by
  simp only [rebalance_loop_calls, compute_node_balance_node, cached_height_node, if_neg h1,
    if_pos h2, rebalance_to_left, if_neg h3, rotate_left_node, update_height_node_node]

theorem rebalance_loop_calls_left_double (fuel : Nat) (above : List (Frame α)) (k : α)
    (h b : Int) (l : AVLNode α) (rk : α) (rh rb : Int) (mk : α) (mh mb : Int)
    (ml mr rr : AVLNode α) (h1 : ¬ cached_height l - rh > 1) (h2 : cached_height l - rh < -1)
    (h3 : mh - cached_height rr > 0) :
    rebalance_loop_calls (fuel + 1) above
        (node k h b l (node rk rh rb (node mk mh mb ml mr) rr)) =
      (rebalance_loop_calls fuel
        (⟨Dir.left, mk,
          new_height (node k (new_height l ml) (cached_height l - rh) l ml)
            (node rk (new_height mr rr) (mh - cached_height rr) mr rr),
          mb, node rk (new_height mr rr) (mh - cached_height rr) mr rr⟩ :: above)
        (node k (new_height l ml) (cached_height l - rh) l ml)).map
        fun res => (res.1, res.2 + 1) := by
  simp only [rebalance_loop_calls, compute_node_balance_node, cached_height_node, if_neg h1,
    if_pos h2, rebalance_to_left, if_pos h3, rotate_left_node, rotate_right_node,
    update_height_node_node]

/-- The counted loop returns the tree the loop of `rebalance` returns. -/
theorem rebalance_loop_calls_fst (fuel : Nat) :
    ∀ (above : List (Frame α)) (cur : AVLNode α),
      (rebalance_loop_calls fuel above cur).map Prod.fst = rebalance_loop fuel above cur := by
  induction fuel with
  | zero => intro above cur; rfl
  | succ fuel ih =>
      intro above cur
      cases cur with
      | nil => rfl
      | node k h b l r =>
          simp only [rebalance_loop_calls, rebalance_loop]
          split
          · split
            · split
              · rw [Option.map_map, ← ih]
                rfl
              · rfl
            · rfl
          · split
            · split
              · split
                · rw [Option.map_map, ← ih]
                  rfl
                · rfl
              · rfl
            · cases above with
              | nil => rfl
              | cons f fs => exact ih _ _

theorem rebalance_calls_fst (fuel : Nat) (p : Path α) :
    (rebalance_calls fuel p).map Prod.fst = rebalance fuel p := by
  cases p with
  | empty root => rfl
  | nodes above back => exact rebalance_loop_calls_fst fuel above back

theorem returns_map {β : Type} {run run2 : Nat → Option β} (g : β → β)
    (hstep : ∀ fuel, run (fuel + 1) = (run2 fuel).map g) {v : β} (hr : Returns run2 v) :
    Returns run (g v) := by
  obtain ⟨f, hf⟩ := hr
  refine ⟨f + 1, fun n hn => ?_⟩
  obtain ⟨m, rfl⟩ : ∃ m, n = m + 1 := ⟨n - 1, by omega⟩
  rw [hstep m, hf m (by omega)]
  rfl

/-- From a node whose children are balanced against each other, below ancestors
that are balanced for its height, the loop keeps every node: it returns without
a call of `rebalance_to_right` or `rebalance_to_left`. -/
theorem rebalance_loop_calls_balanced (above : List (Frame α)) :
    ∀ (k : α) (h b : Int) (l r : AVLNode α), frames_ok 2 above → good 2 l → good 2 r →
      true_height l ≤ true_height r + 1 → true_height r ≤ true_height l + 1 →
      anc_balanced (1 + max (true_height l) (true_height r)) above →
      ∃ t, Returns (fun fuel => rebalance_loop_calls fuel above (node k h b l r)) (t, 0) := by
  induction above with
  | nil =>
      intro k h b l r _ hl hr b1 b2 _
      have cl := cached_height_of_exact (hl.1 (by omega))
      have cr := cached_height_of_exact (hr.1 (by omega))
      refine ⟨node k (new_height l r) (cached_height l - cached_height r) l r,
        ⟨1, fun n hn => ?_⟩⟩
      obtain ⟨m, rfl⟩ : ∃ m, n = m + 1 := ⟨n - 1, by omega⟩
      exact rebalance_loop_calls_keep m [] k h b l r (by omega) (by omega)
  | cons f fs ih =>
      intro k h b l r hf hl hr b1 b2 ha
      have cl := cached_height_of_exact (hl.1 (by omega))
      have cr := cached_height_of_exact (hr.1 (by omega))
      have gc : good 2 (node k (new_height l r) (cached_height l - cached_height r) l r) :=
        good_new_height (by omega) k _ hl hr (fun _ => ⟨b1, b2⟩)
      have hfs : frames_ok 2 fs := fun g hg => hf g (List.mem_cons_of_mem _ hg)
      have hfo : good 2 f.other := hf f (List.mem_cons_self _ _)
      have hstep : ∀ fuel, rebalance_loop_calls (fuel + 1) (f :: fs) (node k h b l r) =
          rebalance_loop_calls fuel fs
            (plug f (node k (new_height l r) (cached_height l - cached_height r) l r)) :=
        fun fuel => rebalance_loop_calls_keep fuel (f :: fs) k h b l r (by omega) (by omega)
      have hnext : ∃ t, Returns (fun fuel => rebalance_loop_calls fuel fs
          (plug f (node k (new_height l r) (cached_height l - cached_height r) l r)))
          (t, 0) := by
        cases f with
        | mk d fk fh fb o =>
            obtain ⟨a1, a2, a3⟩ := ha
            simp only at a1 a2 a3 hfo
            cases d
            · exact ih fk fh fb _ o hfs gc hfo (by simp only [true_height]; omega)
                (by simp only [true_height]; omega) a3
            · refine ih fk fh fb o _ hfs hfo gc (by simp only [true_height]; omega)
                (by simp only [true_height]; omega) ?_
              rw [max_comm]
              exact a3
      obtain ⟨t, f0, hf0⟩ := hnext
      refine ⟨t, ⟨f0 + 1, fun n hn => ?_⟩⟩
      obtain ⟨m, rfl⟩ : ∃ m, n = m + 1 := ⟨n - 1, by omega⟩
      exact (hstep m).trans (hf0 m (by omega))

/-! ## A balanced insertion rotates at most once -/

/-- One node on the way up after an insertion, when the subtree of one of its
children has grown: either the loop returns from here with at most one call of
`rebalance_to_right` or `rebalance_to_left`, or the node is kept and its own
subtree has grown. -/
theorem grown_step (above : List (Frame α)) (k : α) (h b : Int) (l r : AVLNode α) (hc : Nat)
    (hf : frames_ok 2 above) (hl : good 2 l) (hr : good 2 r)
    (hg : grown_at hc l r above ∨ grown_at hc r l above) :
    (∃ t n, Returns (fun fuel => rebalance_loop_calls fuel above (node k h b l r)) (t, n) ∧
        n ≤ 1) ∨
      (¬ cached_height l - cached_height r > 1 ∧ ¬ cached_height l - cached_height r < -1 ∧
        ∃ H, anc_balanced H above ∧ true_height (node k h b l r) = H + 1 ∧
          tilted (node k h b l r)) := by
  have cl := cached_height_of_exact (hl.1 (by omega))
  have cr := cached_height_of_exact (hr.1 (by omega))
  rcases hg with ⟨g1, g2, g3, g4, g5⟩ | ⟨g1, g2, g3, g4, g5⟩
  · -- the subtree of the left child has grown
    by_cases h1 : cached_height l - cached_height r > 1
    · left
      have n1 : true_height r + 1 < true_height l := by omega
      clear cl
      cases l with
      | nil => simp [true_height] at g1
      | node lk lh lb ll lr =>
        have gll := good_left hl
        have glr := good_right hl
        have cll := cached_height_of_exact (gll.1 (by omega))
        have clr := cached_height_of_exact (glr.1 (by omega))
        have e1 := (hl.2 (le_refl 2)).1
        simp only [cached_height_node] at h1
        by_cases h2 : cached_height ll - cached_height lr < 0
        · have n2 : true_height ll < true_height lr := by omega
          cases lr with
          | nil => simp [true_height] at n2
          | node mk mh mb ml mr =>
            have gml := good_left glr
            have gmr := good_right glr
            have e2 := (glr.2 (le_refl 2)).1
            simp only [cached_height_node] at h2
            have hstep := fun fuel =>
              rebalance_loop_calls_right_double fuel above k h b lk lh lb ll mk mh mb ml mr r h1 h2
            clear cll clr cr h1 h2
            simp only [true_height] at g1 n1 n2 e1
            have gn : good 2 (node lk (new_height ll ml) (cached_height ll - mh) ll ml) :=
              good_new_height (by omega) lk _ gll gml (fun _ => by omega)
            have e : 1 + max (1 + max (true_height mr) (true_height r))
                (1 + max (true_height ll) (true_height ml)) = 1 + max hc (true_height r) := by
              omega
            obtain ⟨t, hret⟩ := rebalance_loop_calls_balanced
              (⟨Dir.right, mk,
                new_height (node lk (new_height ll ml) (cached_height ll - mh) ll ml)
                  (node k (new_height mr r) (lh - cached_height r) mr r),
                mb, node lk (new_height ll ml) (cached_height ll - mh) ll ml⟩ :: above)
              k (new_height mr r) (lh - cached_height r) mr r (frames_ok_cons gn hf) gmr hr
              (by omega) (by omega)
              ⟨by simp only [true_height]; omega, by simp only [true_height]; omega, by
                simp only [true_height]
                rw [e]
                exact g5⟩
            exact ⟨t, 1, returns_map (fun res => (res.1, res.2 + 1)) hstep hret, le_refl 1⟩
        · have n2 : true_height lr ≤ true_height ll := by omega
          have hstep := fun fuel =>
            rebalance_loop_calls_right_single fuel above k h b lk lh lb ll lr r h1 h2
          clear cll clr cr h1 h2
          simp only [true_height, tilted] at g1 g2 n1 e1
          have e : 1 + max (1 + max (true_height lr) (true_height r)) (true_height ll) =
              1 + max hc (true_height r) := by
            omega
          obtain ⟨t, hret⟩ := rebalance_loop_calls_balanced
            (⟨Dir.right, lk,
              new_height ll (node k (new_height lr r) (lh - cached_height r) lr r),
              cached_height ll - cached_height lr, ll⟩ :: above)
            k (new_height lr r) (lh - cached_height r) lr r (frames_ok_cons gll hf) glr hr
            (by omega) (by omega)
            ⟨by simp only []; omega, by simp only []; omega, by
              simp only []
              rw [e]
              exact g5⟩
          exact ⟨t, 1, returns_map (fun res => (res.1, res.2 + 1)) hstep hret, le_refl 1⟩
    · have h1b : ¬ cached_height l - cached_height r < -1 := by omega
      by_cases hh : true_height r = hc + 1
      · left
        obtain ⟨t, hret⟩ := rebalance_loop_calls_balanced above k h b l r hf hl hr
          (by omega) (by omega) (by
            have e : 1 + max (true_height l) (true_height r) = 1 + max hc (true_height r) := by
              omega
            rw [e]
            exact g5)
        exact ⟨t, 0, hret, by omega⟩
      · right
        refine ⟨h1, h1b, 1 + max hc (true_height r), g5, ?_, Or.inr (Or.inl ?_)⟩
        · simp only [true_height]
          omega
        · omega
  · -- the subtree of the right child has grown
    have h1 : ¬ cached_height l - cached_height r > 1 := by omega
    by_cases h1b : cached_height l - cached_height r < -1
    · left
      have n1 : true_height l + 1 < true_height r := by omega
      clear cr
      cases r with
      | nil => simp [true_height] at g1
      | node rk rh rb rl rr =>
        have grl := good_left hr
        have grr := good_right hr
        have crl := cached_height_of_exact (grl.1 (by omega))
        have crr := cached_height_of_exact (grr.1 (by omega))
        have e1 := (hr.2 (le_refl 2)).1
        simp only [cached_height_node] at h1 h1b
        by_cases h3 : cached_height rl - cached_height rr > 0
        · have n2 : true_height rr < true_height rl := by omega
          cases rl with
          | nil => simp [true_height] at n2
          | node mk mh mb ml mr =>
            have gml := good_left grl
            have gmr := good_right grl
            have e2 := (grl.2 (le_refl 2)).1
            simp only [cached_height_node] at h3
            have hstep := fun fuel =>
              rebalance_loop_calls_left_double fuel above k h b l rk rh rb mk mh mb ml mr rr
                h1 h1b h3
            clear crl crr cl h1 h1b h3
            simp only [true_height] at g1 n1 n2 e1
            have gn : good 2 (node rk (new_height mr rr) (mh - cached_height rr) mr rr) :=
              good_new_height (by omega) rk _ gmr grr (fun _ => by omega)
            have e : 1 + max (1 + max (true_height l) (true_height ml))
                (1 + max (true_height mr) (true_height rr)) = 1 + max hc (true_height l) := by
              omega
            obtain ⟨t, hret⟩ := rebalance_loop_calls_balanced
              (⟨Dir.left, mk,
                new_height (node k (new_height l ml) (cached_height l - rh) l ml)
                  (node rk (new_height mr rr) (mh - cached_height rr) mr rr),
                mb, node rk (new_height mr rr) (mh - cached_height rr) mr rr⟩ :: above)
              k (new_height l ml) (cached_height l - rh) l ml (frames_ok_cons gn hf) hl gml
              (by omega) (by omega)
              ⟨by simp only [true_height]; omega, by simp only [true_height]; omega, by
                simp only [true_height]
                rw [e]
                exact g5⟩
            exact ⟨t, 1, returns_map (fun res => (res.1, res.2 + 1)) hstep hret, le_refl 1⟩
        · have n2 : true_height rl ≤ true_height rr := by omega
          have hstep := fun fuel =>
            rebalance_loop_calls_left_single fuel above k h b l rk rh rb rl rr h1 h1b h3
          clear crl crr cl h1 h1b h3
          simp only [true_height, tilted] at g1 g2 n1 e1
          have e : 1 + max (1 + max (true_height l) (true_height rl)) (true_height rr) =
              1 + max hc (true_height l) := by
            omega
          obtain ⟨t, hret⟩ := rebalance_loop_calls_balanced
            (⟨Dir.left, rk,
              new_height (node k (new_height l rl) (cached_height l - rh) l rl) rr,
              cached_height rl - cached_height rr, rr⟩ :: above)
            k (new_height l rl) (cached_height l - rh) l rl (frames_ok_cons grr hf) hl grl
            (by omega) (by omega)
            ⟨by simp only []; omega, by simp only []; omega, by
              simp only []
              rw [e]
              exact g5⟩
          exact ⟨t, 1, returns_map (fun res => (res.1, res.2 + 1)) hstep hret, le_refl 1⟩
    · by_cases hh : true_height l = hc + 1
      · left
        obtain ⟨t, hret⟩ := rebalance_loop_calls_balanced above k h b l r hf hl hr
          (by omega) (by omega) (by
            have e : 1 + max (true_height l) (true_height r) = 1 + max hc (true_height l) := by
              omega
            rw [e]
            exact g5)
        exact ⟨t, 0, hret, by omega⟩
      · right
        refine ⟨h1, h1b, 1 + max hc (true_height l), g5, ?_, Or.inr (Or.inr ?_)⟩
        · simp only [true_height]
          omega
        · omega

/-- On the way up after an insertion into a balanced tree with exact cached
heights, the loop of `rebalance` returns with at most one call of
`rebalance_to_right` or `rebalance_to_left`. -/
theorem rebalance_loop_calls_grown (above : List (Frame α)) :
    ∀ (k : α) (h b : Int) (l r : AVLNode α) (hc : Nat), frames_ok 2 above → good 2 l →
      good 2 r → (grown_at hc l r above ∨ grown_at hc r l above) →
      ∃ t n, Returns (fun fuel => rebalance_loop_calls fuel above (node k h b l r)) (t, n) ∧
        n ≤ 1 := by
  induction above with
  | nil =>
      intro k h b l r hc hf hl hr hg
      rcases grown_step [] k h b l r hc hf hl hr hg with hd | ⟨h1, h2, -⟩
      · exact hd
      · refine ⟨node k (new_height l r) (cached_height l - cached_height r) l r, 0,
          ⟨1, fun n hn => ?_⟩, by omega⟩
        obtain ⟨m, rfl⟩ : ∃ m, n = m + 1 := ⟨n - 1, by omega⟩
        exact rebalance_loop_calls_keep m [] k h b l r h1 h2
  | cons f fs ih =>
      intro k h b l r hc hf hl hr hg
      rcases grown_step (f :: fs) k h b l r hc hf hl hr hg with hd | ⟨h1, h2, H, ha, e, ti⟩
      · exact hd
      · have cl := cached_height_of_exact (hl.1 (by omega))
        have cr := cached_height_of_exact (hr.1 (by omega))
        have gc : good 2 (node k (new_height l r) (cached_height l - cached_height r) l r) :=
          good_new_height (by omega) k _ hl hr (fun _ => by omega)
        have hfs : frames_ok 2 fs := fun g hg => hf g (List.mem_cons_of_mem _ hg)
        have hfo : good 2 f.other := hf f (List.mem_cons_self _ _)
        have hstep : ∀ fuel, rebalance_loop_calls (fuel + 1) (f :: fs) (node k h b l r) =
            rebalance_loop_calls fuel fs
              (plug f (node k (new_height l r) (cached_height l - cached_height r) l r)) :=
          fun fuel => rebalance_loop_calls_keep fuel (f :: fs) k h b l r h1 h2
        have hnext : ∃ t n, Returns (fun fuel => rebalance_loop_calls fuel fs
            (plug f (node k (new_height l r) (cached_height l - cached_height r) l r)))
            (t, n) ∧ n ≤ 1 := by
          cases f with
          | mk d fk fh fb o =>
              obtain ⟨a1, a2, a3⟩ := ha
              simp only at a1 a2 a3 hfo
              cases d
              · exact ih fk fh fb _ o H hfs gc hfo (Or.inl ⟨e, ti, a1, a2, a3⟩)
              · exact ih fk fh fb o _ H hfs hfo gc (Or.inr ⟨e, ti, a1, a2, a3⟩)
        obtain ⟨t, n, ⟨f0, hf0⟩, hn1⟩ := hnext
        refine ⟨t, n, ⟨f0 + 1, fun j hj => ?_⟩, hn1⟩
        obtain ⟨m, rfl⟩ : ∃ m, j = m + 1 := ⟨j - 1, by omega⟩
        exact (hstep m).trans (hf0 m (by omega))

section ordered

variable [LinearOrder α]

theorem insertnb_loop_grown (key : α) (path : List (Frame α)) (t : AVLNode α)
    (hp : head_ok key path) (hf : frames_ok 2 path) (ht : good 2 t)
    (ha : anc_balanced (true_height t) path) : grown_path (insertnb_loop key path t) := by
  induction t generalizing path with
  | nil =>
      cases path with
      | nil => trivial
      | cons f fs =>
          have hfs : frames_ok 2 fs := fun g hg => hf g (List.mem_cons_of_mem _ hg)
          have hfo : good 2 f.other := hf f (List.mem_cons_self _ _)
          cases f with
          | mk d k h b o =>
              obtain ⟨a1, a2, a3⟩ := ha
              simp only [true_height] at a1 a2 a3 hfo
              have hleaf : true_height (new_node key) = 0 + 1 ∧ tilted (new_node key) :=
                ⟨by simp [new_node, true_height], Or.inl ⟨rfl, rfl⟩⟩
              cases d
              · have hk : ¬ key > k := by simpa [head_ok] using hp
                simp only [insertnb_loop, plug, hk, if_false]
                exact ⟨hfs, good_new_node 2 key, hfo, Or.inl ⟨hleaf.1, hleaf.2, a1, a2, a3⟩⟩
              · have hk : key > k := by simpa [head_ok] using hp
                simp only [insertnb_loop, plug, hk, if_true]
                exact ⟨hfs, hfo, good_new_node 2 key, Or.inr ⟨hleaf.1, hleaf.2, a1, a2, a3⟩⟩
  | node k h b l r ihl ihr =>
      have e1 := (ht.2 (le_refl 2)).1
      simp only [true_height] at ha
      simp only [insertnb_loop]
      split
      · rename_i hgt
        refine ihr _ (by simpa [head_ok] using hgt) (frames_ok_cons (good_left ht) hf)
          (good_right ht) ⟨e1.1, e1.2, ?_⟩
        rw [max_comm]
        exact ha
      · split
        · rename_i hgt hlt
          exact ihl _ (by simpa [head_ok] using hgt) (frames_ok_cons (good_right ht) hf)
            (good_left ht) ⟨e1.2, e1.1, ha⟩
        · trivial

theorem insertnb_grown (t : AVLNode α) (key : α) (ht : good 2 t) :
    grown_path (insertnb t key) := by
  cases t with
  | nil => trivial
  | node k h b l r =>
      exact insertnb_loop_grown key [] _ (by simp [head_ok]) (fun _ hg => by simp at hg) ht
        trivial

/-- C28: a balanced insert needs at most one rebalancing step.  For every
tree with exact cached heights and all height differences in [-1,1] and for
every key, `insert(key)` returns, and its rebalance pass calls
`rebalance_to_right` or `rebalance_to_left` at most once in total (the
search-tree order of the tree is not needed for this). -/
theorem insert_rebalances_at_most_once (t : AVLNode α) (key : α)
    (he : heights_exact t) (hb : height_balanced t) :
    ∃ t2 n, Returns (fun fuel => insert_calls fuel t key) (t2, n) ∧ n ≤ 1 ∧
      Returns (fun fuel => insert fuel t key) t2 := by
  have hcalls : ∃ t2 n, Returns (fun fuel => insert_calls fuel t key) (t2, n) ∧ n ≤ 1 := by
    have hg := insertnb_grown t key (good_two he hb)
    simp only [insert_calls]
    cases hp : insertnb t key with
    | empty root => exact ⟨root, 0, ⟨0, fun _ _ => rfl⟩, by omega⟩
    | nodes above back =>
        rw [hp] at hg
        cases back with
        | nil => exact hg.elim
        | node k h b l r =>
            obtain ⟨g1, g2, g3, g4⟩ := hg
            exact rebalance_loop_calls_grown above k h b l r 0 g1 g2 g3 g4
  obtain ⟨t2, n, ⟨f, hf⟩, hn⟩ := hcalls
  refine ⟨t2, n, ⟨f, hf⟩, hn, ⟨f, fun j hj => ?_⟩⟩
  have h1 := hf j hj
  have h2 := rebalance_calls_fst j (insertnb t key)
  simp only [insert_calls] at h1
  rw [h1] at h2
  exact h2.symm

theorem insert_rebalances_at_most_once_witness :
    heights_exact example_tree ∧ height_balanced example_tree ∧
      ∃ t2 n, Returns (fun fuel => insert_calls fuel example_tree 12) (t2, n) ∧ n ≤ 1 ∧
        Returns (fun fuel => insert fuel example_tree 12) t2 :=
  ⟨by decide, by decide, insert_rebalances_at_most_once example_tree 12 (by decide) (by decide)⟩

end ordered

end AVLNode

end mathsophy
